import Mathlib

/-!
# unpackv3: catalog, path hash, lookup and record decoding

A shallow embedding of `unpackv3.go`.

Modelling conventions
* A Go `string` holding valid UTF-8 is a `List Char` (its runes in order); the
  byte-level `strings.Replace` with ASCII patterns acts on such a string exactly
  as the rune-level replacement below, and `for _, v := range s` yields the runes.
* Go `uint64` is a `Nat` reduced `% 2 ^ 64` where the code can wrap; `int64` and
  `int32` are `Int`.
* A byte is a `Fin 256`; files and buffers are `List Byte`.
* `log.Fatal` and run-time panics end the process; both are explicit results.
* Library code that is not part of the repository is either embedded from its
  published algorithm (`sort.Search`, `strings.Replace`, `binary.Read`) or taken
  as a parameter (the Unicode lower-case table, `strings.TrimSpace`, the LZO1X
  decompressor, the file system).
* `sort.Sort` is embedded in full in both published forms, the quicksort of Go 1.7 to
  1.18 (`SortItems`) and the pattern-defeating quicksort from Go 1.19 on
  (`SortItemsPdq`); both are proved to meet the contract `SortedBy`, which is all the
  lookup needs of the sort.
* The loop of `main` is a function from the lines of the list file to the events it
  causes (lines printed, files written) and the way it ends.
-/

namespace UnpackV3

/-! ## Data model -/

/-- One octet of a file or buffer. -/
abbrev Byte := Fin 256

/-- How a call ends: a value, `log.Fatal`, or a run-time panic. -/
inductive Result (α : Type) where
  | ok (value : α)
  | fatal
  | panic
deriving DecidableEq, Repr

/-- Type `Head`: the index header (512 bytes on disk). -/
structure Head where
  Sign : Nat
  Tmp : Nat
  Num : Int
  Trunk : List Byte
  CfgName : List Byte
deriving DecidableEq, Repr

/-- Type `Item`: one index entry (20 bytes on disk). -/
structure Item where
  Hash : Nat
  Encpos : Int
  Encsize : Int
deriving DecidableEq, Repr

/-- Type `FileInfo`: the sub-header at the start of a record block (40 bytes decoded). -/
structure FileInfo where
  Tmp1 : Int
  Tmp2 : Int
  Srcsize : Int
  Tmp4 : Int
  Pos : Int
  Encsize : Int
  Tmp7 : Int
  Enc : Int
deriving DecidableEq, Repr

/-- Method `Items.Less`, on the two elements it compares: `p[i].Hash < p[j].Hash`. -/
def Less (a b : Item) : Bool := decide (a.Hash < b.Hash)

/-! ## FileNameHash -/

/-- Constant `limit` of the source. -/
def limit : Bool := false

/-- Go `unicode.ToLower`: ASCII letters by arithmetic, every other rune through the
Unicode case table, which is the parameter `caseTable`. -/
def toLowerRune (caseTable : Char → Char) (r : Char) : Char :=
  if r.toNat ≤ 0x7F then
    if 'A'.toNat ≤ r.toNat ∧ r.toNat ≤ 'Z'.toNat then
      Char.ofNat (r.toNat + ('a'.toNat - 'A'.toNat))
    else r
  else caseTable r

/-- Go `strings.ToLower` on valid UTF-8: every rune is mapped by `unicode.ToLower`. -/
def ToLower (caseTable : Char → Char) (s : List Char) : List Char :=
  s.map (toLowerRune caseTable)

/-- The scan of Go `strings.Replace(s, old, new, -1)` for a non-empty `old`: leftmost,
non-overlapping matches, one pass. `skip` counts the characters of a match that are
still to be consumed. -/
def replaceFrom (old new : List Char) : Nat → List Char → List Char
  | _, [] => []
  | skip + 1, _ :: rest => replaceFrom old new skip rest
  | 0, c :: rest =>
    if old.isPrefixOf (c :: rest) then new ++ replaceFrom old new (old.length - 1) rest
    else c :: replaceFrom old new 0 rest

/-- Go `strings.Replace(s, old, new, -1)` for a non-empty `old`. -/
def Replace (s old new : List Char) : List Char := replaceFrom old new 0 s

/-- Go `strings.HasPrefix`. -/
def HasPrefix (s pre : List Char) : Bool := pre.isPrefixOf s

/-- The preprocessing of `FileNameHash` (source lines 93-98). -/
def canon (caseTable : Char → Char) (fileName : List Char) : List Char :=
  let fileName := ToLower caseTable fileName
  let fileName := Replace fileName "/".toList "\\".toList
  let fileName := Replace fileName "\\\\".toList "\\".toList
  if HasPrefix fileName "\\".toList then fileName.drop 1 else fileName

/-- Function `FileNameHash`. The two base64 constants of the `limit` branch decode to
`data` and `represent`. -/
def FileNameHash (caseTable : Char → Char) (fileName : List Char) : Nat :=
  if fileName = [] then 0
  else
    let fileName := canon caseTable fileName
    if limit && !(HasPrefix fileName "data".toList || HasPrefix fileName "represent".toList) then 0
    else fileName.foldl (fun hash v => (v.toNat + 0x83 * hash) % 2 ^ 64) 0

/-! ## binary.Read with binary.LittleEndian -/

/-- Little-endian value of a byte string (`binary.LittleEndian.Uint32`, `Uint64`). -/
def uintLE : List Byte → Nat
  | [] => 0
  | b :: rest => b.val + 256 * uintLE rest

/-- Go conversion of an unsigned `bits`-bit value to the signed type of the same width. -/
def toSigned (bits : Nat) (u : Nat) : Int :=
  if u < 2 ^ (bits - 1) then (u : Int) else (u : Int) - 2 ^ bits

/-- The decoder reads an unsigned field of `n` bytes and advances. -/
def readUint (n : Nat) (buf : List Byte) : Nat × List Byte :=
  (uintLE (buf.take n), buf.drop n)

/-- The decoder reads a signed field of `n` bytes and advances. -/
def readInt (n : Nat) (buf : List Byte) : Int × List Byte :=
  (toSigned (8 * n) (uintLE (buf.take n)), buf.drop n)

/-- The decoder reads a byte array of `n` bytes and advances. -/
def readBytes (n : Nat) (buf : List Byte) : List Byte × List Byte :=
  (buf.take n, buf.drop n)

/-- Decoding of a `Head`, field by field in declaration order. -/
def decodeHead (buf : List Byte) : Head × List Byte :=
  let (sign, buf) := readUint 8 buf
  let (tmp, buf) := readUint 4 buf
  let (num, buf) := readInt 4 buf
  let (trunk, buf) := readBytes 0x80 buf
  let (cfgName, buf) := readBytes 0x170 buf
  ({ Sign := sign, Tmp := tmp, Num := num, Trunk := trunk, CfgName := cfgName }, buf)

/-- Decoding of one `Item`, field by field in declaration order. -/
def decodeItem (buf : List Byte) : Item × List Byte :=
  let (hash, buf) := readUint 8 buf
  let (encpos, buf) := readInt 8 buf
  let (encsize, buf) := readInt 4 buf
  ({ Hash := hash, Encpos := encpos, Encsize := encsize }, buf)

/-- Decoding of a slice of `n` items from consecutive bytes. -/
def decodeItems : Nat → List Byte → List Item
  | 0, _ => []
  | n + 1, buf => (decodeItem buf).1 :: decodeItems n (decodeItem buf).2

/-- Decoding of a `FileInfo`, field by field in declaration order. -/
def decodeFileInfo (buf : List Byte) : FileInfo × List Byte :=
  let (tmp1, buf) := readInt 8 buf
  let (tmp2, buf) := readInt 4 buf
  let (srcsize, buf) := readInt 4 buf
  let (tmp4, buf) := readInt 4 buf
  let (pos, buf) := readInt 8 buf
  let (encsize, buf) := readInt 4 buf
  let (tmp7, buf) := readInt 4 buf
  let (enc, buf) := readInt 4 buf
  ({ Tmp1 := tmp1, Tmp2 := tmp2, Srcsize := srcsize, Tmp4 := tmp4, Pos := pos,
     Encsize := encsize, Tmp7 := tmp7, Enc := enc }, buf)

/-! ## ReadItems -/

/-- Function `ReadItems`, from the content `fd` of `Trunk.DIR`. The header read needs
512 bytes, `make([]Item, head.Num)` panics on a negative count, and the item read needs
`20 * head.Num` bytes from offset `0x200`. -/
def ReadItems (fd : List Byte) : Result (List Item) :=
  let r := fd.drop 0
  if r.length < 512 then .fatal
  else
    let head := (decodeHead (r.take 512)).1
    let r := fd.drop 0x200
    if head.Num < 0 then .panic
    else
      let n := head.Num.toNat
      if r.length < 20 * n then .fatal
      else .ok (decodeItems n (r.take (20 * n)))

/-! ## Lookup (the loop body of `main`) -/

/-- The loop of Go `sort.Search`: `i, j` narrow around the first index where `f` holds.
`fuel` bounds the number of iterations; `j - i` of them are enough. -/
def searchLoop (f : Nat → Bool) : Nat → Nat → Nat → Nat
  | 0, i, _ => i
  | fuel + 1, i, j =>
    if i < j then
      let h := (i + j) / 2
      if !f h then searchLoop f fuel (h + 1) j
      else searchLoop f fuel i h
    else i

/-- Go `sort.Search(n, f)`. -/
def Search (n : Nat) (f : Nat → Bool) : Nat := searchLoop f n 0 n

/-- What the loop body of `main` decides for one key (source lines 345-355). -/
inductive Lookup where
  | skipped
  | notFound
  | found (item : Item)
deriving DecidableEq, Repr

/-- The closure `func(i int) bool { return items[i].Hash >= hash }` that `main` hands to
`sort.Search`, which calls it below `len(items)` only; outside the slice (a panic in Go,
never reached) the value here is `false`. -/
def atLeast (items : List Item) (hash : Nat) (i : Nat) : Bool :=
  match items[i]? with
  | some it => decide (it.Hash ≥ hash)
  | none => false

/-- Source lines 345-355 of `main`: key `0` skips the line, otherwise binary search for
the first item with `Hash >= hash` followed by the equality check. -/
def lookupHash (items : List Item) (hash : Nat) : Lookup :=
  if hash = 0 then .skipped
  else
    let i := Search items.length (atLeast items hash)
    match items[i]? with
    | none => .notFound
    | some it => if it.Hash ≠ hash then .notFound else .found it

/-- The contract of `sort.Sort(items)` with `Items.Less`: the slice afterwards is a
rearrangement of the slice before in which no later element is `Less` than an earlier
one. -/
def SortedBy (items sorted : List Item) : Prop :=
  sorted.Perm items ∧ sorted.Pairwise (fun a b => Less b a = false)

/-! ## GetBytesFromPaks -/

/-- Source line 173: `i := item.Encpos / 0x32000000` (Go division truncates). -/
def pakIndex (item : Item) : Int := Int.tdiv item.Encpos 0x32000000

/-- Source line 174: `p := item.Encpos % 0x32000000` (remainder of the truncating
division). -/
def pakOffset (item : Item) : Int := Int.tmod item.Encpos 0x32000000

/-- How a call of `lzo.Decompress1X` ends: output with a nil error, a non-nil error, or
a run-time panic inside the library. -/
inductive Decompressed where
  | data (out : List Byte)
  | error
  | panic
deriving DecidableEq, Repr

/-- The call `lzo.Decompress1X(r, inLen, outLen)` on a reader that holds `input`. The
library first allocates the output buffer with `make([]byte, 0, outLen)`, a run-time
panic when `outLen` is negative (`outLen` is a capacity, not a length that is checked
against the output); then it decodes the stream, which is the parameter `lzo`. -/
def Decompress1X (lzo : List Byte → Int → Int → Decompressed) (input : List Byte)
    (inLen outLen : Int) : Decompressed :=
  if outLen < 0 then .panic else lzo input inLen outLen

/-- Source lines 182-202 of `GetBytesFromPaks`, on the block `tmp` that was read. The
parameter `lzo` is the stream decoder of the LZO1X library (see `Decompress1X`); an
error it returns goes to `log.Fatal`, a panic ends the process. -/
def decodeBlock (lzo : List Byte → Int → Int → Decompressed) (tmp : List Byte) :
    Result (List Byte) :=
  if tmp.length < 40 then .fatal
  else
    let fi := (decodeFileInfo (tmp.take 40)).1
    if fi.Enc = 1 then
      match Decompress1X lzo (tmp.drop 0x38) fi.Encsize fi.Srcsize with
      | .data out => .ok out
      | .error => .fatal
      | .panic => .panic
    else if tmp.length < 0x38 then .panic
    else .ok (tmp.drop 0x38)

/-- An opened volume file: its content and its current file offset. -/
structure PakFile where
  content : List Byte
  offset : Nat
deriving DecidableEq, Repr

/-- Source lines 173-179 of `GetBytesFromPaks`: the block read from the volume, and the
volumes afterwards. `make([]byte, item.Encsize)` panics on a negative size and `paks[i]`
on an index outside the slice; the results of `Seek` and `Read` are ignored, so a
rejected `Seek` (negative offset) leaves the file offset where it was, and the part of
`tmp` that `Read` does not fill stays zero. A single `Read` is taken to deliver every
byte available up to `len(tmp)`. -/
def readBlock (paks : List PakFile) (item : Item) : Result (List Byte × List PakFile) :=
  let i := pakIndex item
  let p := pakOffset item
  if item.Encsize < 0 then .panic
  else if i < 0 then .panic
  else
    match paks[i.toNat]? with
    | none => .panic
    | some f =>
      let start := if p < 0 then f.offset else p.toNat
      let got := (f.content.drop start).take item.Encsize.toNat
      let tmp := got ++ List.replicate (item.Encsize.toNat - got.length) 0
      .ok (tmp, paks.set i.toNat { f with offset := start + got.length })

/-- Function `GetBytesFromPaks`: the block is read, then decoded; the volumes afterwards
are returned with the result. -/
def GetBytesFromPaks (lzo : List Byte → Int → Int → Decompressed)
    (paks : List PakFile) (item : Item) : Result (List Byte × List PakFile) :=
  match readBlock paks item with
  | .ok (tmp, paks) =>
    match decodeBlock lzo tmp with
    | .ok data => .ok (data, paks)
    | .fatal => .fatal
    | .panic => .panic
  | .fatal => .fatal
  | .panic => .panic

/-! ## Specification-side vocabulary -/

/-- The little-endian unsigned value of the `n` bytes of `b` from offset `off`. -/
def leAt (b : List Byte) (off n : Nat) : Nat :=
  ((List.range n).map (fun j => (b.getD (off + j) 0).val * 256 ^ j)).sum

/-- The declared entry count: the little-endian `int32` at offset 12. -/
def entryCount (b : List Byte) : Int := toSigned 32 (leAt b 12 4)

/-- A separator character. -/
def isSep (c : Char) : Bool := c = '/' || c = '\\'

/-- Some three consecutive characters of `s` are all separators. -/
def hasTripleSep : List Char → Bool
  | a :: b :: c :: rest => (isSep a && isSep b && isSep c) || hasTripleSep (b :: c :: rest)
  | _ => false

/-- Some two consecutive characters of `s` are both backslashes. -/
def hasPair : List Char → Bool
  | a :: b :: rest => (a = '\\' && b = '\\') || hasPair (b :: rest)
  | _ => false

/-! ## Proof-side views and sample data -/

/-- The doubled-backslash replacement written by cases (proof-side view of
`Replace s "\\\\" "\\"`). -/
def collapse : List Char → List Char
  | [] => []
  | [c] => [c]
  | a :: b :: rest =>
    if a = '\\' ∧ b = '\\' then '\\' :: collapse rest else a :: collapse (b :: rest)

/-- A catalog of one entry: a header whose count field is 1, then twenty entry bytes. -/
def sampleCatalog : List Byte :=
  List.replicate 12 7 ++ [1, 0, 0, 0] ++ List.replicate 496 9
    ++ [0x28, 0x96, 0x4C, 0x5F, 0x37, 0x64, 0x30, 0x3A] ++ [0, 1, 0, 0, 0, 0, 0, 0]
    ++ [0x38, 0, 0, 0]

/-- A raw record block: a 56-byte sub-header with flag 0 and four payload bytes. -/
def sampleRawBlock : List Byte :=
  List.replicate 12 0 ++ [0xE8, 3, 0, 0] ++ List.replicate 12 0 ++ [9, 0, 0, 0]
    ++ List.replicate 4 0 ++ [0, 0, 0, 0] ++ List.replicate 16 0 ++ [10, 20, 30, 40]

/-- The LZO1X stream of the four bytes 1, 2, 3, 4: the byte 21 = 17 + 4 opens a run of
four literal bytes, and 17, 0, 0 is the end-of-stream marker. -/
def sampleStream : List Byte := [21, 1, 2, 3, 4, 17, 0, 0]

/-- A compressed record block: sub-header with original size 5 (offset 12), on-disk
payload size 8 (offset 28) and flag 1 (offset 36), then `sampleStream`, which holds
four bytes, not five. -/
def sampleCompressedBlock : List Byte :=
  List.replicate 12 0 ++ [5, 0, 0, 0] ++ List.replicate 12 0 ++ [8, 0, 0, 0]
    ++ List.replicate 4 0 ++ [1, 0, 0, 0] ++ List.replicate 16 0 ++ sampleStream

/-- The same block with original size -1. -/
def sampleNegativeSizeBlock : List Byte :=
  List.replicate 12 0 ++ [255, 255, 255, 255] ++ List.replicate 12 0 ++ [8, 0, 0, 0]
    ++ List.replicate 4 0 ++ [1, 0, 0, 0] ++ List.replicate 16 0 ++ sampleStream

/-- A stream decoder for examples: on `sampleStream` it answers as LZO1X does, with the
four bytes 1, 2, 3, 4; every other input it reports as an error. -/
def sampleLzo (input : List Byte) (_inLen _outLen : Int) : Decompressed :=
  if input = sampleStream then .data [1, 2, 3, 4] else .error

/-! ## sort.Sort on short slices, as published -/

/-- Method `Items.Swap`: `p[i], p[j] = p[j], p[i]`. -/
def Swap (p : List Item) (i j : Nat) : List Item :=
  match p[i]?, p[j]? with
  | some a, some b => (p.set i b).set j a
  | _, _ => p

/-- Method `Items.Less` by index: `p[i].Hash < p[j].Hash`. -/
def lessAt (p : List Item) (i j : Nat) : Bool :=
  match p[i]?, p[j]? with
  | some a, some b => Less a b
  | _, _ => false

/-- Inner loop of Go `insertionSort`:
`for j := i; j > a && data.Less(j, j-1); j-- { data.Swap(j, j-1) }`. -/
def sinkDown (a : Nat) : Nat → List Item → List Item
  | 0, p => p
  | j + 1, p =>
    if j + 1 > a ∧ lessAt p (j + 1) j = true then sinkDown a j (Swap p (j + 1) j) else p

/-- Outer loop of Go `insertionSort`: `for i := a + 1; i < b; i++`, from the current `i`;
`fuel` bounds the iterations. -/
def insertionLoop (a b : Nat) : Nat → Nat → List Item → List Item
  | 0, _, p => p
  | fuel + 1, i, p => if i < b then insertionLoop a b fuel (i + 1) (sinkDown a i p) else p

/-- Go `insertionSort(data, a, b)`. -/
def insertionSort (p : List Item) (a b : Nat) : List Item :=
  insertionLoop a b (b - a) (a + 1) p

/-- The ShellSort pass of the quicksort of Go releases before 1.19:
`for i := a + 6; i < b; i++ { if data.Less(i, i-6) { data.Swap(i, i-6) } }`, from the
current `i`. -/
def shellLoop (b : Nat) : Nat → Nat → List Item → List Item
  | 0, _, p => p
  | fuel + 1, i, p =>
    if i < b then
      shellLoop b fuel (i + 1) (if lessAt p i (i - 6) = true then Swap p i (i - 6) else p)
    else p

/-- Go `sort.Sort` on a slice of at most 12 elements in releases before 1.19
(`quickSort` skips its partition loop, makes the ShellSort pass with gap 6, then calls
`insertionSort`). -/
def sortShortLegacy (p : List Item) : List Item :=
  if p.length > 1 then insertionSort (shellLoop p.length p.length 6 p) 0 p.length else p

/-- Go `sort.Sort` on a slice of at most 12 elements from release 1.19 on (`pdqsort`
calls `insertionSort` directly). -/
def sortShortPdq (p : List Item) : List Item :=
  if p.length > 1 then insertionSort p 0 p.length else p

/-- A catalog of seven entries in storage order; the first two share key 5. -/
def sampleTies : List Item :=
  [{ Hash := 5, Encpos := 0, Encsize := 56 }, { Hash := 5, Encpos := 100, Encsize := 56 },
   { Hash := 1, Encpos := 200, Encsize := 56 }, { Hash := 1, Encpos := 300, Encsize := 56 },
   { Hash := 1, Encpos := 400, Encsize := 56 }, { Hash := 1, Encpos := 500, Encsize := 56 },
   { Hash := 3, Encpos := 600, Encsize := 56 }]

/-! ## The request loop of `main` -/

/-- What the loop of `main` does that is visible outside: a line printed with
`fmt.Println`, or a file written by `SaveByteToFile`. -/
inductive Event where
  | print (text : List Char)
  | save (fileName : List Char) (data : List Byte)
deriving DecidableEq, Repr

/-- What `main` takes from outside the repository: the Unicode case table,
`strings.TrimSpace`, the LZO1X decompressor, the file system behind `ioutil.WriteFile`
(`true` when the write succeeds) and the value of the flag `-s`. -/
structure Env where
  caseTable : Char → Char
  trimSpace : List Char → List Char
  lzo : List Byte → Int → Int → Decompressed
  writeFile : List Char → List Byte → Bool
  saveRoot : List Char

/-- Function `SaveByteToFile`: an empty name is fatal, the backslashes of the name become
slashes, and an error of the write is fatal. The test `data == nil` concerns a nil slice,
which a `List Byte` does not tell from an empty one; it is part of what `writeFile`
answers. The result is the name written. -/
def SaveByteToFile (writeFile : List Char → List Byte → Bool) (fileName : List Char)
    (data : List Byte) : Result (List Char) :=
  if fileName = [] then .fatal
  else
    let fileName := Replace fileName "\\".toList "/".toList
    if writeFile fileName data then .ok fileName else .fatal

/-- The loop of `main` over the lines of the list file (source lines 337-364): the events
in order and how the loop ended. A `log.Fatal` or a panic ends the process, so no later
line is handled. -/
def mainLoop (env : Env) (items : List Item) :
    List PakFile → List (List Char) → List Event × Result Unit
  | _, [] => ([], .ok ())
  | paks, raw :: rest =>
    let line := env.trimSpace raw
    if line = [] then mainLoop env items paks rest
    else
      match lookupHash items (FileNameHash env.caseTable line) with
      | .skipped => mainLoop env items paks rest
      | .notFound =>
        (.print ("不存在:".toList ++ line) :: (mainLoop env items paks rest).1,
          (mainLoop env items paks rest).2)
      | .found item =>
        match GetBytesFromPaks env.lzo paks item with
        | .fatal => ([], .fatal)
        | .panic => ([], .panic)
        | .ok (data, paks) =>
          match SaveByteToFile env.writeFile (env.saveRoot ++ line) data with
          | .fatal => ([], .fatal)
          | .panic => ([], .panic)
          | .ok fileName =>
            (.save fileName data :: .print line :: (mainLoop env items paks rest).1,
              (mainLoop env items paks rest).2)

/-- An environment for examples: identity case table and trimming, a stream decoder that
answers only `sampleStream`, a file system that accepts every write. -/
def sampleEnv : Env :=
  { caseTable := id, trimSpace := id, lzo := sampleLzo,
    writeFile := fun _ _ => true, saveRoot := "tmp\\".toList }

/-- An index of two entries, keys 97 (path `a`, in a volume that is not opened) and 98
(path `b`, at offset 0 of volume 0). -/
def sampleIndex : List Item :=
  [{ Hash := 97, Encpos := 0x32000000, Encsize := 60 }, { Hash := 98, Encpos := 0, Encsize := 60 }]

/-- The path after lower-casing and the two replacements, before the leading backslash
is stripped (source lines 93-95). -/
def beforeStrip (caseTable : Char → Char) (fileName : List Char) : List Char :=
  Replace (Replace (ToLower caseTable fileName) "/".toList "\\".toList)
    "\\\\".toList "\\".toList

/-- The path `p` with every `/` replaced by a backslash and every ASCII capital letter
replaced by its small letter. -/
def normalizeAscii (p : List Char) : List Char :=
  p.map (fun c =>
    if c = '/' then '\\'
    else if 'A'.toNat ≤ c.toNat ∧ c.toNat ≤ 'Z'.toNat then Char.ofNat (c.toNat + 32)
    else c)

/-! ## Proof-side vocabulary for the sort -/

/-- The hash at index `i` of the slice (0 outside it). -/
def key (p : List Item) (i : Nat) : Nat :=
  match p[i]? with
  | some a => a.Hash
  | none => 0

/-- The slice `q` comes from `p` by exchanging elements inside `[a, b)` only. -/
structure Within (a b : Nat) (p q : List Item) : Prop where
  length : q.length = p.length
  perm : q.Perm p
  outside : ∀ k, k < a ∨ b ≤ k → q[k]? = p[k]?
  inside : ∀ k, a ≤ k → k < b → ∃ k', a ≤ k' ∧ k' < b ∧ q[k]? = p[k']?

/-- The hashes of `p` do not decrease along `[a, b)`. -/
def SortedOn (p : List Item) (a b : Nat) : Prop :=
  ∀ x y, a ≤ x → x ≤ y → y < b → key p x ≤ key p y

/-- On `[lo, hi)` the slice is split around the value `pv`: not above it before `b`, equal
to it on `[b, c)`, not below it from `c` on, and `pv` itself at `lo`. -/
def Split (p : List Item) (lo hi b c pv : Nat) : Prop :=
  lo < b ∧ b ≤ c ∧ c ≤ hi ∧ key p lo = pv
    ∧ (∀ k, lo < k → k < b → key p k ≤ pv)
    ∧ (∀ k, b ≤ k → k < c → key p k = pv)
    ∧ (∀ k, c ≤ k → k < hi → pv ≤ key p k)

/-- No element of `[a, b)` is below the element just before the range. -/
def LowerBound (p : List Item) (a b : Nat) : Prop :=
  a = 0 ∨ ∀ k, a ≤ k → k < b → key p (a - 1) ≤ key p k

/-! ## sort.Sort in full, as published in Go 1.7 to 1.18

`sort.Sort(data)` is `quickSort(data, 0, n, maxDepth(n))`: a quicksort on the pivot of
`doPivot` that falls back to `heapSort` when the depth is used up and ends on ranges of
at most 12 elements with one ShellSort pass and `insertionSort`. The slice is a
`List Item`, `data.Less(i, j)` is `lessAt` and `data.Swap(i, j)` is `Swap`. -/

/-- The loop of Go `siftDown(data, lo, hi, first)` from the current `root`: the larger
child is taken, and the loop ends when the root is not `Less` than it; `fuel` bounds the
iterations. -/
def siftLoop (hi first : Nat) : Nat → Nat → List Item → List Item
  | 0, _, p => p
  | fuel + 1, root, p =>
    if 2 * root + 1 ≥ hi then p
    else
      let child :=
        if 2 * root + 1 + 1 < hi
            ∧ lessAt p (first + (2 * root + 1)) (first + (2 * root + 1) + 1) = true
        then 2 * root + 1 + 1 else 2 * root + 1
      if lessAt p (first + root) (first + child) = true then
        siftLoop hi first fuel child (Swap p (first + root) (first + child))
      else p

/-- Go `siftDown(data, lo, hi, first)`. -/
def siftDown (p : List Item) (lo hi first : Nat) : List Item :=
  siftLoop hi first hi lo p

/-- First loop of Go `heapSort`: `for i := (hi - 1) / 2; i >= 0; i--
{ siftDown(data, i, hi, first) }`, with `count = i + 1`. -/
def heapBuild (hi first : Nat) : Nat → List Item → List Item
  | 0, p => p
  | i + 1, p => heapBuild hi first i (siftDown p i hi first)

/-- Second loop of Go `heapSort`: `for i := hi - 1; i >= 0; i--
{ data.Swap(first, first+i); siftDown(data, lo, i, first) }` with `lo = 0`, and
`count = i + 1`. -/
def heapPop (first : Nat) : Nat → List Item → List Item
  | 0, p => p
  | i + 1, p => heapPop first i (siftDown (Swap p first (first + i)) 0 i first)

/-- Go `heapSort(data, a, b)`. -/
def heapSort (p : List Item) (a b : Nat) : List Item :=
  heapPop a (b - a) (heapBuild (b - a) a ((b - a - 1) / 2 + 1) p)

/-- The children of node `r` that lie below `hi` are not above `r` (indices relative to
`first`). -/
def HeapAt (p : List Item) (first hi r : Nat) : Prop :=
  ∀ c, (c = 2 * r + 1 ∨ c = 2 * r + 2) → c < hi → key p (first + c) ≤ key p (first + r)

/-- Go `medianOfThree(data, m1, m0, m2)`: moves the median of the three values into
`data[m1]`. -/
def medianOfThree (p : List Item) (m1 m0 m2 : Nat) : List Item :=
  let p := if lessAt p m1 m0 = true then Swap p m1 m0 else p
  if lessAt p m2 m1 = true then
    let p := Swap p m2 m1
    if lessAt p m1 m0 = true then Swap p m1 m0 else p
  else p

/-- A loop `for ; i < limit && cond(i); i++ {}`; `fuel` bounds the iterations. -/
def scanUp (cond : Nat → Bool) (limit : Nat) : Nat → Nat → Nat
  | 0, i => i
  | fuel + 1, i => if i < limit ∧ cond i = true then scanUp cond limit fuel (i + 1) else i

/-- A loop `for ; limit < i && cond(i-1); i-- {}`. -/
def scanDown (cond : Nat → Bool) (limit : Nat) : Nat → Nat
  | 0 => 0
  | i + 1 => if limit < i + 1 ∧ cond i = true then scanDown cond limit i else i + 1

/-- The partition loop of Go `doPivot`:
`for { for ; b < c && !Less(pivot, b); b++ {}; for ; b < c && Less(pivot, c-1); c-- {};
if b >= c { break }; Swap(b, c-1); b++; c-- }`. The result is the slice with `b` and
`c`; `fuel` bounds the iterations. The loop of `partitionEqual` of Go 1.19 is the same
one, with `j = c - 1` and `a` for `pivot`. -/
def partitionLoop (pivot : Nat) : Nat → List Item → Nat → Nat → List Item × Nat × Nat
  | 0, p, b, c => (p, b, c)
  | fuel + 1, p, b, c =>
    let b := scanUp (fun k => !lessAt p pivot k) c (c - b) b
    let c := scanDown (fun k => lessAt p pivot k) b c
    if b ≥ c then (p, b, c)
    else partitionLoop pivot fuel (Swap p b (c - 1)) (b + 1) (c - 1)

/-- The loop of Go `doPivot` that guards against many duplicates:
`for { for ; a < b && !Less(b-1, pivot); b-- {}; for ; a < b && Less(a, pivot); a++ {};
if a >= b { break }; Swap(a, b-1); a++; b-- }`. The result is the slice with `a` and
`b`; `fuel` bounds the iterations. -/
def protectLoop (pivot : Nat) : Nat → List Item → Nat → Nat → List Item × Nat × Nat
  | 0, p, a, b => (p, a, b)
  | fuel + 1, p, a, b =>
    let b := scanDown (fun k => !lessAt p k pivot) a b
    let a := scanUp (fun k => lessAt p k pivot) b (b - a) a
    if a ≥ b then (p, a, b)
    else protectLoop pivot fuel (Swap p a (b - 1)) (a + 1) (b - 1)


/-- The start of Go `doPivot`: for more than 40 elements Tukey's ninther (three
medians of three), then the median of `lo`, `m` and `hi - 1` is moved to `lo`. -/
def doPivotMedians (p : List Item) (lo hi : Nat) : List Item :=
  let m := (lo + hi) / 2
  let p :=
    if hi - lo > 40 then
      let s := (hi - lo) / 8
      let p := medianOfThree p lo (lo + s) (lo + 2 * s)
      let p := medianOfThree p m (m - s) (m + s)
      medianOfThree p (hi - 1) (hi - 1 - s) (hi - 1 - 2 * s)
    else p
  medianOfThree p lo m (hi - 1)

/-- The variables of the duplicate test of Go `doPivot`. -/
structure Dups where
  p : List Item
  b : Nat
  c : Nat
  dups : Nat

/-- `if !data.Less(pivot, hi-1) { data.Swap(c, hi-1); c++; dups++ }`. -/
def dupsHigh (pivot hi : Nat) (s : Dups) : Dups :=
  if lessAt s.p pivot (hi - 1) = true then s
  else { p := Swap s.p s.c (hi - 1), b := s.b, c := s.c + 1, dups := s.dups + 1 }

/-- `if !data.Less(b-1, pivot) { b--; dups++ }`. -/
def dupsLow (pivot : Nat) (s : Dups) : Dups :=
  if lessAt s.p (s.b - 1) pivot = true then s
  else { p := s.p, b := s.b - 1, c := s.c, dups := s.dups + 1 }

/-- `if !data.Less(m, pivot) { data.Swap(m, b-1); b--; dups++ }`. -/
def dupsMid (pivot m : Nat) (s : Dups) : Dups :=
  if lessAt s.p m pivot = true then s
  else { p := Swap s.p m (s.b - 1), b := s.b - 1, c := s.c, dups := s.dups + 1 }

/-- The part of Go `doPivot` that sets `protect`: `protect := hi-c < 5`, and when that is
false and `hi-c < (hi-lo)/4` three points are tested for equality with the pivot and
`protect = dups > 1`. The result is the variables and `protect`. -/
def testDups (p : List Item) (lo hi b c : Nat) : Dups × Bool :=
  if hi - c < 5 then ({ p := p, b := b, c := c, dups := 0 }, true)
  else if hi - c < (hi - lo) / 4 then
    (dupsMid lo ((lo + hi) / 2) (dupsLow lo (dupsHigh lo hi { p := p, b := b, c := c, dups := 0 })),
      decide ((dupsMid lo ((lo + hi) / 2)
        (dupsLow lo (dupsHigh lo hi { p := p, b := b, c := c, dups := 0 }))).dups > 1))
  else ({ p := p, b := b, c := c, dups := 0 }, false)

/-- Go `doPivot(data, lo, hi)`: the slice afterwards with `midlo` and `midhi`. -/
def doPivot (p : List Item) (lo hi : Nat) : List Item × Nat × Nat :=
  let p := doPivotMedians p lo hi
  let a := scanUp (fun k => lessAt p k lo) (hi - 1) (hi - 1 - (lo + 1)) (lo + 1)
  let r := partitionLoop lo (hi - 1 - a + 1) p a (hi - 1)
  let t := testDups r.1 lo hi r.2.1 r.2.2
  let u := if t.2 = true then protectLoop lo (t.1.b - a + 1) t.1.p a t.1.b else (t.1.p, a, t.1.b)
  (Swap u.1 lo (u.2.2 - 1), u.2.2 - 1, t.1.c)

/-- Go `quickSort(data, a, b, maxDepth)` of releases 1.7 to 1.18. The loop `for b-a > 12`
sorts the smaller side by a call and goes on with the other side, which is the second
call here; for at most 12 elements one pass of ShellSort with gap 6 is followed by
`insertionSort`. Every call is on a shorter range, so `fuel` of at least `b - a` is
enough. -/
def quickSort : Nat → List Item → Nat → Nat → Nat → List Item
  | 0, p, _, _, _ => p
  | fuel + 1, p, a, b, maxDepth =>
    if b - a > 12 then
      if maxDepth = 0 then heapSort p a b
      else
        let r := doPivot p a b
        if r.2.1 - a < b - r.2.2 then
          quickSort fuel (quickSort fuel r.1 a r.2.1 (maxDepth - 1)) r.2.2 b (maxDepth - 1)
        else
          quickSort fuel (quickSort fuel r.1 r.2.2 b (maxDepth - 1)) a r.2.1 (maxDepth - 1)
    else if b - a > 1 then insertionSort (shellLoop b (b - a) (a + 6) p) a b
    else p

/-- The loop `for i := n; i > 0; i >>= 1 { depth++ }` of Go `maxDepth`. -/
def depthLoop : Nat → Nat → Nat
  | 0, _ => 0
  | fuel + 1, i => if i > 0 then depthLoop fuel (i / 2) + 1 else 0

/-- Go `maxDepth(n)`: twice the number of binary digits of `n`. -/
def maxDepth (n : Nat) : Nat := depthLoop n n * 2

/-- Go `sort.Sort(data)` of releases 1.7 to 1.18 on a slice of entries ordered by
`Items.Less`: `n := data.Len(); quickSort(data, 0, n, maxDepth(n))`. -/
def SortItems (p : List Item) : List Item :=
  quickSort p.length p 0 p.length (maxDepth p.length)

/-! ## sort.Sort in full, as published from Go 1.19 on

`sort.Sort(data)` is `pdqsort(data, 0, n, bits.Len(uint(n)))` for `n > 1`: a
pattern-defeating quicksort. `insertionSort`, `siftDown` and `heapSort` are the functions
above, unchanged in these releases. The pseudo-random generator of `breakPatterns`
(`xorshift`) is a parameter `next`, the step from one state to the following one. -/

/-- Go `sortedHint`. -/
inductive sortedHint where
  | unknownHint
  | increasingHint
  | decreasingHint
deriving DecidableEq, Repr

/-- Go `order2(data, a, b, swaps)`: `a, b` in the order of their values, and the swap
counter. -/
def order2 (p : List Item) (a b swaps : Nat) : Nat × Nat × Nat :=
  if lessAt p b a = true then (b, a, swaps + 1) else (a, b, swaps)

/-- Go `median(data, a, b, c, swaps)`: `a, b = order2(a, b); b, c = order2(b, c);
a, b = order2(a, b); return b`, with the swap counter. -/
def median (p : List Item) (a b c swaps : Nat) : Nat × Nat :=
  let r1 := order2 p a b swaps
  let r2 := order2 p r1.2.1 c r1.2.2
  let r3 := order2 p r1.1 r2.1 r2.2.2
  (r3.2.1, r3.2.2)

/-- Go `medianAdjacent(data, a, swaps)`. -/
def medianAdjacent (p : List Item) (a swaps : Nat) : Nat × Nat :=
  median p (a - 1) a (a + 1) swaps

/-- Go `choosePivot(data, a, b)`: the index of the pivot and the hint; `shortestNinther`
is 50 and `maxSwaps` is 12. The slice is not changed. -/
def choosePivot (p : List Item) (a b : Nat) : Nat × sortedHint :=
  let l := b - a
  let i := a + l / 4 * 1
  let j := a + l / 4 * 2
  let k := a + l / 4 * 3
  let r : Nat × Nat :=
    if l ≥ 8 then
      if l ≥ 50 then
        let ri := medianAdjacent p i 0
        let rj := medianAdjacent p j ri.2
        let rk := medianAdjacent p k rj.2
        median p ri.1 rj.1 rk.1 rk.2
      else median p i j k 0
    else (j, 0)
  (r.1, if r.2 = 0 then .increasingHint
    else if r.2 = 12 then .decreasingHint else .unknownHint)

/-- The loop of Go `reverseRange`: `for i < j { data.Swap(i, j); i++; j-- }`. -/
def reverseLoop : Nat → List Item → Nat → Nat → List Item
  | 0, p, _, _ => p
  | fuel + 1, p, i, j => if i < j then reverseLoop fuel (Swap p i j) (i + 1) (j - 1) else p

/-- Go `reverseRange(data, a, b)`. -/
def reverseRange (p : List Item) (a b : Nat) : List Item :=
  reverseLoop (b - a) p a (b - 1)

/-- Go `bits.Len(uint(n))`: the number of binary digits of `n`. -/
def bitsLen (n : Nat) : Nat := depthLoop n n

/-- Go `nextPowerOfTwo(length)`: `1 << bits.Len(uint(length))`. -/
def nextPowerOfTwo (length : Nat) : Nat := 2 ^ bitsLen length

/-- The index `other` of Go `breakPatterns` from the generator state `r`:
`other := int(uint(r) & (modulus - 1)); if other >= length { other -= length }`. -/
def breakOther (length r : Nat) : Nat :=
  if (r &&& (nextPowerOfTwo length - 1)) ≥ length
  then (r &&& (nextPowerOfTwo length - 1)) - length
  else r &&& (nextPowerOfTwo length - 1)

/-- Go `breakPatterns(data, a, b)`: for at least 8 elements three swaps
`data.Swap(idx-1+i, a+other)` around `idx := a + (length/4)*2 - 1`, with the generator
seeded by `length`. -/
def breakPatterns (next : Nat → Nat) (p : List Item) (a b : Nat) : List Item :=
  let length := b - a
  if length ≥ 8 then
    let idx := a + (length / 4) * 2 - 1
    let r1 := next length
    let r2 := next r1
    let r3 := next r2
    let p := Swap p (idx - 1 + 0) (a + breakOther length r1)
    let p := Swap p (idx - 1 + 1) (a + breakOther length r2)
    Swap p (idx - 1 + 2) (a + breakOther length r3)
  else p

/-- The loop `for j := i + 1; j < b; j++ { if !data.Less(j, j-1) { break };
data.Swap(j, j-1) }` of Go `partialInsertionSort`; `fuel` bounds the iterations. -/
def shiftRight (b : Nat) : Nat → Nat → List Item → List Item
  | 0, _, p => p
  | fuel + 1, j, p =>
    if j < b ∧ lessAt p j (j - 1) = true then shiftRight b fuel (j + 1) (Swap p j (j - 1))
    else p

/-- The loop `for j := 0; j < maxSteps; j++` of Go `partialInsertionSort` with the steps
that are left, the index `i` and the slice; `shortestShifting` is 50. The loop
`for j := i - 1; j >= 1; j-- { if !data.Less(j, j-1) { break }; data.Swap(j, j-1) }` is
`sinkDown 0 (i - 1)`. -/
def partialInsertionLoop (a b : Nat) : Nat → Nat → List Item → List Item × Bool
  | 0, _, p => (p, false)
  | steps + 1, i, p =>
    let i := scanUp (fun k => !lessAt p k (k - 1)) b (b - i) i
    if i = b then (p, true)
    else if b - a < 50 then (p, false)
    else
      let p := Swap p i (i - 1)
      let p := if i - a ≥ 2 then sinkDown 0 (i - 1) p else p
      let p := if b - i ≥ 2 then shiftRight b (b - i) (i + 1) p else p
      partialInsertionLoop a b steps i p

/-- Go `partialInsertionSort(data, a, b)`: the slice afterwards, and whether it is
reported as sorted; `maxSteps` is 5. -/
def partialInsertionSort (p : List Item) (a b : Nat) : List Item × Bool :=
  partialInsertionLoop a b 5 (a + 1) p

/-- The loop of Go `partition`, with `c = j + 1` for the inclusive index `j` of the code:
`for { for i <= j && data.Less(i, a) { i++ }; for i <= j && !data.Less(j, a) { j-- };
if i > j { break }; data.Swap(i, j); i++; j-- }`. The result is the slice and `c`;
`fuel` bounds the iterations. -/
def partitionScan (a : Nat) : Nat → List Item → Nat → Nat → List Item × Nat
  | 0, p, _, c => (p, c)
  | fuel + 1, p, i, c =>
    let i := scanUp (fun k => lessAt p k a) c (c - i) i
    let c := scanDown (fun k => !lessAt p k a) i c
    if i ≥ c then (p, c)
    else partitionScan a fuel (Swap p i (c - 1)) (i + 1) (c - 1)

/-- Go `partition(data, a, b, pivot)`: the slice, `newpivot` and `alreadyPartitioned`.
The code runs the two scans once before its loop, to return `true` when they meet at
once. -/
def partition (p : List Item) (a b pivot : Nat) : List Item × Nat × Bool :=
  let p := Swap p a pivot
  let i := scanUp (fun k => lessAt p k a) b (b - (a + 1)) (a + 1)
  let c := scanDown (fun k => !lessAt p k a) i b
  if i ≥ c then (Swap p (c - 1) a, c - 1, true)
  else
    let r := partitionScan a (b - a - 1) (Swap p i (c - 1)) (i + 1) (c - 1)
    (Swap r.1 (r.2 - 1) a, r.2 - 1, false)

/-- Go `partitionEqual(data, a, b, pivot)`: the slice and `newpivot`. After
`data.Swap(a, pivot)` its loop `for { for i <= j && !data.Less(a, i) { i++ };
for i <= j && data.Less(a, j) { j-- }; if i > j { break }; data.Swap(i, j); i++; j-- }`
is `partitionLoop` with `c = j + 1`. -/
def partitionEqual (p : List Item) (a b pivot : Nat) : List Item × Nat :=
  ((partitionLoop a (b - a) (Swap p a pivot) (a + 1) b).1,
    (partitionLoop a (b - a) (Swap p a pivot) (a + 1) b).2.1)

/-- Go `pdqsort(data, a, b, limit)` with the loop variables `wasBalanced` and
`wasPartitioned`; `maxInsertion` is 12. A call of `pdqsort` starts with both variables
`true`; the next round of the loop is the outer call here. Every call is on a shorter
range, so `fuel` of at least `b - a` is enough. -/
def pdqsort (next : Nat → Nat) :
    Nat → List Item → Nat → Nat → Nat → Bool → Bool → List Item
  | 0, p, _, _, _, _, _ => p
  | fuel + 1, p, a, b, limit, wasBalanced, wasPartitioned =>
    if b - a ≤ 12 then insertionSort p a b
    else if limit = 0 then heapSort p a b
    else
      let p := if wasBalanced = false then breakPatterns next p a b else p
      let limit := if wasBalanced = false then limit - 1 else limit
      let ch := choosePivot p a b
      let p := if ch.2 = .decreasingHint then reverseRange p a b else p
      let pivot := if ch.2 = .decreasingHint then (b - 1) - (ch.1 - a) else ch.1
      let hint := if ch.2 = .decreasingHint then sortedHint.increasingHint else ch.2
      let s :=
        if wasBalanced = true ∧ wasPartitioned = true ∧ hint = .increasingHint
        then partialInsertionSort p a b else (p, false)
      if s.2 = true then s.1
      else if a > 0 ∧ lessAt s.1 (a - 1) pivot = false then
        pdqsort next fuel (partitionEqual s.1 a b pivot).1 (partitionEqual s.1 a b pivot).2 b
          limit wasBalanced wasPartitioned
      else
        let r := partition s.1 a b pivot
        if r.2.1 - a < b - r.2.1 then
          pdqsort next fuel (pdqsort next fuel r.1 a r.2.1 limit true true) (r.2.1 + 1) b limit
            (decide (r.2.1 - a ≥ (b - a) / 8)) r.2.2
        else
          pdqsort next fuel (pdqsort next fuel r.1 (r.2.1 + 1) b limit true true) a r.2.1 limit
            (decide (b - r.2.1 ≥ (b - a) / 8)) r.2.2

/-- Go `sort.Sort(data)` from release 1.19 on, for a slice of entries ordered by
`Items.Less`: `n := data.Len(); if n <= 1 { return }; limit := bits.Len(uint(n));
pdqsort(data, 0, n, limit)`. -/
def SortItemsPdq (next : Nat → Nat) (p : List Item) : List Item :=
  if p.length ≤ 1 then p
  else pdqsort next p.length p 0 p.length (bitsLen p.length) true true

/-- A catalog of fourteen entries in storage order, long enough for both sorts to
partition once before the short ranges are sorted. -/
def sampleLong : List Item :=
  [9, 3, 7, 1, 8, 2, 6, 4, 5, 0, 13, 11, 12, 10].map
    (fun h => { Hash := h, Encpos := 100 * (h : Int), Encsize := 56 })

/-! ## Lemmas on the path hash -/

theorem ToLower_congr (t₁ t₂ : Char → Char) (s : List Char)
    (h : ∀ c ∈ s, 0x7F < c.toNat → t₁ c = t₂ c) : ToLower t₁ s = ToLower t₂ s := by
  unfold ToLower
  apply List.map_congr_left
  intro c hc
  unfold toLowerRune
  by_cases hA : c.toNat ≤ 0x7F
  · simp [hA]
  · simp [hA, h c hc (by omega)]

theorem canon_congr (t₁ t₂ : Char → Char) (s : List Char)
    (h : ∀ c ∈ s, 0x7F < c.toNat → t₁ c = t₂ c) : canon t₁ s = canon t₂ s := by
  unfold canon
  rw [ToLower_congr t₁ t₂ s h]

theorem FileNameHash_congr (t₁ t₂ : Char → Char) (s : List Char)
    (h : ∀ c ∈ s, 0x7F < c.toNat → t₁ c = t₂ c) :
    FileNameHash t₁ s = FileNameHash t₂ s := by
  unfold FileNameHash
  rw [canon_congr t₁ t₂ s h]

theorem FileNameHash_eq_foldl (t : Char → Char) (p : List Char) :
    FileNameHash t p
      = (canon t p).foldl (fun key c => (c.toNat + 131 * key) % 2 ^ 64) 0 := by
  unfold FileNameHash
  by_cases hp : p = []
  · subst hp
    simp [canon, ToLower, Replace, replaceFrom, HasPrefix]
  · simp [hp, limit]

/-- The wrapping fold agrees with the exact Horner fold modulo `2 ^ 64`. -/
theorem foldl_wrap_eq (l : List Char) (a : Nat) :
    l.foldl (fun key c => (c.toNat + 131 * key) % 2 ^ 64) (a % 2 ^ 64)
      = (l.foldl (fun key c => c.toNat + 131 * key) a) % 2 ^ 64 := by
  induction l generalizing a with
  | nil => rfl
  | cons c rest ih =>
    simp only [List.foldl_cons]
    rw [← ih]
    congr 1
    omega

/-- The exact Horner fold is the polynomial in 131 with the characters as digits. -/
theorem foldl_horner (l : List Char) :
    l.foldl (fun key c => c.toNat + 131 * key) 0
      = ∑ i in Finset.range l.length, (l.getD i default).toNat * 131 ^ (l.length - 1 - i) := by
  induction l using List.reverseRecOn with
  | nil => rfl
  | append_singleton l c ih =>
    rw [List.foldl_append, List.foldl_cons, List.foldl_nil, ih, List.length_append,
      List.length_singleton, Finset.sum_range_succ, Finset.mul_sum]
    have hlast : (l ++ [c]).getD l.length default = c := by
      simp [List.getD_eq_getElem?_getD]
    rw [hlast, Nat.add_comm]
    congr 1
    · apply Finset.sum_congr rfl
      intro i hi
      have hi' : i < l.length := Finset.mem_range.mp hi
      have hget : (l ++ [c]).getD i default = l.getD i default := by
        simp [List.getD_eq_getElem?_getD, List.getElem?_append_left hi']
      rw [hget]
      have hexp : l.length + 1 - 1 - i = (l.length - 1 - i) + 1 := by omega
      rw [hexp, pow_succ]
      ring
    · simp

/-! ## Claims on the path hash -/

/-- C2: `FileNameHash p` is the base-131 polynomial of the character codes of the
canonical form of `p`, reduced modulo `2 ^ 64`, and equally the left-to-right fold
`key = charCode + 131 * key` from `0` in wrapping 64-bit arithmetic. -/
theorem FileNameHash_polynomial (caseTable : Char → Char) (p : List Char) :
    FileNameHash caseTable p
        = (∑ i in Finset.range (canon caseTable p).length,
            ((canon caseTable p).getD i default).toNat
              * 131 ^ ((canon caseTable p).length - 1 - i)) % 2 ^ 64
      ∧ FileNameHash caseTable p
        = (canon caseTable p).foldl (fun key c => (c.toNat + 131 * key) % 2 ^ 64) 0 := by
  refine ⟨?_, FileNameHash_eq_foldl caseTable p⟩
  rw [FileNameHash_eq_foldl, ← foldl_horner]
  exact foldl_wrap_eq (canon caseTable p) 0

/-- C3: the first example of the doc comment of `FileNameHash`: the path
`scripts\achievement\ItemAcquire_Achievement.lua` hashes to `0x3A3064375F4C9628`. -/
theorem FileNameHash_doc_example_ascii (caseTable : Char → Char) :
    FileNameHash caseTable "scripts\\achievement\\ItemAcquire_Achievement.lua".toList
      = 0x3A3064375F4C9628 := by
  have hascii : ∀ c ∈ "scripts\\achievement\\ItemAcquire_Achievement.lua".toList,
      c.toNat ≤ 0x7F := by decide!
  rw [FileNameHash_congr caseTable id _ (fun c hc hlt => absurd (hascii c hc) (by omega))]
  decide!

/-- C4: the second example of the doc comment of `FileNameHash`: the non-ASCII path
hashes to `0x37853E8D9C4E4A3E`, the fold running over Unicode code points; the case
table leaves the CJK ideographs `U+4E00..U+9FFF` unchanged. -/
theorem FileNameHash_doc_example_cjk (caseTable : Char → Char)
    (hcjk : ∀ c : Char, 0x4E00 ≤ c.toNat → c.toNat ≤ 0x9FFF → caseTable c = c) :
    FileNameHash caseTable "scripts\\Activity\\6月16日运营活动\\item\\加成道具.lua".toList
      = 0x37853E8D9C4E4A3E := by
  have hrange : ∀ c ∈ "scripts\\Activity\\6月16日运营活动\\item\\加成道具.lua".toList,
      c.toNat ≤ 0x7F ∨ (0x4E00 ≤ c.toNat ∧ c.toNat ≤ 0x9FFF) := by decide!
  have hfix : ∀ c ∈ "scripts\\Activity\\6月16日运营活动\\item\\加成道具.lua".toList,
      0x7F < c.toNat → caseTable c = id c := by
    intro c hc hlt
    rcases hrange c hc with h | ⟨h1, h2⟩
    · omega
    · exact hcjk c h1 h2
  rw [FileNameHash_congr caseTable id _ hfix]
  decide!

/-- Witness of C4 with the identity as case table. -/
theorem FileNameHash_doc_example_cjk_witness :
    (∀ c : Char, 0x4E00 ≤ c.toNat → c.toNat ≤ 0x9FFF → id c = c)
      ∧ FileNameHash id "scripts\\Activity\\6月16日运营活动\\item\\加成道具.lua".toList
          = 0x37853E8D9C4E4A3E :=
  ⟨fun _ _ _ => rfl, FileNameHash_doc_example_cjk id (fun _ _ _ => rfl)⟩

/-- C10: the empty path hashes to `0`, and so does every path whose canonical form is
empty. -/
theorem FileNameHash_empty (caseTable : Char → Char) :
    FileNameHash caseTable [] = 0
      ∧ ∀ p : List Char, canon caseTable p = [] → FileNameHash caseTable p = 0 := by
  refine ⟨by simp [FileNameHash], ?_⟩
  intro p hp
  rw [FileNameHash_eq_foldl, hp]
  rfl

/-- Witness of C10 at the paths `/`, `\` and `\\`, whose canonical form is empty. -/
theorem FileNameHash_empty_witness :
    (canon id "/".toList = [] ∧ FileNameHash id "/".toList = 0)
      ∧ (canon id "\\".toList = [] ∧ FileNameHash id "\\".toList = 0)
      ∧ (canon id "\\\\".toList = [] ∧ FileNameHash id "\\\\".toList = 0) :=
  ⟨⟨by decide, (FileNameHash_empty id).2 _ (by decide)⟩,
   ⟨by decide, (FileNameHash_empty id).2 _ (by decide)⟩,
   ⟨by decide, (FileNameHash_empty id).2 _ (by decide)⟩⟩


/-! ## Canonicalisation -/

theorem beq_false_of_ne_char {a b : Char} (h : ¬ b = a) : (a == b) = false := by
  cases hab : a == b
  · rfl
  · exact absurd (beq_iff_eq.mp hab).symm h

theorem replaceFrom_slash (s : List Char) :
    replaceFrom ['/'] ['\\'] 0 s = s.map (fun c => if c = '/' then '\\' else c) := by
  induction s with
  | nil => rfl
  | cons c rest ih =>
    by_cases hc : c = '/'
    · subst hc
      simp [replaceFrom, List.isPrefixOf, ih]
    · simp [replaceFrom, List.isPrefixOf, ih, hc, beq_false_of_ne_char hc]

theorem Replace_slash (s : List Char) :
    Replace s "/".toList "\\".toList = s.map (fun c => if c = '/' then '\\' else c) :=
  replaceFrom_slash s

theorem replaceFrom_collapse (s : List Char) :
    replaceFrom ['\\', '\\'] ['\\'] 0 s = collapse s := by
  induction s using collapse.induct with
  | case1 => rfl
  | case2 c => simp [replaceFrom, collapse, List.isPrefixOf]
  | case3 a b rest h ih =>
    obtain ⟨ha, hb⟩ := h
    subst ha hb
    simp [replaceFrom, collapse, List.isPrefixOf, ih]
  | case4 a b rest h ih =>
    have hpre : (['\\', '\\'] : List Char).isPrefixOf (a :: b :: rest) = false := by
      simp only [List.isPrefixOf, Bool.and_true]
      by_cases ha : a = '\\'
      · by_cases hb : b = '\\'
        · exact absurd ⟨ha, hb⟩ h
        · simp [beq_false_of_ne_char hb]
      · simp [beq_false_of_ne_char ha]
    rw [replaceFrom, if_neg (by simp [hpre]), ih]
    simp only [collapse, if_neg h]

theorem Replace_collapse (s : List Char) :
    Replace s "\\\\".toList "\\".toList = collapse s :=
  replaceFrom_collapse s

theorem collapse_sublist (s : List Char) : (collapse s).Sublist s := by
  induction s using collapse.induct with
  | case1 => simp [collapse]
  | case2 c => simp [collapse]
  | case3 a b rest h ih =>
    simp only [collapse, if_pos h]
    obtain ⟨ha, hb⟩ := h
    subst ha
    exact (List.Sublist.cons _ ih).cons₂ _
  | case4 a b rest h ih =>
    simp only [collapse, if_neg h]
    exact ih.cons₂ _

theorem collapse_head (s : List Char) : (collapse s).head? = s.head? := by
  induction s using collapse.induct with
  | case1 => rfl
  | case2 c => rfl
  | case3 a b rest h _ =>
    simp only [collapse, if_pos h, List.head?_cons]
    rw [h.1]
  | case4 a b rest h _ => simp only [collapse, if_neg h, List.head?_cons]

theorem hasTripleSep_tail (x : Char) (s : List Char) (h : hasTripleSep (x :: s) = false) :
    hasTripleSep s = false := by
  match s, h with
  | [], _ => rfl
  | [_], _ => rfl
  | b :: c :: rest, h =>
    simp only [hasTripleSep, Bool.or_eq_false_iff] at h
    exact h.2

theorem isSep_backslash : isSep '\\' = true := by decide

/-- After the single pass no two backslashes are adjacent, provided the input had no
three consecutive separators. -/
theorem collapse_chain (s : List Char) (h3 : hasTripleSep s = false) :
    (collapse s).Chain' (fun x y => ¬ (x = '\\' ∧ y = '\\')) := by
  induction s using collapse.induct with
  | case1 => simp [collapse]
  | case2 c => simp [collapse]
  | case3 a b rest h ih =>
    simp only [collapse, if_pos h]
    have hrest : hasTripleSep rest = false :=
      hasTripleSep_tail b rest (hasTripleSep_tail a (b :: rest) h3)
    have ih' := ih hrest
    cases hc : collapse rest with
    | nil => exact List.chain'_singleton _
    | cons x xs =>
      rw [hc] at ih'
      refine List.chain'_cons.mpr ⟨?_, ih'⟩
      rintro ⟨_, hx⟩
      have hhead : rest.head? = some x := by rw [← collapse_head, hc]; rfl
      cases rest with
      | nil => simp at hhead
      | cons y ys =>
        simp only [List.head?_cons, Option.some.injEq] at hhead
        subst hhead hx
        obtain ⟨ha, hb⟩ := h
        subst ha hb
        simp [hasTripleSep, isSep_backslash] at h3
  | case4 a b rest h ih =>
    simp only [collapse, if_neg h]
    have ih' := ih (hasTripleSep_tail a (b :: rest) h3)
    cases hc : collapse (b :: rest) with
    | nil => exact List.chain'_singleton _
    | cons x xs =>
      rw [hc] at ih'
      refine List.chain'_cons.mpr ⟨?_, ih'⟩
      have hhead : (b :: rest).head? = some x := by rw [← collapse_head, hc]; rfl
      simp only [List.head?_cons, Option.some.injEq] at hhead
      subst hhead
      exact h

/-- The single pass changes nothing when no two backslashes are adjacent. -/
theorem collapse_fixed (s : List Char)
    (h : s.Chain' (fun x y => ¬ (x = '\\' ∧ y = '\\'))) : collapse s = s := by
  induction s using collapse.induct with
  | case1 => rfl
  | case2 c => rfl
  | case3 a b rest hab _ => exact absurd hab (List.chain'_cons.mp h).1
  | case4 a b rest hab ih =>
    simp only [collapse, if_neg hab]
    rw [ih (List.chain'_cons.mp h).2]

theorem isSep_slashMap (x : Char) : isSep (if x = '/' then '\\' else x) = isSep x := by
  by_cases hx : x = '/'
  · subst hx; decide
  · simp [hx]

theorem hasTripleSep_map_slash (s : List Char) :
    hasTripleSep (s.map (fun c => if c = '/' then '\\' else c)) = hasTripleSep s := by
  induction s using hasTripleSep.induct with
  | case1 a b c rest ih =>
    simp only [List.map_cons, hasTripleSep, isSep_slashMap] at ih ⊢
    rw [ih]
  | case2 s hs =>
    match s, hs with
    | [], _ => rfl
    | [_], _ => rfl
    | [_, _], _ => rfl
    | a :: b :: c :: rest, hs => exact absurd rfl (hs a b c rest)

theorem canon_eq (t : Char → Char) (p : List Char) :
    canon t p
      = if HasPrefix (collapse ((ToLower t p).map (fun c => if c = '/' then '\\' else c)))
            ['\\']
        then (collapse ((ToLower t p).map (fun c => if c = '/' then '\\' else c))).drop 1
        else collapse ((ToLower t p).map (fun c => if c = '/' then '\\' else c)) := by
  unfold canon
  simp only [Replace_slash, Replace_collapse]
  rfl

theorem HasPrefix_backslash (s : List Char) :
    HasPrefix s ['\\'] = true ↔ s.head? = some '\\' := by
  cases s with
  | nil => simp [HasPrefix, List.isPrefixOf]
  | cons x xs =>
    simp only [HasPrefix, List.isPrefixOf, Bool.and_true, List.head?_cons,
      Option.some.injEq, beq_iff_eq]
    exact eq_comm

/-- A path already in canonical shape is left unchanged by `canon`. -/
theorem canon_fixed (t : Char → Char) (d : List Char)
    (hlow : ∀ x ∈ d, toLowerRune t x = x) (hslash : ∀ x ∈ d, x ≠ '/')
    (hchain : d.Chain' (fun x y => ¬ (x = '\\' ∧ y = '\\')))
    (hhead : d.head? ≠ some '\\') : canon t d = d := by
  have h1 : ToLower t d = d := by
    unfold ToLower
    exact (List.map_congr_left hlow).trans (List.map_id d)
  have h2 : d.map (fun c => if c = '/' then '\\' else c) = d := by
    refine (List.map_congr_left ?_).trans (List.map_id d)
    intro x hx
    simp [hslash x hx]
  rw [canon_eq, h1, h2, collapse_fixed d hchain]
  have h3 : HasPrefix d ['\\'] = false := by
    cases hp : HasPrefix d ['\\']
    · rfl
    · exact absurd ((HasPrefix_backslash d).mp hp) hhead
  simp [h3]

theorem toLowerRune_backslash (t : Char → Char) : toLowerRune t '\\' = '\\' := by
  unfold toLowerRune
  have h1 : '\\'.toNat ≤ 0x7F := by decide
  have h2 : ¬ ('A'.toNat ≤ '\\'.toNat ∧ '\\'.toNat ≤ 'Z'.toNat) := by decide
  rw [if_pos h1, if_neg h2]

/-- A path whose lower-cased form has no three consecutive separators is canonicalised
to a fixed point of `canon`. -/
theorem canon_canon_of_no_triple (caseTable : Char → Char) (p : List Char)
    (hidem : ∀ c : Char,
      toLowerRune caseTable (toLowerRune caseTable c) = toLowerRune caseTable c)
    (h3 : hasTripleSep (ToLower caseTable p) = false) :
    canon caseTable (canon caseTable p) = canon caseTable p := by
  have hb3 : hasTripleSep ((ToLower caseTable p).map (fun c => if c = '/' then '\\' else c))
      = false := by rw [hasTripleSep_map_slash]; exact h3
  have hchain := collapse_chain _ hb3
  have hmem : ∀ x ∈ collapse ((ToLower caseTable p).map
      (fun c => if c = '/' then '\\' else c)), toLowerRune caseTable x = x ∧ x ≠ '/' := by
    intro x hx
    have hx' := (collapse_sublist _).subset hx
    simp only [ToLower, List.map_map, List.mem_map, Function.comp] at hx'
    obtain ⟨y, _, rfl⟩ := hx'
    by_cases hy : toLowerRune caseTable y = '/'
    · rw [if_pos hy]
      exact ⟨toLowerRune_backslash caseTable, by decide⟩
    · rw [if_neg hy]
      exact ⟨hidem y, hy⟩
  rw [canon_eq caseTable p]
  split
  · rename_i hpre
    have hhead := (HasPrefix_backslash _).mp hpre
    cases hc : collapse ((ToLower caseTable p).map
        (fun c => if c = '/' then '\\' else c)) with
    | nil => rw [hc] at hhead; simp at hhead
    | cons x xs =>
      rw [hc] at hchain hmem hhead
      simp only [List.head?_cons, Option.some.injEq] at hhead
      subst hhead
      simp only [List.drop_succ_cons, List.drop_zero]
      apply canon_fixed
      · exact fun z hz => (hmem z (List.mem_cons_of_mem _ hz)).1
      · exact fun z hz => (hmem z (List.mem_cons_of_mem _ hz)).2
      · exact hchain.tail
      · cases xs with
        | nil => simp
        | cons z zs =>
          simp only [List.head?_cons, ne_eq, Option.some.injEq]
          intro hz
          exact (List.chain'_cons.mp hchain).1 ⟨rfl, hz⟩
  · rename_i hpre
    apply canon_fixed
    · exact fun z hz => (hmem z hz).1
    · exact fun z hz => (hmem z hz).2
    · exact hchain
    · intro hh
      exact hpre ((HasPrefix_backslash _).mpr hh)

/-- Lower-casing with the identity as case table is idempotent. -/
theorem toLowerRune_id_idem (c : Char) :
    toLowerRune id (toLowerRune id c) = toLowerRune id c := by
  by_cases hup : 'A'.toNat ≤ c.toNat ∧ c.toNat ≤ 'Z'.toNat
  · have hc : c = Char.ofNat c.toNat := (Char.ofNat_toNat c).symm
    have h1 : (65 : Nat) ≤ c.toNat := hup.1
    have h2 : c.toNat ≤ 90 := hup.2
    generalize c.toNat = n at hc h1 h2
    subst hc
    interval_cases n <;> decide
  · unfold toLowerRune
    by_cases hA : c.toNat ≤ 0x7F
    · simp only [if_pos hA, if_neg hup]
    · simp only [if_neg hA, id]

/-- C9 (counterexample): on the path of three backslashes a second canonicalisation
changes the result, whatever the case table. -/
theorem canon_not_idempotent :
    ¬ ∃ caseTable : Char → Char,
        canon caseTable (canon caseTable "\\\\\\".toList) = canon caseTable "\\\\\\".toList := by
  rintro ⟨t, h⟩
  have hascii : ∀ s : List Char, (∀ c ∈ s, c.toNat ≤ 0x7F) → canon t s = canon id s :=
    fun s hs => canon_congr t id s (fun c hc hlt => absurd (hs c hc) (by omega))
  rw [hascii "\\\\\\".toList (by decide)] at h
  rw [hascii _ (by decide)] at h
  revert h
  decide

theorem hasPair_cons (x : Char) (s : List Char) (h : hasPair s = true) :
    hasPair (x :: s) = true := by
  match s, h with
  | a :: b :: rest, h =>
    rw [hasPair, h, Bool.or_true]

theorem isSep_iff_backslash (x : Char) (hx : x ≠ '/') : isSep x = true ↔ x = '\\' := by
  simp [isSep, hx]

/-- Three consecutive separators leave two adjacent backslashes after the single pass. -/
theorem collapse_pair_of_triple (s : List Char) (hs : ∀ x ∈ s, x ≠ '/')
    (h3 : hasTripleSep s = true) : hasPair (collapse s) = true := by
  induction s using collapse.induct with
  | case1 => simp [hasTripleSep] at h3
  | case2 c => simp [hasTripleSep] at h3
  | case3 a b rest h ih =>
    simp only [collapse, if_pos h]
    cases rest with
    | nil => simp [hasTripleSep] at h3
    | cons c r =>
      have hc : c ≠ '/' := hs c (by simp)
      by_cases hcb : c = '\\'
      · have hhead : (collapse (c :: r)).head? = some '\\' := by
          rw [collapse_head, hcb]; rfl
        cases hcr : collapse (c :: r) with
        | nil => rw [hcr] at hhead; simp at hhead
        | cons y ys =>
          rw [hcr] at hhead
          simp only [List.head?_cons, Option.some.injEq] at hhead
          subst hhead
          simp [hasPair]
      · apply hasPair_cons
        apply ih (fun x hx => hs x (by simp [List.mem_cons] at hx ⊢; tauto))
        have hnc : isSep c = false := by
          cases hsc : isSep c
          · rfl
          · exact absurd ((isSep_iff_backslash c hc).mp hsc) hcb
        cases r with
        | nil => simp [hasTripleSep, hnc] at h3
        | cons e r2 =>
          simp only [hasTripleSep, hnc, Bool.and_false, Bool.false_and, Bool.false_or,
            Bool.and_true] at h3
          simpa [hasTripleSep] using h3
  | case4 a b rest h ih =>
    simp only [collapse, if_neg h]
    apply hasPair_cons
    apply ih (fun x hx => hs x (List.mem_cons_of_mem _ hx))
    cases rest with
    | nil => simp [hasTripleSep] at h3
    | cons c r =>
      have hab : (isSep a && isSep b) = false := by
        cases hsa : isSep a
        · rfl
        · cases hsb : isSep b
          · rfl
          · exact absurd ⟨(isSep_iff_backslash a (hs a (by simp))).mp hsa,
              (isSep_iff_backslash b (hs b (by simp))).mp hsb⟩ h
      simp only [hasTripleSep, hab, Bool.false_and, Bool.false_or] at h3
      exact h3

theorem collapse_length_le (s : List Char) : (collapse s).length ≤ s.length :=
  (collapse_sublist s).length_le

theorem collapse_length_lt (s : List Char) (h : hasPair s = true) :
    (collapse s).length < s.length := by
  induction s using collapse.induct with
  | case1 => simp [hasPair] at h
  | case2 c => simp [hasPair] at h
  | case3 a b rest hab _ =>
    simp only [collapse, if_pos hab, List.length_cons]
    have := collapse_length_le rest
    omega
  | case4 a b rest hab ih =>
    simp only [collapse, if_neg hab, List.length_cons]
    have hrest : hasPair (b :: rest) = true := by
      simp only [hasPair, Bool.or_eq_true, Bool.and_eq_true, decide_eq_true_eq] at h
      rcases h with h | h
      · exact absurd h hab
      · exact h
    have := ih hrest
    simp only [List.length_cons] at this
    omega

/-- A lower-case path without `/` that starts with a backslash or holds a doubled
backslash gets shorter under `canon`. -/
theorem canon_length_lt (t : Char → Char) (d : List Char)
    (hlow : ∀ x ∈ d, toLowerRune t x = x) (hslash : ∀ x ∈ d, x ≠ '/')
    (hbad : hasPair d = true ∨ d.head? = some '\\') : (canon t d).length < d.length := by
  have h1 : ToLower t d = d := by
    unfold ToLower
    exact (List.map_congr_left hlow).trans (List.map_id d)
  have h2 : d.map (fun c => if c = '/' then '\\' else c) = d := by
    refine (List.map_congr_left ?_).trans (List.map_id d)
    intro x hx
    simp [hslash x hx]
  rw [canon_eq, h1, h2]
  have hle := collapse_length_le d
  rcases hbad with hpair | hhead
  · have hlt := collapse_length_lt d hpair
    split
    · rw [List.length_drop]; omega
    · exact hlt
  · have hpre : HasPrefix (collapse d) ['\\'] = true :=
      (HasPrefix_backslash _).mpr (by rw [collapse_head, hhead])
    rw [if_pos hpre, List.length_drop]
    have hpos : 0 < (collapse d).length := by
      cases hc : collapse d with
      | nil => rw [hc] at hpre; simp [HasPrefix, List.isPrefixOf] at hpre
      | cons y ys => simp
    omega

/-- A path whose lower-cased form has three consecutive separators is canonicalised to
a path that a second canonicalisation shortens. -/
theorem canon_canon_of_triple (caseTable : Char → Char) (p : List Char)
    (hidem : ∀ c : Char,
      toLowerRune caseTable (toLowerRune caseTable c) = toLowerRune caseTable c)
    (h3 : hasTripleSep (ToLower caseTable p) = true) :
    (canon caseTable (canon caseTable p)).length < (canon caseTable p).length := by
  have hbmem : ∀ x ∈ (ToLower caseTable p).map (fun c => if c = '/' then '\\' else c),
      toLowerRune caseTable x = x ∧ x ≠ '/' := by
    intro x hx
    simp only [ToLower, List.map_map, List.mem_map, Function.comp] at hx
    obtain ⟨y, _, rfl⟩ := hx
    by_cases hy : toLowerRune caseTable y = '/'
    · rw [if_pos hy]
      exact ⟨toLowerRune_backslash caseTable, by decide⟩
    · rw [if_neg hy]
      exact ⟨hidem y, hy⟩
  have hb3 : hasTripleSep ((ToLower caseTable p).map (fun c => if c = '/' then '\\' else c))
      = true := by rw [hasTripleSep_map_slash]; exact h3
  have hpair := collapse_pair_of_triple _ (fun x hx => (hbmem x hx).2) hb3
  have hmem : ∀ x ∈ collapse ((ToLower caseTable p).map
      (fun c => if c = '/' then '\\' else c)), toLowerRune caseTable x = x ∧ x ≠ '/' :=
    fun x hx => hbmem x ((collapse_sublist _).subset hx)
  rw [canon_eq caseTable p]
  split
  · rename_i hpre
    have hhead := (HasPrefix_backslash _).mp hpre
    cases hc : collapse ((ToLower caseTable p).map
        (fun c => if c = '/' then '\\' else c)) with
    | nil => rw [hc] at hhead; simp at hhead
    | cons x xs =>
      rw [hc] at hpair hmem hhead
      simp only [List.head?_cons, Option.some.injEq] at hhead
      subst hhead
      simp only [List.drop_succ_cons, List.drop_zero]
      apply canon_length_lt
      · exact fun z hz => (hmem z (List.mem_cons_of_mem _ hz)).1
      · exact fun z hz => (hmem z (List.mem_cons_of_mem _ hz)).2
      · cases xs with
        | nil => simp [hasPair] at hpair
        | cons y ys =>
          simp only [hasPair, Bool.or_eq_true, Bool.and_eq_true, decide_eq_true_eq] at hpair
          rcases hpair with ⟨_, hy⟩ | hrest
          · exact Or.inr (by rw [hy]; rfl)
          · exact Or.inl hrest
  · apply canon_length_lt
    · exact fun z hz => (hmem z hz).1
    · exact fun z hz => (hmem z hz).2
    · exact Or.inl hpair

/-- C9 (amended): `canon` is idempotent at `p` exactly when the lower-cased form of `p`
has no three consecutive separator characters (`/` or `\\`), lower-casing itself being
idempotent. -/
theorem canon_idempotent_iff (caseTable : Char → Char) (p : List Char)
    (hidem : ∀ c : Char,
      toLowerRune caseTable (toLowerRune caseTable c) = toLowerRune caseTable c) :
    canon caseTable (canon caseTable p) = canon caseTable p
      ↔ hasTripleSep (ToLower caseTable p) = false := by
  constructor
  · intro heq
    cases h3 : hasTripleSep (ToLower caseTable p)
    · rfl
    · have hlt := canon_canon_of_triple caseTable p hidem h3
      rw [heq] at hlt
      exact absurd hlt (Nat.lt_irrefl _)
  · exact canon_canon_of_no_triple caseTable p hidem

/-- Witness of C9 (amended) with the identity as case table: `A//b\\C` has no three
consecutive separators and its canonical form `a\\b\\c` is a fixed point. -/
theorem canon_idempotent_iff_witness :
    canon id "A//b\\C".toList = "a\\b\\c".toList
      ∧ hasTripleSep (ToLower id "A//b\\C".toList) = false
      ∧ canon id (canon id "A//b\\C".toList) = canon id "A//b\\C".toList :=
  ⟨by decide, by decide,
    (canon_idempotent_iff id "A//b\\C".toList toLowerRune_id_idem).mpr (by decide)⟩

/-! ## Lemmas on the little-endian decoder -/

theorem uintLE_eq_sum (l : List Byte) :
    uintLE l = ((List.range l.length).map (fun j => (l.getD j 0).val * 256 ^ j)).sum := by
  induction l with
  | nil => rfl
  | cons x xs ih =>
    rw [uintLE, ih, List.length_cons, List.range_succ_eq_map, List.map_cons, List.sum_cons,
      List.map_map, ← List.sum_map_mul_left]
    simp only [List.getD_cons_zero, pow_zero, mul_one]
    congr 2
    apply List.map_congr_left
    intro j _
    simp only [Function.comp, List.getD_cons_succ, pow_succ]
    ring

/-- A window of the buffer decodes to the value named by `leAt`. -/
theorem uintLE_window (b : List Byte) (off n : Nat) (h : off + n ≤ b.length) :
    uintLE ((b.drop off).take n) = leAt b off n := by
  rw [uintLE_eq_sum, leAt]
  have hlen : ((b.drop off).take n).length = n := by
    rw [List.length_take, List.length_drop]; omega
  rw [hlen]
  apply congrArg
  apply List.map_congr_left
  intro j hj
  have hj' : j < n := List.mem_range.mp hj
  simp only [List.getD_eq_getElem?_getD, List.getElem?_take_of_lt hj', List.getElem?_drop]

theorem leAt_congr (b b' : List Byte) (off n : Nat)
    (h : ∀ j, off ≤ j → j < off + n → b'[j]? = b[j]?) : leAt b' off n = leAt b off n := by
  unfold leAt
  apply congrArg
  apply List.map_congr_left
  intro j hj
  have hj' : j < n := List.mem_range.mp hj
  simp only [List.getD_eq_getElem?_getD, h (off + j) (by omega) (by omega)]

theorem window_of_take (l : List Byte) (m k n : Nat) (h : k + n ≤ m) :
    ((l.take m).drop k).take n = (l.drop k).take n := by
  rw [List.drop_take, List.take_take]
  congr 1
  omega

theorem decodeHead_Num (b : List Byte) (h : 512 ≤ b.length) :
    (decodeHead (b.take 512)).1.Num = entryCount b := by
  simp only [decodeHead, readUint, readInt, readBytes, List.drop_drop, entryCount]
  rw [show (4 + 8 : Nat) = 12 from rfl, window_of_take b 512 12 4 (by omega),
    uintLE_window b 12 4 (by omega)]

theorem decodeItem_snd (buf : List Byte) : (decodeItem buf).2 = buf.drop 20 := by
  simp only [decodeItem, readUint, readInt, List.drop_drop]

theorem decodeItem_fst (buf : List Byte) :
    (decodeItem buf).1
      = { Hash := uintLE (buf.take 8),
          Encpos := toSigned 64 (uintLE ((buf.drop 8).take 8)),
          Encsize := toSigned 32 (uintLE ((buf.drop 16).take 4)) } := by
  simp only [decodeItem, readUint, readInt, List.drop_drop]

theorem decodeItems_length (n : Nat) (buf : List Byte) : (decodeItems n buf).length = n := by
  induction n generalizing buf with
  | zero => rfl
  | succ n ih => simp [decodeItems, ih]

theorem decodeItems_getElem? (n : Nat) (buf : List Byte) (i : Nat) (hi : i < n) :
    (decodeItems n buf)[i]? = some (decodeItem (buf.drop (20 * i))).1 := by
  induction n generalizing buf i with
  | zero => omega
  | succ n ih =>
    cases i with
    | zero => simp [decodeItems]
    | succ i =>
      simp only [decodeItems, List.getElem?_cons_succ]
      rw [ih _ i (by omega), decodeItem_snd, List.drop_drop]
      congr 4
      omega

/-- The entry that the catalog bytes `b` hold at index `i`, by byte offsets. -/
theorem ReadItems_ok (b : List Byte) (N : Nat) (hN : entryCount b = (N : Int))
    (hlen : 512 + 20 * N ≤ b.length) :
    ReadItems b = .ok (decodeItems N ((b.drop 512).take (20 * N))) := by
  unfold ReadItems
  simp only [List.drop_zero]
  rw [if_neg (by omega), decodeHead_Num b (by omega), hN]
  simp only [Int.toNat_ofNat, List.length_drop]
  rw [if_neg (by omega), if_neg (by omega)]

theorem decodeItems_entry (b : List Byte) (N i : Nat) (hlen : 512 + 20 * N ≤ b.length)
    (hi : i < N) :
    (decodeItems N ((b.drop 512).take (20 * N)))[i]?
      = some { Hash := leAt b (512 + 20 * i) 8,
               Encpos := toSigned 64 (leAt b (512 + 20 * i + 8) 8),
               Encsize := toSigned 32 (leAt b (512 + 20 * i + 16) 4) } := by
  rw [decodeItems_getElem? _ _ i hi, decodeItem_fst]
  have e1 : (((b.drop 512).take (20 * N)).drop (20 * i)).take 8
      = (b.drop (512 + 20 * i)).take 8 := by
    rw [window_of_take _ _ _ _ (by omega), List.drop_drop]
  have e2 : ((((b.drop 512).take (20 * N)).drop (20 * i)).drop 8).take 8
      = (b.drop (512 + 20 * i + 8)).take 8 := by
    rw [List.drop_drop, window_of_take _ _ _ _ (by omega), List.drop_drop]
    congr 2
  have e3 : ((((b.drop 512).take (20 * N)).drop (20 * i)).drop 16).take 4
      = (b.drop (512 + 20 * i + 16)).take 4 := by
    rw [List.drop_drop, window_of_take _ _ _ _ (by omega), List.drop_drop]
    congr 2
  rw [e1, e2, e3, uintLE_window b _ 8 (by omega), uintLE_window b _ 8 (by omega),
    uintLE_window b _ 4 (by omega)]

theorem ReadItems_short (b : List Byte) (h : b.length < 512) : ReadItems b = .fatal := by
  unfold ReadItems
  simp only [List.drop_zero]
  rw [if_pos h]

theorem ReadItems_negative (b : List Byte) (h : 512 ≤ b.length) (hneg : entryCount b < 0) :
    ReadItems b = .panic := by
  unfold ReadItems
  simp only [List.drop_zero]
  rw [if_neg (by omega), decodeHead_Num b h, if_pos hneg]

theorem ReadItems_truncated (b : List Byte) (h : 512 ≤ b.length) (hnn : 0 ≤ entryCount b)
    (htr : (b.length : Int) < 512 + 20 * entryCount b) : ReadItems b = .fatal := by
  obtain ⟨N, hN⟩ := Int.eq_ofNat_of_zero_le hnn
  unfold ReadItems
  simp only [List.drop_zero]
  rw [if_neg (by omega), decodeHead_Num b h, hN]
  simp only [Int.toNat_ofNat, List.length_drop]
  rw [if_neg (by omega), if_pos (by omega)]

/-! ## Claims on the catalog loader -/

/-- C5: when the little-endian `int32` at offset 12 is `N >= 0` and the catalog has at
least `512 + 20 * N` bytes, `ReadItems` returns exactly `N` entries, entry `i` holding
the little-endian fields found at offsets `512 + 20 * i`, `+ 8` and `+ 16`; the result is
the same for every catalog that differs only in header bytes other than the count. -/
theorem ReadItems_entries (b : List Byte) (N : Nat) (hN : entryCount b = (N : Int))
    (hlen : 512 + 20 * N ≤ b.length) :
    ∃ items, ReadItems b = .ok items ∧ items.length = N
      ∧ (∀ i, i < N →
          items[i]? = some { Hash := leAt b (512 + 20 * i) 8,
                             Encpos := toSigned 64 (leAt b (512 + 20 * i + 8) 8),
                             Encsize := toSigned 32 (leAt b (512 + 20 * i + 16) 4) })
      ∧ (∀ b' : List Byte, b'.length = b.length →
          (∀ j, (12 ≤ j ∧ j < 16) ∨ 512 ≤ j → b'[j]? = b[j]?) →
          ReadItems b' = .ok items) := by
  refine ⟨_, ReadItems_ok b N hN hlen, decodeItems_length _ _,
    fun i hi => decodeItems_entry b N i hlen hi, ?_⟩
  intro b' hlen' hagree
  have hN' : entryCount b' = (N : Int) := by
    rw [← hN]
    unfold entryCount
    rw [leAt_congr b b' 12 4 (fun j h1 h2 => hagree j (Or.inl ⟨h1, by omega⟩))]
  rw [ReadItems_ok b' N hN' (by omega)]
  congr 1
  apply List.ext_getElem?
  intro i
  by_cases hi : i < N
  · rw [decodeItems_entry b' N i (by omega) hi, decodeItems_entry b N i hlen hi,
      leAt_congr b b' (512 + 20 * i) 8 (fun j h1 _ => hagree j (Or.inr (by omega))),
      leAt_congr b b' (512 + 20 * i + 8) 8 (fun j h1 _ => hagree j (Or.inr (by omega))),
      leAt_congr b b' (512 + 20 * i + 16) 4 (fun j h1 _ => hagree j (Or.inr (by omega)))]
  · rw [List.getElem?_eq_none (by rw [decodeItems_length]; omega),
      List.getElem?_eq_none (by rw [decodeItems_length]; omega)]

/-- Witness of C5 on `sampleCatalog`. -/
theorem ReadItems_entries_witness :
    entryCount sampleCatalog = ((1 : Nat) : Int) ∧ 512 + 20 * 1 ≤ sampleCatalog.length
      ∧ ReadItems sampleCatalog
          = .ok [{ Hash := 0x3A3064375F4C9628, Encpos := 256, Encsize := 56 }]
      ∧ ∃ items, ReadItems sampleCatalog = .ok items ∧ items.length = 1
        ∧ (∀ i, i < 1 →
            items[i]? = some { Hash := leAt sampleCatalog (512 + 20 * i) 8,
                               Encpos := toSigned 64 (leAt sampleCatalog (512 + 20 * i + 8) 8),
                               Encsize := toSigned 32 (leAt sampleCatalog (512 + 20 * i + 16) 4) })
        ∧ (∀ b' : List Byte, b'.length = sampleCatalog.length →
            (∀ j, (12 ≤ j ∧ j < 16) ∨ 512 ≤ j → b'[j]? = sampleCatalog[j]?) →
            ReadItems b' = .ok items) :=
  ⟨by decide!, by decide!, by decide!,
    ReadItems_entries sampleCatalog 1 (by decide!) (by decide!)⟩

/-- C6: loading the catalog fails exactly when the bytes are shorter than the 512-byte
header, or the declared entry count is negative, or the bytes are shorter than
`512 + 20 * N`; in every other case it succeeds. -/
theorem ReadItems_fails_iff (b : List Byte) :
    ((ReadItems b = .fatal ∨ ReadItems b = .panic) ↔
        (b.length < 512 ∨ entryCount b < 0
          ∨ (b.length : Int) < 512 + 20 * entryCount b))
      ∧ ((∃ items, ReadItems b = .ok items) ↔
        ¬ (b.length < 512 ∨ entryCount b < 0
          ∨ (b.length : Int) < 512 + 20 * entryCount b)) := by
  by_cases h1 : b.length < 512
  · have e := ReadItems_short b h1
    simp [e, h1]
  · by_cases h2 : entryCount b < 0
    · have e := ReadItems_negative b (by omega) h2
      simp [e, h2]
    · by_cases h3 : (b.length : Int) < 512 + 20 * entryCount b
      · have e := ReadItems_truncated b (by omega) (by omega) h3
        simp [e, h3]
      · obtain ⟨N, hN⟩ := Int.eq_ofNat_of_zero_le (not_lt.mp h2)
        have e := ReadItems_ok b N hN (by omega)
        simp [e, h1, h2, h3]

/-! ## Claims on GetBytesFromPaks -/

/-- C7: for a non-negative logical offset the volume index `i` and the intra-volume
offset `p` of `GetBytesFromPaks` satisfy `offset = i * 0x32000000 + p` and
`0 <= p < 0x32000000`. -/
theorem pak_resolve (item : Item) (h : 0 ≤ item.Encpos) :
    item.Encpos = pakIndex item * 0x32000000 + pakOffset item
      ∧ 0 ≤ pakOffset item ∧ pakOffset item < 0x32000000 := by
  refine ⟨?_, ?_, ?_⟩
  · exact (Int.tdiv_add_tmod' item.Encpos 0x32000000).symm
  · exact Int.tmod_nonneg _ h
  · exact Int.tmod_lt_of_pos _ (by decide)

/-- Witness of C7 at the offset `0x32000000 + 500` (volume 1, intra-volume offset 500). -/
theorem pak_resolve_witness :
    pakIndex { Hash := 100, Encpos := 0x32000000 + 500, Encsize := 56 } = 1
      ∧ pakOffset { Hash := 100, Encpos := 0x32000000 + 500, Encsize := 56 } = 500
      ∧ ((0x32000000 + 500 : Int)
            = pakIndex { Hash := 100, Encpos := 0x32000000 + 500, Encsize := 56 } * 0x32000000
              + pakOffset { Hash := 100, Encpos := 0x32000000 + 500, Encsize := 56 }
          ∧ 0 ≤ pakOffset { Hash := 100, Encpos := 0x32000000 + 500, Encsize := 56 }
          ∧ pakOffset { Hash := 100, Encpos := 0x32000000 + 500, Encsize := 56 } < 0x32000000) :=
  ⟨by decide, by decide,
    pak_resolve { Hash := 100, Encpos := 0x32000000 + 500, Encsize := 56 } (by decide)⟩

theorem decodeFileInfo_Enc (tmp : List Byte) (h : 40 ≤ tmp.length) :
    (decodeFileInfo (tmp.take 40)).1.Enc = toSigned 32 (leAt tmp 36 4) := by
  simp only [decodeFileInfo, readInt, List.drop_drop]
  rw [show (4 + (4 + (8 + (4 + (4 + (4 + 8))))) : Nat) = 36 from rfl,
    window_of_take tmp 40 36 4 (by omega), uintLE_window tmp 36 4 (by omega)]

/-- C8: a block of at least 56 bytes whose compression flag (little-endian `int32` at
offset 36) is not 1 decodes to its bytes from offset 56 on, unmodified, `length - 56`
of them, whatever the other sub-header fields hold. -/
theorem decodeBlock_raw (lzo : List Byte → Int → Int → Decompressed)
    (tmp : List Byte) (hlen : 56 ≤ tmp.length) (hflag : toSigned 32 (leAt tmp 36 4) ≠ 1) :
    decodeBlock lzo tmp = .ok (tmp.drop 56)
      ∧ (tmp.drop 56).length = tmp.length - 56
      ∧ ∀ i, i < tmp.length - 56 → (tmp.drop 56)[i]? = tmp[56 + i]? := by
  refine ⟨?_, List.length_drop _ _, fun i _ => List.getElem?_drop _ _ _⟩
  unfold decodeBlock
  rw [if_neg (by omega)]
  simp only [decodeFileInfo_Enc tmp (by omega), if_neg hflag]
  rw [if_neg (by omega)]

/-- Witness of C8 on `sampleRawBlock`, whose size fields do not match its payload. -/
theorem decodeBlock_raw_witness :
    56 ≤ sampleRawBlock.length ∧ toSigned 32 (leAt sampleRawBlock 36 4) ≠ 1
      ∧ decodeBlock sampleLzo sampleRawBlock = .ok [10, 20, 30, 40]
      ∧ (decodeBlock sampleLzo sampleRawBlock = .ok (sampleRawBlock.drop 56)
          ∧ (sampleRawBlock.drop 56).length = sampleRawBlock.length - 56
          ∧ ∀ i, i < sampleRawBlock.length - 56 →
              (sampleRawBlock.drop 56)[i]? = sampleRawBlock[56 + i]?) :=
  ⟨by decide, by decide, by decide,
    decodeBlock_raw sampleLzo sampleRawBlock (by decide) (by decide)⟩

/-! ## Binary search and lookup -/

/-- With enough fuel the loop of `sort.Search` ends on the boundary of a predicate that
is monotone on `[0, n)`. -/
theorem searchLoop_spec (f : Nat → Bool) (n : Nat)
    (hmono : ∀ x y, x ≤ y → y < n → f x = true → f y = true)
    (fuel i j : Nat) (hfuel : j - i ≤ fuel) (hij : i ≤ j) (hjn : j ≤ n)
    (hlo : ∀ x, x < i → f x = false) (hhi : ∀ x, j ≤ x → x < n → f x = true) :
    searchLoop f fuel i j ≤ n
      ∧ (∀ x, x < searchLoop f fuel i j → f x = false)
      ∧ (∀ x, searchLoop f fuel i j ≤ x → x < n → f x = true) := by
  induction fuel generalizing i j with
  | zero =>
    have hij' : i = j := by omega
    subst hij'
    exact ⟨hjn, hlo, hhi⟩
  | succ fuel ih =>
    unfold searchLoop
    by_cases hlt : i < j
    · rw [if_pos hlt]
      have hh1 : i ≤ (i + j) / 2 := by omega
      have hh2 : (i + j) / 2 < j := by omega
      cases hf : f ((i + j) / 2)
      · simp only [hf, Bool.not_false, if_true]
        apply ih (i := (i + j) / 2 + 1) (j := j) (by omega) (by omega) hjn _ hhi
        intro x hx
        cases hfx : f x
        · rfl
        · have := hmono x ((i + j) / 2) (by omega) (by omega) hfx
          rw [hf] at this
          exact absurd this (by decide)
      · simp only [hf, Bool.not_true, Bool.false_eq_true, if_false]
        apply ih (i := i) (j := (i + j) / 2) (by omega) hh1 (by omega) hlo
        intro x hx hxn
        exact hmono ((i + j) / 2) x hx hxn hf
    · rw [if_neg hlt]
      have hij' : i = j := by omega
      subst hij'
      exact ⟨hjn, hlo, hhi⟩

theorem Search_spec (f : Nat → Bool) (n : Nat)
    (hmono : ∀ x y, x ≤ y → y < n → f x = true → f y = true) :
    Search n f ≤ n ∧ (∀ x, x < Search n f → f x = false)
      ∧ (∀ x, Search n f ≤ x → x < n → f x = true) :=
  searchLoop_spec f n hmono n 0 n (by omega) (by omega) (by omega)
    (fun x hx => absurd hx (by omega)) (fun x hx hxn => absurd hxn (by omega))

/-- In a slice sorted by `Less`, hashes do not decrease with the index. -/
theorem sorted_hash_le (sorted : List Item)
    (hs : sorted.Pairwise (fun a b => Less b a = false)) (x y : Nat) (hxy : x ≤ y)
    (a b : Item) (ha : sorted[x]? = some a) (hb : sorted[y]? = some b) : a.Hash ≤ b.Hash := by
  rcases Nat.eq_or_lt_of_le hxy with heq | hlt
  · subst heq
    rw [ha] at hb
    cases hb
    exact Nat.le_refl _
  · obtain ⟨hx, hxa⟩ := List.getElem?_eq_some_iff.mp ha
    obtain ⟨hy, hyb⟩ := List.getElem?_eq_some_iff.mp hb
    have := (List.pairwise_iff_getElem.mp hs) x y hx hy hlt
    rw [hxa, hyb] at this
    simpa [Less] using this

theorem lookupHash_eq (items : List Item) (hash : Nat) (h : hash ≠ 0) :
    lookupHash items hash
      = match items[Search items.length (atLeast items hash)]? with
        | none => .notFound
        | some it => if it.Hash ≠ hash then .notFound else .found it := by
  unfold lookupHash
  rw [if_neg h]

theorem atLeast_mono (sorted : List Item)
    (hs : sorted.Pairwise (fun a b => Less b a = false)) (k : Nat) :
    ∀ x y, x ≤ y → y < sorted.length → atLeast sorted k x = true → atLeast sorted k y = true := by
  intro x y hxy hy hx
  unfold atLeast at hx ⊢
  have hyb : sorted[y]? = some sorted[y] := List.getElem?_eq_getElem hy
  have hxa : sorted[x]? = some sorted[x] := List.getElem?_eq_getElem (by omega)
  rw [hxa] at hx
  rw [hyb]
  have hle := sorted_hash_le sorted hs x y hxy _ _ hxa hyb
  simp only [ge_iff_le, decide_eq_true_eq] at hx ⊢
  omega

/-- The contract of `sort.Sort` can be met for every slice: insertion sort by hash
produces such an arrangement. -/
theorem SortedBy_exists (items : List Item) : ∃ sorted, SortedBy items sorted := by
  refine ⟨items.insertionSort (fun a b => a.Hash ≤ b.Hash),
    List.perm_insertionSort _ items, ?_⟩
  haveI : IsTotal Item (fun a b => a.Hash ≤ b.Hash) := ⟨fun a b => Nat.le_total _ _⟩
  haveI : IsTrans Item (fun a b => a.Hash ≤ b.Hash) := ⟨fun _ _ _ h1 h2 => Nat.le_trans h1 h2⟩
  have hs := List.sorted_insertionSort (fun a b : Item => a.Hash ≤ b.Hash) items
  refine List.Pairwise.imp ?_ hs
  intro a b hab
  simp only [Less, decide_eq_false_iff_not, not_lt]
  exact hab

/-- C1: in the index built from a sequence of entries (the sequence as `sort.Sort`
leaves it), looking up a non-zero key `k` by binary search for the first entry with
`Hash >= k` and the equality check returns an entry of the sequence whose hash is `k`
when there is one, and not-found when no entry has hash `k`. -/
theorem lookupHash_correct (items sorted : List Item) (k : Nat) (hk : k ≠ 0)
    (hsort : SortedBy items sorted) :
    ((∃ e ∈ items, e.Hash = k) →
        ∃ e, e ∈ items ∧ e.Hash = k ∧ lookupHash sorted k = .found e)
      ∧ ((∀ e ∈ items, e.Hash ≠ k) → lookupHash sorted k = .notFound) := by
  obtain ⟨hperm, hs⟩ := hsort
  obtain ⟨_, hlo, hhi⟩ :=
    Search_spec (atLeast sorted k) sorted.length (atLeast_mono sorted hs k)
  rw [lookupHash_eq sorted k hk]
  cases hr : sorted[Search sorted.length (atLeast sorted k)]? with
  | none =>
    refine ⟨?_, fun _ => rfl⟩
    rintro ⟨e, he, hek⟩
    have hes : e ∈ sorted := hperm.mem_iff.mpr he
    obtain ⟨m, hm, hme⟩ := List.getElem_of_mem hes
    have hge : sorted.length ≤ Search sorted.length (atLeast sorted k) :=
      List.getElem?_eq_none_iff.mp hr
    have hfalse := hlo m (by omega)
    have hme' : sorted[m]? = some e := by rw [List.getElem?_eq_getElem hm, hme]
    simp [atLeast, hme', hek] at hfalse
  | some it =>
    obtain ⟨hrn, hrit⟩ := List.getElem?_eq_some_iff.mp hr
    have hit : it ∈ items := hperm.mem_iff.mp (hrit ▸ List.getElem_mem hrn)
    have htrue := hhi _ (Nat.le_refl _) hrn
    have hge : k ≤ it.Hash := by
      simpa [atLeast, hr] using htrue
    by_cases heq : it.Hash = k
    · refine ⟨fun _ => ⟨it, hit, heq, by simp [heq]⟩, fun hnone => absurd heq (hnone it hit)⟩
    · refine ⟨?_, fun _ => by simp [heq]⟩
      rintro ⟨e, he, hek⟩
      exfalso
      have hes : e ∈ sorted := hperm.mem_iff.mpr he
      obtain ⟨m, hm, hme⟩ := List.getElem_of_mem hes
      have hme' : sorted[m]? = some e := by rw [List.getElem?_eq_getElem hm, hme]
      have hrm : Search sorted.length (atLeast sorted k) ≤ m := by
        by_contra hcon
        have hfalse := hlo m (by omega)
        simp [atLeast, hme', hek] at hfalse
      have hle := sorted_hash_le sorted hs _ m hrm it e hr hme'
      omega

/-- Witness of C1: a catalog stored as keys 200, 100, sorted to 100, 200. -/
theorem lookupHash_correct_witness :
    SortedBy [{ Hash := 200, Encpos := 1000, Encsize := 56 },
              { Hash := 100, Encpos := 0, Encsize := 1056 }]
        [{ Hash := 100, Encpos := 0, Encsize := 1056 },
         { Hash := 200, Encpos := 1000, Encsize := 56 }]
      ∧ lookupHash [{ Hash := 100, Encpos := 0, Encsize := 1056 },
                    { Hash := 200, Encpos := 1000, Encsize := 56 }] 100
          = .found { Hash := 100, Encpos := 0, Encsize := 1056 }
      ∧ lookupHash [{ Hash := 100, Encpos := 0, Encsize := 1056 },
                    { Hash := 200, Encpos := 1000, Encsize := 56 }] 150 = .notFound
      ∧ (((∃ e ∈ [({ Hash := 200, Encpos := 1000, Encsize := 56 } : Item),
                  { Hash := 100, Encpos := 0, Encsize := 1056 }], e.Hash = 100) →
          ∃ e, e ∈ [({ Hash := 200, Encpos := 1000, Encsize := 56 } : Item),
                    { Hash := 100, Encpos := 0, Encsize := 1056 }] ∧ e.Hash = 100
            ∧ lookupHash [{ Hash := 100, Encpos := 0, Encsize := 1056 },
                          { Hash := 200, Encpos := 1000, Encsize := 56 }] 100 = .found e)
        ∧ ((∀ e ∈ [({ Hash := 200, Encpos := 1000, Encsize := 56 } : Item),
                   { Hash := 100, Encpos := 0, Encsize := 1056 }], e.Hash ≠ 100) →
          lookupHash [{ Hash := 100, Encpos := 0, Encsize := 1056 },
                      { Hash := 200, Encpos := 1000, Encsize := 56 }] 100 = .notFound)) :=
  ⟨⟨by decide, by decide⟩, by decide, by decide,
    lookupHash_correct _ _ 100 (by decide) ⟨by decide, by decide⟩⟩

/-! ## Reading a block from the volumes -/

theorem pakIndex_nonneg (item : Item) (h : 0 ≤ item.Encpos) : 0 ≤ pakIndex item :=
  Int.tdiv_nonneg h (by decide)

theorem pakOffset_nonneg (item : Item) (h : 0 ≤ item.Encpos) : 0 ≤ pakOffset item :=
  Int.tmod_nonneg _ h

/-- The read of `GetBytesFromPaks` when the size is not negative and the volume exists. -/
theorem readBlock_ok (paks : List PakFile) (item : Item) (f : PakFile)
    (hpos : 0 ≤ item.Encpos) (hsize : 0 ≤ item.Encsize)
    (hf : paks[(pakIndex item).toNat]? = some f) :
    readBlock paks item
      = .ok ((f.content.drop (pakOffset item).toNat).take item.Encsize.toNat
              ++ List.replicate (item.Encsize.toNat
                  - ((f.content.drop (pakOffset item).toNat).take item.Encsize.toNat).length) 0,
             paks.set (pakIndex item).toNat
               { f with offset := (pakOffset item).toNat
                  + ((f.content.drop (pakOffset item).toNat).take item.Encsize.toNat).length }) := by
  have hi := pakIndex_nonneg item hpos
  have hp := pakOffset_nonneg item hpos
  unfold readBlock
  simp only [if_neg (not_lt.mpr hsize), if_neg (not_lt.mpr hi), hf, if_neg (not_lt.mpr hp)]

theorem readBlock_out_of_range (paks : List PakFile) (item : Item)
    (h : (paks.length : Int) ≤ pakIndex item) : readBlock paks item = .panic := by
  unfold readBlock
  by_cases hs : item.Encsize < 0
  · simp only [if_pos hs]
  · by_cases hi : pakIndex item < 0
    · simp only [if_neg hs, if_pos hi]
    · have hnone : paks[(pakIndex item).toNat]? = none := by
        apply List.getElem?_eq_none
        omega
      simp only [if_neg hs, if_neg hi, hnone]

/-- C11: for a non-negative position and `V` opened volumes, reading the block fails
and no bytes are returned whenever `position / 0x32000000 >= V`; when
`position / 0x32000000 < V` the read does not fail for that reason: it succeeds
exactly when the block size is not negative. -/
theorem readBlock_volume_range (lzo : List Byte → Int → Int → Decompressed)
    (paks : List PakFile) (item : Item) (hpos : 0 ≤ item.Encpos) :
    ((paks.length : Int) ≤ pakIndex item →
        readBlock paks item = .panic ∧ GetBytesFromPaks lzo paks item = .panic)
      ∧ (pakIndex item < (paks.length : Int) →
          ((∃ r, readBlock paks item = .ok r) ↔ 0 ≤ item.Encsize)) := by
  constructor
  · intro h
    have e := readBlock_out_of_range paks item h
    exact ⟨e, by simp only [GetBytesFromPaks, e]⟩
  · intro h
    have hi := pakIndex_nonneg item hpos
    constructor
    · rintro ⟨r, hr⟩
      by_contra hneg
      unfold readBlock at hr
      simp only [if_pos (not_le.mp hneg)] at hr
      exact absurd hr (by simp)
    · intro hsize
      have hlt : (pakIndex item).toNat < paks.length := by omega
      exact ⟨_, readBlock_ok paks item paks[(pakIndex item).toNat] hpos hsize
        (List.getElem?_eq_getElem hlt)⟩

/-- Witness of C11 with two volumes: position `2 * 0x32000000 + 500` is out of range,
position `0x32000000 + 1` is read from volume 1. -/
theorem readBlock_volume_range_witness :
    (readBlock [{ content := [1, 2, 3], offset := 0 }, { content := [4, 5, 6], offset := 0 }]
          { Hash := 1, Encpos := 2 * 0x32000000 + 500, Encsize := 2 } = .panic
        ∧ GetBytesFromPaks sampleLzo
            [{ content := [1, 2, 3], offset := 0 }, { content := [4, 5, 6], offset := 0 }]
            { Hash := 1, Encpos := 2 * 0x32000000 + 500, Encsize := 2 } = .panic)
      ∧ (∃ r, readBlock
            [{ content := [1, 2, 3], offset := 0 }, { content := [4, 5, 6], offset := 0 }]
            { Hash := 1, Encpos := 0x32000000 + 1, Encsize := 2 } = .ok r)
      ∧ readBlock [{ content := [1, 2, 3], offset := 0 }, { content := [4, 5, 6], offset := 0 }]
          { Hash := 1, Encpos := 0x32000000 + 1, Encsize := 2 }
          = .ok ([5, 6],
              [{ content := [1, 2, 3], offset := 0 }, { content := [4, 5, 6], offset := 3 }]) :=
  ⟨(readBlock_volume_range sampleLzo
      [{ content := [1, 2, 3], offset := 0 }, { content := [4, 5, 6], offset := 0 }]
      { Hash := 1, Encpos := 2 * 0x32000000 + 500, Encsize := 2 } (by decide)).1 (by decide),
   ((readBlock_volume_range sampleLzo
      [{ content := [1, 2, 3], offset := 0 }, { content := [4, 5, 6], offset := 0 }]
      { Hash := 1, Encpos := 0x32000000 + 1, Encsize := 2 } (by decide)).2 (by decide)).mpr
      (by decide),
   by decide⟩

/-- C12 (counterexample): a volume of three bytes read at offset 1 with block size 4
holds only two bytes from there, yet the read does not fail: the block is those two
bytes followed by two zero bytes. -/
theorem readBlock_short_not_failing :
    ([1, 2, 3] : List Byte).length - 1 < 4
      ∧ readBlock [{ content := [1, 2, 3], offset := 0 }] { Hash := 1, Encpos := 1, Encsize := 4 }
          = .ok ([2, 3, 0, 0], [{ content := [1, 2, 3], offset := 3 }]) := by
  decide

/-- C12 (amended): for a non-negative position and size and an opened volume, the read
never fails; the block has `blockSize` bytes: exactly the `blockSize` bytes of the volume
from the intra-volume offset when that many are available, and otherwise the bytes that
are available followed by zero bytes. -/
theorem readBlock_bytes (paks : List PakFile) (item : Item) (f : PakFile)
    (hpos : 0 ≤ item.Encpos) (hsize : 0 ≤ item.Encsize)
    (hf : paks[(pakIndex item).toNat]? = some f) :
    ∃ tmp paks', readBlock paks item = .ok (tmp, paks')
      ∧ tmp.length = item.Encsize.toNat
      ∧ (item.Encsize.toNat ≤ f.content.length - (pakOffset item).toNat →
          tmp = (f.content.drop (pakOffset item).toNat).take item.Encsize.toNat)
      ∧ (f.content.length - (pakOffset item).toNat < item.Encsize.toNat →
          tmp = f.content.drop (pakOffset item).toNat
            ++ List.replicate
                (item.Encsize.toNat - (f.content.length - (pakOffset item).toNat)) 0) := by
  refine ⟨_, _, readBlock_ok paks item f hpos hsize hf, ?_, ?_, ?_⟩
  · simp only [List.length_append, List.length_replicate, List.length_take, List.length_drop]
    omega
  · intro h
    have hlen : ((f.content.drop (pakOffset item).toNat).take item.Encsize.toNat).length
        = item.Encsize.toNat := by
      rw [List.length_take, List.length_drop]; omega
    rw [hlen, Nat.sub_self, List.replicate_zero, List.append_nil]
  · intro h
    have htake : (f.content.drop (pakOffset item).toNat).take item.Encsize.toNat
        = f.content.drop (pakOffset item).toNat := by
      apply List.take_of_length_le
      rw [List.length_drop]; omega
    rw [htake, List.length_drop]

/-- Witness of C12 (amended): a volume of three bytes read at offset 1 with size 2. -/
theorem readBlock_bytes_witness :
    readBlock [{ content := [1, 2, 3], offset := 0 }] { Hash := 1, Encpos := 1, Encsize := 2 }
        = .ok ([2, 3], [{ content := [1, 2, 3], offset := 3 }])
      ∧ ∃ tmp paks', readBlock [{ content := [1, 2, 3], offset := 0 }]
            { Hash := 1, Encpos := 1, Encsize := 2 } = .ok (tmp, paks')
        ∧ tmp.length = ((2 : Int)).toNat
        ∧ (((2 : Int)).toNat ≤ ([1, 2, 3] : List Byte).length
              - (pakOffset { Hash := 1, Encpos := 1, Encsize := 2 }).toNat →
            tmp = (([1, 2, 3] : List Byte).drop
              (pakOffset { Hash := 1, Encpos := 1, Encsize := 2 }).toNat).take ((2 : Int)).toNat)
        ∧ (([1, 2, 3] : List Byte).length
              - (pakOffset { Hash := 1, Encpos := 1, Encsize := 2 }).toNat < ((2 : Int)).toNat →
            tmp = ([1, 2, 3] : List Byte).drop
                (pakOffset { Hash := 1, Encpos := 1, Encsize := 2 }).toNat
              ++ List.replicate (((2 : Int)).toNat - (([1, 2, 3] : List Byte).length
                  - (pakOffset { Hash := 1, Encpos := 1, Encsize := 2 }).toNat)) 0) :=
  ⟨by decide,
   readBlock_bytes [{ content := [1, 2, 3], offset := 0 }]
    { Hash := 1, Encpos := 1, Encsize := 2 } { content := [1, 2, 3], offset := 0 }
    (by decide) (by decide) (by decide)⟩

/-! ## Decoding a compressed block -/

theorem decodeFileInfo_Encsize (tmp : List Byte) (h : 40 ≤ tmp.length) :
    (decodeFileInfo (tmp.take 40)).1.Encsize = toSigned 32 (leAt tmp 28 4) := by
  simp only [decodeFileInfo, readInt, List.drop_drop]
  rw [show (8 + (4 + (4 + (4 + 8))) : Nat) = 28 from rfl,
    window_of_take tmp 40 28 4 (by omega), uintLE_window tmp 28 4 (by omega)]

theorem decodeFileInfo_Srcsize (tmp : List Byte) (h : 40 ≤ tmp.length) :
    (decodeFileInfo (tmp.take 40)).1.Srcsize = toSigned 32 (leAt tmp 12 4) := by
  simp only [decodeFileInfo, readInt, List.drop_drop]
  rw [show (4 + 8 : Nat) = 12 from rfl,
    window_of_take tmp 40 12 4 (by omega), uintLE_window tmp 12 4 (by omega)]

/-- C16 (counterexample): `sampleCompressedBlock` has flag 1 and original size 5, and its
payload is the LZO1X stream of four bytes; decoding returns those four bytes and does
not fail, with `sampleLzo` and with every stream decoder that gives the four bytes for
this stream. -/
theorem decodeBlock_no_length_check :
    toSigned 32 (leAt sampleCompressedBlock 36 4) = 1
      ∧ toSigned 32 (leAt sampleCompressedBlock 12 4) = 5
      ∧ sampleCompressedBlock.drop 56 = sampleStream
      ∧ decodeBlock sampleLzo sampleCompressedBlock = .ok [1, 2, 3, 4]
      ∧ ([1, 2, 3, 4] : List Byte).length ≠ 5
      ∧ ¬ ∃ lzo : List Byte → Int → Int → Decompressed,
          lzo sampleStream 8 5 = .data [1, 2, 3, 4]
            ∧ decodeBlock lzo sampleCompressedBlock ≠ .ok [1, 2, 3, 4] := by
  refine ⟨by decide, by decide, by decide, by decide, by decide, ?_⟩
  rintro ⟨lzo, h, hne⟩
  apply hne
  have e : decodeBlock lzo sampleCompressedBlock
      = match Decompress1X lzo sampleStream 8 5 with
        | .data out => .ok out
        | .error => .fatal
        | .panic => .panic := by
    unfold decodeBlock
    rw [if_neg (by decide)]
    simp only [decodeFileInfo_Enc sampleCompressedBlock (by decide),
      decodeFileInfo_Encsize sampleCompressedBlock (by decide),
      decodeFileInfo_Srcsize sampleCompressedBlock (by decide)]
    rw [show toSigned 32 (leAt sampleCompressedBlock 36 4) = 1 from by decide,
      show toSigned 32 (leAt sampleCompressedBlock 28 4) = 8 from by decide,
      show toSigned 32 (leAt sampleCompressedBlock 12 4) = 5 from by decide,
      show sampleCompressedBlock.drop 56 = sampleStream from by decide]
    simp only [if_true]
  rw [e]
  simp only [Decompress1X, if_neg (by decide : ¬ ((5 : Int) < 0)), h]

/-- C16 (amended): a block of at least 40 bytes whose compression flag (little-endian
`int32` at offset 36) is 1 is handed to the LZO1X decompressor: the bytes from offset
56, input length the `int32` at offset 28, expected output length the `int32` at offset
12. Decoding returns the decompressor's output as it is, ends in `log.Fatal` exactly
when the decompressor returns an error, and ends in a panic exactly when the
decompressor panics, which it does on a negative original size. -/
theorem decodeBlock_compressed (lzo : List Byte → Int → Int → Decompressed)
    (tmp : List Byte) (hlen : 40 ≤ tmp.length) (hflag : toSigned 32 (leAt tmp 36 4) = 1) :
    (∀ out, decodeBlock lzo tmp = .ok out ↔
        (0 ≤ toSigned 32 (leAt tmp 12 4)
          ∧ lzo (tmp.drop 56) (toSigned 32 (leAt tmp 28 4)) (toSigned 32 (leAt tmp 12 4))
              = .data out))
      ∧ (decodeBlock lzo tmp = .fatal ↔
        (0 ≤ toSigned 32 (leAt tmp 12 4)
          ∧ lzo (tmp.drop 56) (toSigned 32 (leAt tmp 28 4)) (toSigned 32 (leAt tmp 12 4))
              = .error))
      ∧ (decodeBlock lzo tmp = .panic ↔
        (toSigned 32 (leAt tmp 12 4) < 0
          ∨ lzo (tmp.drop 56) (toSigned 32 (leAt tmp 28 4)) (toSigned 32 (leAt tmp 12 4))
              = .panic)) := by
  have e : decodeBlock lzo tmp
      = match Decompress1X lzo (tmp.drop 56) (toSigned 32 (leAt tmp 28 4))
          (toSigned 32 (leAt tmp 12 4)) with
        | .data out => .ok out
        | .error => .fatal
        | .panic => .panic := by
    unfold decodeBlock
    rw [if_neg (by omega)]
    simp only [decodeFileInfo_Enc tmp hlen, decodeFileInfo_Encsize tmp hlen,
      decodeFileInfo_Srcsize tmp hlen, if_pos hflag]
  rw [e]
  unfold Decompress1X
  by_cases hneg : toSigned 32 (leAt tmp 12 4) < 0
  · simp only [if_pos hneg]
    refine ⟨fun out => ?_, ?_, ?_⟩
    · constructor
      · intro h; exact absurd h (by simp)
      · rintro ⟨h, _⟩; omega
    · constructor
      · intro h; exact absurd h (by simp)
      · rintro ⟨h, _⟩; omega
    · simp [hneg]
  · simp only [if_neg hneg]
    have hnn : 0 ≤ toSigned 32 (leAt tmp 12 4) := not_lt.mp hneg
    cases lzo (tmp.drop 56) (toSigned 32 (leAt tmp 28 4)) (toSigned 32 (leAt tmp 12 4)) with
    | data d => simp [hnn, hneg]
    | error => simp [hnn, hneg]
    | panic => simp [hnn, hneg]

/-- Witness of C16 (amended): `sampleCompressedBlock` decodes to the four bytes of its
stream, and the same block with original size -1 ends in a panic. -/
theorem decodeBlock_compressed_witness :
    decodeBlock sampleLzo sampleCompressedBlock = .ok [1, 2, 3, 4]
      ∧ decodeBlock sampleLzo sampleNegativeSizeBlock = .panic :=
  ⟨((decodeBlock_compressed sampleLzo sampleCompressedBlock (by decide) (by decide)).1
      [1, 2, 3, 4]).mpr ⟨by decide, by decide⟩,
   (decodeBlock_compressed sampleLzo sampleNegativeSizeBlock (by decide) (by decide)).2.2.mpr
      (Or.inl (by decide))⟩

/-! ## Order of the index and ties -/

/-- The lookup returns the first entry with the key in the sorted order. -/
theorem lookupHash_eq_find (sorted : List Item)
    (hs : sorted.Pairwise (fun a b => Less b a = false)) (k : Nat) (hk : k ≠ 0) :
    lookupHash sorted k
      = match sorted.find? (fun e => decide (e.Hash = k)) with
        | some e => .found e
        | none => .notFound := by
  obtain ⟨_, hlo, hhi⟩ :=
    Search_spec (atLeast sorted k) sorted.length (atLeast_mono sorted hs k)
  have hsplit : sorted.find? (fun e => decide (e.Hash = k))
      = ((sorted.take (Search sorted.length (atLeast sorted k))).find?
            (fun e => decide (e.Hash = k))).or
          ((sorted.drop (Search sorted.length (atLeast sorted k))).find?
            (fun e => decide (e.Hash = k))) := by
    rw [← List.find?_append, List.take_append_drop]
  have htake : (sorted.take (Search sorted.length (atLeast sorted k))).find?
      (fun e => decide (e.Hash = k)) = none := by
    rw [List.find?_eq_none]
    intro x hx
    obtain ⟨i, hi, rfl⟩ := List.mem_take_iff_getElem.mp hx
    have hi' : i < sorted.length := by omega
    have hfalse := hlo i (by omega)
    simp only [atLeast, List.getElem?_eq_getElem hi', ge_iff_le, decide_eq_false_iff_not,
      not_le] at hfalse
    simp only [decide_eq_true_eq]
    omega
  rw [hsplit, htake, Option.none_or, lookupHash_eq sorted k hk]
  cases hr : sorted[Search sorted.length (atLeast sorted k)]? with
  | none =>
    have hge : sorted.length ≤ Search sorted.length (atLeast sorted k) :=
      List.getElem?_eq_none_iff.mp hr
    rw [List.drop_of_length_le hge]
    rfl
  | some it =>
    obtain ⟨hrn, hrit⟩ := List.getElem?_eq_some_iff.mp hr
    have htrue := hhi _ (Nat.le_refl _) hrn
    have hge : k ≤ it.Hash := by simpa [atLeast, hr] using htrue
    rw [List.drop_eq_getElem_cons hrn, hrit]
    by_cases heq : it.Hash = k
    · rw [List.find?_cons_of_pos _ (by simpa using heq)]
      simp [heq]
    · rw [List.find?_cons_of_neg _ (by simpa using heq)]
      have hnone : (sorted.drop (Search sorted.length (atLeast sorted k) + 1)).find?
          (fun e => decide (e.Hash = k)) = none := by
        rw [List.find?_eq_none]
        intro x hx
        obtain ⟨j, hj, hjx⟩ := List.getElem_of_mem hx
        rw [List.getElem_drop] at hjx
        rw [List.length_drop] at hj
        have hle := sorted_hash_le sorted hs (Search sorted.length (atLeast sorted k))
          (Search sorted.length (atLeast sorted k) + 1 + j) (by omega) it x hr
          (by rw [List.getElem?_eq_getElem (by omega), hjx])
        simp only [decide_eq_true_eq]
        omega
      rw [hnone]
      simp [heq]

/-- On `sampleTies` the short-slice sort of Go releases before 1.19 puts the second
stored entry with key 5 ahead of the first, the one of release 1.19 keeps storage order;
each result meets the contract of `sort.Sort`. -/
theorem sort_ties_differ :
    sortShortLegacy sampleTies
        = [{ Hash := 1, Encpos := 200, Encsize := 56 }, { Hash := 1, Encpos := 300, Encsize := 56 },
           { Hash := 1, Encpos := 400, Encsize := 56 }, { Hash := 1, Encpos := 500, Encsize := 56 },
           { Hash := 3, Encpos := 600, Encsize := 56 }, { Hash := 5, Encpos := 100, Encsize := 56 },
           { Hash := 5, Encpos := 0, Encsize := 56 }]
      ∧ sortShortPdq sampleTies
        = [{ Hash := 1, Encpos := 200, Encsize := 56 }, { Hash := 1, Encpos := 300, Encsize := 56 },
           { Hash := 1, Encpos := 400, Encsize := 56 }, { Hash := 1, Encpos := 500, Encsize := 56 },
           { Hash := 3, Encpos := 600, Encsize := 56 }, { Hash := 5, Encpos := 0, Encsize := 56 },
           { Hash := 5, Encpos := 100, Encsize := 56 }]
      ∧ SortedBy sampleTies (sortShortLegacy sampleTies)
      ∧ SortedBy sampleTies (sortShortPdq sampleTies) :=
  ⟨by decide, by decide, ⟨by decide, by decide⟩, ⟨by decide, by decide⟩⟩

/-- C13 (counterexample): in `sampleTies` the entries at positions 0 and 100 share key
5 and the one at position 0 is stored first; in an arrangement that meets the contract
of `sort.Sort` (the one `sortShortLegacy` produces) the lookup of 5 returns the entry at
position 100. -/
theorem lookupHash_not_first_stored :
    SortedBy sampleTies
        [{ Hash := 1, Encpos := 200, Encsize := 56 }, { Hash := 1, Encpos := 300, Encsize := 56 },
         { Hash := 1, Encpos := 400, Encsize := 56 }, { Hash := 1, Encpos := 500, Encsize := 56 },
         { Hash := 3, Encpos := 600, Encsize := 56 }, { Hash := 5, Encpos := 100, Encsize := 56 },
         { Hash := 5, Encpos := 0, Encsize := 56 }]
      ∧ sampleTies.find? (fun e => decide (e.Hash = 5))
          = some { Hash := 5, Encpos := 0, Encsize := 56 }
      ∧ lookupHash
          [{ Hash := 1, Encpos := 200, Encsize := 56 }, { Hash := 1, Encpos := 300, Encsize := 56 },
           { Hash := 1, Encpos := 400, Encsize := 56 }, { Hash := 1, Encpos := 500, Encsize := 56 },
           { Hash := 3, Encpos := 600, Encsize := 56 }, { Hash := 5, Encpos := 100, Encsize := 56 },
           { Hash := 5, Encpos := 0, Encsize := 56 }] 5
          = .found { Hash := 5, Encpos := 100, Encsize := 56 }
      ∧ ({ Hash := 5, Encpos := 100, Encsize := 56 } : Item)
          ≠ { Hash := 5, Encpos := 0, Encsize := 56 } :=
  ⟨⟨by decide, by decide⟩, by decide, by decide, by decide⟩

/-- C13 (amended): for a non-zero key `k` the lookup returns the entry that comes first
among those with key `k` in the order left by `sort.Sort` (not-found when there is none);
it is the first such entry in storage order whenever the sort has kept the entries with
key `k` in storage order. -/
theorem lookupHash_first (items sorted : List Item) (k : Nat) (hk : k ≠ 0)
    (hsort : SortedBy items sorted) :
    lookupHash sorted k
        = (match sorted.find? (fun e => decide (e.Hash = k)) with
          | some e => .found e
          | none => .notFound)
      ∧ (sorted.filter (fun e => decide (e.Hash = k))
            = items.filter (fun e => decide (e.Hash = k)) →
          lookupHash sorted k
            = match items.find? (fun e => decide (e.Hash = k)) with
              | some e => .found e
              | none => .notFound) := by
  have h1 := lookupHash_eq_find sorted hsort.2 k hk
  refine ⟨h1, ?_⟩
  intro hstable
  rw [h1, ← List.filter_head?, ← List.filter_head?, hstable]

/-- Witness of C13 (amended) on `sampleTies` in the order that keeps storage order among
equal keys. -/
theorem lookupHash_first_witness :
    lookupHash (sortShortPdq sampleTies) 5 = .found { Hash := 5, Encpos := 0, Encsize := 56 }
      ∧ lookupHash (sortShortPdq sampleTies) 5
          = match sampleTies.find? (fun e => decide (e.Hash = 5)) with
            | some e => .found e
            | none => .notFound :=
  ⟨by decide,
    (lookupHash_first sampleTies (sortShortPdq sampleTies) 5 (by decide)
      ⟨by decide, by decide⟩).2 (by decide)⟩

/-! ## The request loop -/

/-- C14 (counterexample): with `sampleIndex` the path `a` lies in a volume that is not
opened; the run on the list `a`, `b` ends in a panic with no event at all, although `b`
alone is extracted. -/
theorem mainLoop_aborts :
    mainLoop sampleEnv sampleIndex [{ content := sampleRawBlock, offset := 0 }]
        ["a".toList, "b".toList] = ([], .panic)
      ∧ mainLoop sampleEnv sampleIndex [{ content := sampleRawBlock, offset := 0 }]
        ["b".toList]
          = ([.save "tmp/b".toList [10, 20, 30, 40], .print "b".toList], .ok ()) := by
  decide!

/-- C14 (amended): a line whose key is absent from the index is reported and the rest of
the list is handled as if the line were not there; a `log.Fatal` or panic inside
`GetBytesFromPaks` ends the run at once, no later line is handled. -/
theorem mainLoop_step (env : Env) (items : List Item) (paks : List PakFile)
    (raw : List Char) (rest : List (List Char)) (hline : env.trimSpace raw ≠ []) :
    (lookupHash items (FileNameHash env.caseTable (env.trimSpace raw)) = .notFound →
        mainLoop env items paks (raw :: rest)
          = (.print ("不存在:".toList ++ env.trimSpace raw) :: (mainLoop env items paks rest).1,
              (mainLoop env items paks rest).2))
      ∧ (∀ item, lookupHash items (FileNameHash env.caseTable (env.trimSpace raw)) = .found item →
          GetBytesFromPaks env.lzo paks item = .fatal →
          mainLoop env items paks (raw :: rest) = ([], .fatal))
      ∧ (∀ item, lookupHash items (FileNameHash env.caseTable (env.trimSpace raw)) = .found item →
          GetBytesFromPaks env.lzo paks item = .panic →
          mainLoop env items paks (raw :: rest) = ([], .panic)) := by
  refine ⟨?_, ?_, ?_⟩
  · intro h
    rw [mainLoop]
    simp only [if_neg hline, h]
  · intro item h hg
    rw [mainLoop]
    simp only [if_neg hline, h, hg]
  · intro item h hg
    rw [mainLoop]
    simp only [if_neg hline, h, hg]

/-- Witness of C14 (amended): the absent path `c` is reported and `b` after it is
extracted; the path `a`, in a volume that is not opened, ends the run. -/
theorem mainLoop_step_witness :
    mainLoop sampleEnv sampleIndex [{ content := sampleRawBlock, offset := 0 }]
        ["c".toList, "b".toList]
      = (.print ("不存在:".toList ++ "c".toList)
          :: (mainLoop sampleEnv sampleIndex [{ content := sampleRawBlock, offset := 0 }]
                ["b".toList]).1,
         (mainLoop sampleEnv sampleIndex [{ content := sampleRawBlock, offset := 0 }]
                ["b".toList]).2)
      ∧ mainLoop sampleEnv sampleIndex [{ content := sampleRawBlock, offset := 0 }]
          ["a".toList, "b".toList] = ([], .panic) :=
  ⟨(mainLoop_step sampleEnv sampleIndex [{ content := sampleRawBlock, offset := 0 }]
      "c".toList ["b".toList] (by decide)).1 (by decide),
   (mainLoop_step sampleEnv sampleIndex [{ content := sampleRawBlock, offset := 0 }]
      "a".toList ["b".toList] (by decide)).2.2
        { Hash := 97, Encpos := 0x32000000, Encsize := 60 } (by decide) (by decide)⟩

/-- C15 (counterexample): the path `/` has key 0 and leaves no event, the absent path
`a` is reported; the two are not reported in the same way. -/
theorem mainLoop_key_zero_silent :
    FileNameHash sampleEnv.caseTable (sampleEnv.trimSpace "/".toList) = 0
      ∧ mainLoop sampleEnv [] [] ["/".toList] = ([], .ok ())
      ∧ mainLoop sampleEnv [] [] ["a".toList] = ([.print "不存在:a".toList], .ok ()) := by
  decide

/-- C15 (amended): for every index, also one that holds an entry with hash 0, a line
whose key is 0 causes no lookup, no read and no report: the run goes on with the next
line from the same state. -/
theorem mainLoop_key_zero (env : Env) (items : List Item) (paks : List PakFile)
    (raw : List Char) (rest : List (List Char))
    (hzero : FileNameHash env.caseTable (env.trimSpace raw) = 0) :
    lookupHash items (FileNameHash env.caseTable (env.trimSpace raw)) = .skipped
      ∧ mainLoop env items paks (raw :: rest) = mainLoop env items paks rest := by
  have hskip : lookupHash items (FileNameHash env.caseTable (env.trimSpace raw)) = .skipped := by
    rw [hzero]
    simp [lookupHash]
  refine ⟨hskip, ?_⟩
  rw [mainLoop]
  by_cases hline : env.trimSpace raw = []
  · simp only [if_pos hline]
  · simp only [if_neg hline, hskip]

/-- Witness of C15 (amended): the path `/` against an index that holds an entry with
hash 0. -/
theorem mainLoop_key_zero_witness :
    lookupHash [{ Hash := 0, Encpos := 0, Encsize := 60 }]
        (FileNameHash sampleEnv.caseTable (sampleEnv.trimSpace "/".toList)) = .skipped
      ∧ mainLoop sampleEnv [{ Hash := 0, Encpos := 0, Encsize := 60 }]
          [{ content := sampleRawBlock, offset := 0 }] ["/".toList, "b".toList]
        = mainLoop sampleEnv [{ Hash := 0, Encpos := 0, Encsize := 60 }]
          [{ content := sampleRawBlock, offset := 0 }] ["b".toList] :=
  mainLoop_key_zero sampleEnv [{ Hash := 0, Encpos := 0, Encsize := 60 }]
    [{ content := sampleRawBlock, offset := 0 }] "/".toList ["b".toList] (by decide)

/-! ## Separators and letter case -/

theorem canon_eq_strip (t : Char → Char) (p : List Char) :
    canon t p
      = if HasPrefix (beforeStrip t p) "\\".toList then (beforeStrip t p).drop 1
        else beforeStrip t p := rfl

theorem beforeStrip_eq (t : Char → Char) (p : List Char) :
    beforeStrip t p = collapse ((ToLower t p).map (fun c => if c = '/' then '\\' else c)) := by
  unfold beforeStrip
  rw [Replace_slash, Replace_collapse]

theorem toLowerRune_upper (t : Char → Char) (c : Char)
    (hup : 'A'.toNat ≤ c.toNat ∧ c.toNat ≤ 'Z'.toNat) :
    toLowerRune t c = Char.ofNat (c.toNat + 32) := by
  unfold toLowerRune
  have h1 : (65 : Nat) ≤ c.toNat := hup.1
  have h2 : c.toNat ≤ 90 := hup.2
  rw [if_pos (by omega), if_pos hup]
  rfl

theorem toLowerRune_lowered (t : Char → Char) (c : Char)
    (hup : 'A'.toNat ≤ c.toNat ∧ c.toNat ≤ 'Z'.toNat) :
    toLowerRune t (Char.ofNat (c.toNat + 32)) = Char.ofNat (c.toNat + 32) := by
  have h1 : (65 : Nat) ≤ c.toNat := hup.1
  have h2 : c.toNat ≤ 90 := hup.2
  generalize c.toNat = n at h1 h2
  interval_cases n <;> rfl

theorem toLowerRune_slash (t : Char → Char) : toLowerRune t '/' = '/' := by
  unfold toLowerRune
  have h1 : '/'.toNat ≤ 0x7F := by decide
  have h2 : ¬ ('A'.toNat ≤ '/'.toNat ∧ '/'.toNat ≤ 'Z'.toNat) := by decide
  rw [if_pos h1, if_neg h2]

/-- C19: the key does not depend on slash convention or ASCII letter case:
`FileNameHash p` equals `FileNameHash p'` where `p'` is `p` with every `/` replaced by a
backslash and every ASCII capital letter by its small letter. -/
theorem FileNameHash_normalizeAscii (caseTable : Char → Char) (p : List Char) :
    FileNameHash caseTable (normalizeAscii p) = FileNameHash caseTable p := by
  have hmap : (ToLower caseTable (normalizeAscii p)).map (fun c => if c = '/' then '\\' else c)
      = (ToLower caseTable p).map (fun c => if c = '/' then '\\' else c) := by
    simp only [ToLower, normalizeAscii, List.map_map]
    apply List.map_congr_left
    intro c _
    simp only [Function.comp]
    by_cases hs : c = '/'
    · subst hs
      simp only [if_true, toLowerRune_backslash, toLowerRune_slash]
      decide
    · by_cases hup : 'A'.toNat ≤ c.toNat ∧ c.toNat ≤ 'Z'.toNat
      · simp only [if_neg hs, if_pos hup, toLowerRune_lowered caseTable c hup,
          toLowerRune_upper caseTable c hup]
      · simp only [if_neg hs, if_neg hup]
  have hcanon : canon caseTable (normalizeAscii p) = canon caseTable p := by
    rw [canon_eq, canon_eq, hmap]
  rw [FileNameHash_eq_foldl, FileNameHash_eq_foldl, hcanon]

theorem not_isSep_of_nonascii (c : Char) (h : 0x7F < c.toNat) : isSep c = false := by
  have h1 : c ≠ '/' := by
    intro e; rw [e] at h; exact absurd h (by decide)
  have h2 : c ≠ '\\' := by
    intro e; rw [e] at h; exact absurd h (by decide)
  simp [isSep, h1, h2]

/-- Lower-casing neither creates nor removes a separator when the case table never
yields one. -/
theorem isSep_toLowerRune (t : Char → Char)
    (hsep : ∀ c : Char, 0x7F < c.toNat → isSep (t c) = false) (c : Char) :
    isSep (toLowerRune t c) = isSep c := by
  by_cases hA : c.toNat ≤ 0x7F
  · by_cases hup : 'A'.toNat ≤ c.toNat ∧ c.toNat ≤ 'Z'.toNat
    · rw [toLowerRune_upper t c hup]
      have hc : c = Char.ofNat c.toNat := (Char.ofNat_toNat c).symm
      have h1 : (65 : Nat) ≤ c.toNat := hup.1
      have h2 : c.toNat ≤ 90 := hup.2
      generalize c.toNat = n at hc h1 h2
      subst hc
      interval_cases n <;> rfl
    · unfold toLowerRune
      rw [if_pos hA, if_neg hup]
  · unfold toLowerRune
    rw [if_neg hA, hsep c (by omega), not_isSep_of_nonascii c (by omega)]

theorem slashMap_of_not_sep (c : Char) (h : isSep c = false) :
    (if c = '/' then '\\' else c) = c ∧ c ≠ '\\' := by
  simp only [isSep, Bool.or_eq_false_iff, decide_eq_false_iff_not] at h
  exact ⟨by rw [if_neg h.1], h.2⟩

theorem slashMap_of_sep (c : Char) (h : isSep c = true) :
    (if c = '/' then '\\' else c) = '\\' := by
  simp only [isSep, Bool.or_eq_true, decide_eq_true_eq] at h
  rcases h with h | h
  · rw [if_pos h]
  · subst h
    decide

theorem collapse_backslash_cons (s : List Char)
    (h : ∀ c, s.head? = some c → c ≠ '\\') : collapse ('\\' :: s) = '\\' :: collapse s := by
  cases s with
  | nil => rfl
  | cons x xs =>
    have hx : x ≠ '\\' := h x rfl
    simp only [collapse, hx, and_false, if_false]

/-- C20: a single leading separator does not change the key of a path that does not
itself begin with a separator (the empty path included); the case table never yields a
separator. -/
theorem FileNameHash_leading_separator (caseTable : Char → Char)
    (hsep : ∀ c : Char, 0x7F < c.toNat → isSep (caseTable c) = false) (p : List Char)
    (hp : ∀ c, p.head? = some c → isSep c = false) :
    FileNameHash caseTable ('\\' :: p) = FileNameHash caseTable ('/' :: p)
      ∧ FileNameHash caseTable ('/' :: p) = FileNameHash caseTable p := by
  have hhead : ∀ c, ((ToLower caseTable p).map (fun c => if c = '/' then '\\' else c)).head?
      = some c → c ≠ '\\' := by
    intro c hc
    cases p with
    | nil => simp [ToLower] at hc
    | cons x xs =>
      simp only [ToLower, List.map_cons, List.head?_cons, Option.some.injEq] at hc
      have hx : isSep (toLowerRune caseTable x) = false := by
        rw [isSep_toLowerRune caseTable hsep]; exact hp x rfl
      rw [(slashMap_of_not_sep _ hx).1] at hc
      rw [← hc]
      exact (slashMap_of_not_sep _ hx).2
  have hnopre : HasPrefix (collapse ((ToLower caseTable p).map
      (fun c => if c = '/' then '\\' else c))) ['\\'] = false := by
    cases hpre : HasPrefix (collapse ((ToLower caseTable p).map
        (fun c => if c = '/' then '\\' else c))) ['\\']
    · rfl
    · have := (HasPrefix_backslash _).mp hpre
      rw [collapse_head] at this
      exact absurd rfl (hhead _ this)
  have hbase : canon caseTable p
      = collapse ((ToLower caseTable p).map (fun c => if c = '/' then '\\' else c)) := by
    rw [canon_eq, hnopre]
    simp
  have hback : canon caseTable ('\\' :: p) = canon caseTable p := by
    rw [hbase, canon_eq]
    simp only [ToLower, List.map_cons, toLowerRune_backslash]
    rw [if_neg (by decide : ¬ ('\\' : Char) = '/')]
    have hc := collapse_backslash_cons _ hhead
    simp only [ToLower] at hc
    rw [hc]
    simp [HasPrefix, List.isPrefixOf]
  have hslash : canon caseTable ('/' :: p) = canon caseTable p := by
    rw [hbase, canon_eq]
    simp only [ToLower, List.map_cons, toLowerRune_slash, if_true]
    have hc := collapse_backslash_cons _ hhead
    simp only [ToLower] at hc
    rw [hc]
    simp [HasPrefix, List.isPrefixOf]
  rw [FileNameHash_eq_foldl, FileNameHash_eq_foldl, FileNameHash_eq_foldl, hback, hslash]
  exact ⟨rfl, rfl⟩

theorem id_never_separator (c : Char) (h : 0x7F < c.toNat) : isSep (id c) = false :=
  not_isSep_of_nonascii c h

/-- Witness of C20 at the path `Data\\a.txt` and at the empty path, with the identity as
case table. -/
theorem FileNameHash_leading_separator_witness :
    (FileNameHash id ('\\' :: "Data\\a.txt".toList) = FileNameHash id ('/' :: "Data\\a.txt".toList)
        ∧ FileNameHash id ('/' :: "Data\\a.txt".toList) = FileNameHash id "Data\\a.txt".toList)
      ∧ (FileNameHash id ('\\' :: []) = FileNameHash id ('/' :: [])
        ∧ FileNameHash id ('/' :: []) = FileNameHash id []) :=
  ⟨FileNameHash_leading_separator id id_never_separator "Data\\a.txt".toList
      (by simp [isSep]),
   FileNameHash_leading_separator id id_never_separator [] (by simp)⟩

theorem collapse_getLast (s : List Char) : (collapse s).getLast? = s.getLast? := by
  induction s using collapse.induct with
  | case1 => rfl
  | case2 c => rfl
  | case3 a b rest h ih =>
    simp only [collapse, if_pos h]
    cases rest with
    | nil => simp [collapse, h.2]
    | cons x xs =>
      have hne : collapse (x :: xs) ≠ [] := by
        intro e
        have := collapse_head (x :: xs)
        rw [e] at this
        simp at this
      obtain ⟨y, ys, hy⟩ := List.exists_cons_of_ne_nil hne
      rw [hy, List.getLast?_cons_cons, ← hy, ih, List.getLast?_cons_cons,
        List.getLast?_cons_cons]
  | case4 a b rest h ih =>
    simp only [collapse, if_neg h]
    have hne : collapse (b :: rest) ≠ [] := by
      intro e
      have := collapse_head (b :: rest)
      rw [e] at this
      simp at this
    obtain ⟨y, ys, hy⟩ := List.exists_cons_of_ne_nil hne
    rw [hy, List.getLast?_cons_cons, ← hy, ih, List.getLast?_cons_cons]

/-- The single pass treats what follows a character other than a backslash on its
own. -/
theorem collapse_append (u v : List Char) (hu : ∀ c, u.getLast? = some c → c ≠ '\\') :
    collapse (u ++ v) = collapse u ++ collapse v := by
  induction u using collapse.induct with
  | case1 => simp [collapse]
  | case2 c =>
    have hc : c ≠ '\\' := hu c rfl
    cases v with
    | nil => simp [collapse]
    | cons y ys => simp [collapse, hc]
  | case3 a b rest h ih =>
    have hrest : ∀ c, rest.getLast? = some c → c ≠ '\\' := by
      intro c hc
      apply hu c
      cases rest with
      | nil => simp at hc
      | cons x xs => rw [List.getLast?_cons_cons, List.getLast?_cons_cons]; exact hc
    simp only [List.cons_append, collapse, if_pos h, List.append_eq, ih hrest]
  | case4 a b rest h ih =>
    have hrest : ∀ c, (b :: rest).getLast? = some c → c ≠ '\\' := by
      intro c hc
      apply hu c
      rw [List.getLast?_cons_cons]; exact hc
    have ih' := ih hrest
    simp only [List.cons_append] at ih' ⊢
    simp only [collapse, if_neg h, ih', List.cons_append]

/-- A run of `k` backslashes followed by something else becomes `(k + 1) / 2`
backslashes. -/
theorem collapse_run (k : Nat) (v : List Char) (hv : ∀ c, v.head? = some c → c ≠ '\\') :
    collapse (List.replicate k '\\' ++ v) = List.replicate ((k + 1) / 2) '\\' ++ collapse v := by
  induction k using Nat.strong_induction_on with
  | _ k ih =>
    match k with
    | 0 => simp
    | 1 =>
      simp only [List.replicate_one, List.singleton_append]
      exact collapse_backslash_cons v hv
    | k + 2 =>
      have e : (k + 2 + 1) / 2 = (k + 1) / 2 + 1 := by omega
      rw [e, List.replicate_succ, List.replicate_succ, List.replicate_succ]
      simp only [List.cons_append, collapse, and_self, if_true, List.append_eq]
      rw [ih k (by omega)]

theorem mapped_run (t : Char → Char) (run : List Char) (hrun : ∀ c ∈ run, isSep c = true) :
    (ToLower t run).map (fun c => if c = '/' then '\\' else c)
      = List.replicate run.length '\\' := by
  induction run with
  | nil => rfl
  | cons x xs ih =>
    have hx : isSep x = true := hrun x (List.mem_cons_self _ _)
    have hxs := ih (fun c hc => hrun c (List.mem_cons_of_mem _ hc))
    simp only [ToLower, List.map_cons, List.length_cons, List.replicate_succ] at hxs ⊢
    rw [hxs]
    congr 1
    simp only [isSep, Bool.or_eq_true, decide_eq_true_eq] at hx
    rcases hx with hx | hx
    · subst hx
      rw [toLowerRune_slash, if_pos rfl]
    · subst hx
      rw [toLowerRune_backslash]
      decide

theorem mapped_not_backslash (t : Char → Char)
    (hsep : ∀ c : Char, 0x7F < c.toNat → isSep (t c) = false) (x : Char)
    (hx : isSep x = false) :
    (if toLowerRune t x = '/' then '\\' else toLowerRune t x) ≠ '\\' := by
  have hl : isSep (toLowerRune t x) = false := by rw [isSep_toLowerRune t hsep]; exact hx
  rw [(slashMap_of_not_sep _ hl).1]
  exact (slashMap_of_not_sep _ hl).2

theorem mapped_head (t : Char → Char)
    (hsep : ∀ c : Char, 0x7F < c.toNat → isSep (t c) = false) (p : List Char)
    (hp : ∀ c, p.head? = some c → isSep c = false) :
    ∀ c, ((ToLower t p).map (fun c => if c = '/' then '\\' else c)).head? = some c →
      c ≠ '\\' := by
  intro c hc
  cases p with
  | nil => simp [ToLower] at hc
  | cons x xs =>
    simp only [ToLower, List.map_cons, List.head?_cons, Option.some.injEq] at hc
    rw [← hc]
    exact mapped_not_backslash t hsep x (hp x rfl)

theorem mapped_getLast (t : Char → Char)
    (hsep : ∀ c : Char, 0x7F < c.toNat → isSep (t c) = false) (p : List Char)
    (hp : ∀ c, p.getLast? = some c → isSep c = false) :
    ∀ c, ((ToLower t p).map (fun c => if c = '/' then '\\' else c)).getLast? = some c →
      c ≠ '\\' := by
  intro c hc
  simp only [ToLower, List.map_map, List.getLast?_map, Option.map_eq_some'] at hc
  obtain ⟨x, hx, hxc⟩ := hc
  rw [← hxc]
  exact mapped_not_backslash t hsep x (hp x hx)

/-- C18: the doubled-backslash replacement is one left-to-right pass without overlap: a
maximal run of `k >= 1` separators (between a part `pre` that does not end and a part
`post` that does not begin with a separator) becomes a run of exactly `(k + 1) / 2`
backslashes before the leading backslash is stripped, the parts around it being treated
on their own; a path of `k >= 1` separators canonicalises to `(k + 1) / 2 - 1`
backslashes. The case table never yields a separator. -/
theorem separator_runs (caseTable : Char → Char)
    (hsep : ∀ c : Char, 0x7F < c.toNat → isSep (caseTable c) = false)
    (pre run post : List Char) (hrun : ∀ c ∈ run, isSep c = true) (hk : 1 ≤ run.length)
    (hpre : ∀ c, pre.getLast? = some c → isSep c = false)
    (hpost : ∀ c, post.head? = some c → isSep c = false) :
    beforeStrip caseTable (pre ++ run ++ post)
        = beforeStrip caseTable pre ++ List.replicate ((run.length + 1) / 2) '\\'
            ++ beforeStrip caseTable post
      ∧ (∀ c, (beforeStrip caseTable pre).getLast? = some c → c ≠ '\\')
      ∧ (∀ c, (beforeStrip caseTable post).head? = some c → c ≠ '\\')
      ∧ canon caseTable run = List.replicate ((run.length + 1) / 2 - 1) '\\' := by
  have hlast := mapped_getLast caseTable hsep pre hpre
  have hhead := mapped_head caseTable hsep post hpost
  have hhead' : ∀ c, (collapse ((ToLower caseTable post).map
      (fun c => if c = '/' then '\\' else c))).head? = some c → c ≠ '\\' := by
    intro c hc
    rw [collapse_head] at hc
    exact hhead c hc
  refine ⟨?_, ?_, ?_, ?_⟩
  · rw [beforeStrip_eq, beforeStrip_eq, beforeStrip_eq]
    have hsplit : (ToLower caseTable (pre ++ run ++ post)).map
        (fun c => if c = '/' then '\\' else c)
        = (ToLower caseTable pre).map (fun c => if c = '/' then '\\' else c)
          ++ (List.replicate run.length '\\'
            ++ (ToLower caseTable post).map (fun c => if c = '/' then '\\' else c)) := by
      rw [← mapped_run caseTable run hrun]
      simp only [ToLower, List.map_append, List.append_assoc]
    rw [hsplit, collapse_append _ _ hlast, collapse_run _ _ hhead, List.append_assoc]
  · intro c hc
    rw [beforeStrip_eq, collapse_getLast] at hc
    exact hlast c hc
  · intro c hc
    rw [beforeStrip_eq] at hc
    exact hhead' c hc
  · rw [canon_eq, mapped_run caseTable run hrun]
    have hcol : collapse (List.replicate run.length '\\')
        = List.replicate ((run.length + 1) / 2) '\\' := by
      have := collapse_run run.length [] (by simp)
      simpa [collapse] using this
    rw [hcol]
    obtain ⟨m, hm⟩ : ∃ m, (run.length + 1) / 2 = m + 1 := ⟨(run.length + 1) / 2 - 1, by omega⟩
    rw [hm, List.replicate_succ]
    simp [HasPrefix, List.isPrefixOf]

/-- Witness of C18 with the identity as case table: in `a/\\/b` the run of three
separators becomes two backslashes, and the path `///` canonicalises to one
backslash. -/
theorem separator_runs_witness :
    beforeStrip id ("a".toList ++ "/\\/".toList ++ "b".toList) = "a\\\\b".toList
      ∧ canon id "///".toList = "\\".toList
      ∧ (beforeStrip id ("a".toList ++ "/\\/".toList ++ "b".toList)
            = beforeStrip id "a".toList ++ List.replicate (("/\\/".toList.length + 1) / 2) '\\'
                ++ beforeStrip id "b".toList
          ∧ (∀ c, (beforeStrip id "a".toList).getLast? = some c → c ≠ '\\')
          ∧ (∀ c, (beforeStrip id "b".toList).head? = some c → c ≠ '\\')
          ∧ canon id "/\\/".toList = List.replicate (("/\\/".toList.length + 1) / 2 - 1) '\\') :=
  ⟨by decide, by decide,
    separator_runs id id_never_separator "a".toList "/\\/".toList "b".toList
      (by decide) (by decide) (by simp [isSep]) (by simp [isSep])⟩

/-! ## sort.Sort returns a sorted permutation -/

/-! ## Swap and Less by index -/

theorem Swap_eq (p : List Item) (i j : Nat) (hi : i < p.length) (hj : j < p.length) :
    Swap p i j = (p.set i p[j]).set j p[i] := by
  unfold Swap
  rw [List.getElem?_eq_getElem hi, List.getElem?_eq_getElem hj]

theorem Swap_length (p : List Item) (i j : Nat) : (Swap p i j).length = p.length := by
  unfold Swap
  split <;> simp

theorem Swap_getElem? (p : List Item) (i j k : Nat) (hi : i < p.length) (hj : j < p.length) :
    (Swap p i j)[k]? = if k = j then p[i]? else if k = i then p[j]? else p[k]? := by
  rw [Swap_eq p i j hi hj, List.getElem?_set, List.getElem?_set]
  by_cases hkj : k = j
  · subst hkj
    simp [hi, hj, List.getElem?_eq_getElem hi]
  · by_cases hki : k = i
    · subst hki
      have : ¬ j = k := fun h => hkj h.symm
      simp [this, hkj, hi, List.getElem?_eq_getElem hj]
    · have h1 : ¬ j = k := fun h => hkj h.symm
      have h2 : ¬ i = k := fun h => hki h.symm
      simp [h1, h2, hkj, hki]

theorem key_Swap (p : List Item) (i j k : Nat) (hi : i < p.length) (hj : j < p.length) :
    key (Swap p i j) k = if k = j then key p i else if k = i then key p j else key p k := by
  unfold key
  rw [Swap_getElem? p i j k hi hj]
  split_ifs <;> rfl

theorem lessAt_eq (p : List Item) (i j : Nat) (hi : i < p.length) (hj : j < p.length) :
    lessAt p i j = decide (key p i < key p j) := by
  unfold lessAt key
  rw [List.getElem?_eq_getElem hi, List.getElem?_eq_getElem hj]
  rfl

theorem Swap_perm (p : List Item) (i j : Nat) : (Swap p i j).Perm p := by
  by_cases hi : i < p.length
  · by_cases hj : j < p.length
    · rw [Swap_eq p i j hi hj]
      rw [List.perm_iff_count]
      intro b
      by_cases hij : i = j
      · subst hij
        have hself : p.set i p[i] = p := by
          apply List.ext_getElem?
          intro k
          rw [List.getElem?_set]
          by_cases hik : i = k
          · subst hik
            simp [hi]
          · simp [hik]
        rw [List.set_set, hself]
      · have hj' : j < (p.set i p[j]).length := by simpa using hj
        rw [List.count_set _ _ _ _ hj', List.count_set _ _ _ _ hi]
        have hget : (p.set i p[j])[j] = p[j] := by
          rw [List.getElem_set_ne hij]
        rw [hget]
        have h1 : (if (p[i] == b) = true then 1 else 0) ≤ p.count b := by
          have := List.boole_getElem_le_countP (fun x => x == b) p i hi
          simpa [List.count_eq_countP] using this
        omega
    · unfold Swap
      rw [List.getElem?_eq_none (by omega : p.length ≤ j)]
      split <;> simp_all
  · unfold Swap
    rw [List.getElem?_eq_none (by omega : p.length ≤ i)]

/-! ## Within -/

theorem Within.refl (a b : Nat) (p : List Item) : Within a b p p :=
  ⟨rfl, List.Perm.refl p, fun _ _ => rfl, fun k h1 h2 => ⟨k, h1, h2, rfl⟩⟩

theorem Within.trans {a b : Nat} {p q r : List Item} (h1 : Within a b p q)
    (h2 : Within a b q r) : Within a b p r := by
  refine ⟨h2.length.trans h1.length, h2.perm.trans h1.perm, ?_, ?_⟩
  · intro k hk
    rw [h2.outside k hk, h1.outside k hk]
  · intro k hk1 hk2
    obtain ⟨k', h3, h4, h5⟩ := h2.inside k hk1 hk2
    obtain ⟨k'', h6, h7, h8⟩ := h1.inside k' h3 h4
    exact ⟨k'', h6, h7, h5.trans h8⟩

theorem Within.mono {a b a' b' : Nat} {p q : List Item} (h : Within a b p q)
    (ha : a' ≤ a) (hb : b ≤ b') : Within a' b' p q := by
  refine ⟨h.length, h.perm, ?_, ?_⟩
  · intro k hk
    exact h.outside k (by omega)
  · intro k hk1 hk2
    by_cases hin : a ≤ k ∧ k < b
    · obtain ⟨k', h3, h4, h5⟩ := h.inside k hin.1 hin.2
      exact ⟨k', by omega, by omega, h5⟩
    · exact ⟨k, hk1, hk2, h.outside k (by omega)⟩

theorem Within.swap (a b : Nat) (p : List Item) (i j : Nat) (hai : a ≤ i) (hib : i < b)
    (haj : a ≤ j) (hjb : j < b) (hb : b ≤ p.length) : Within a b p (Swap p i j) := by
  have hi : i < p.length := by omega
  have hj : j < p.length := by omega
  refine ⟨Swap_length p i j, Swap_perm p i j, ?_, ?_⟩
  · intro k hk
    rw [Swap_getElem? p i j k hi hj, if_neg (by omega), if_neg (by omega)]
  · intro k hk1 hk2
    rw [Swap_getElem? p i j k hi hj]
    by_cases hkj : k = j
    · exact ⟨i, hai, hib, by rw [if_pos hkj]⟩
    · by_cases hki : k = i
      · exact ⟨j, haj, hjb, by rw [if_neg hkj, if_pos hki]⟩
      · exact ⟨k, hk1, hk2, by rw [if_neg hkj, if_neg hki]⟩

theorem Within.key_inside {a b : Nat} {p q : List Item} (h : Within a b p q) (k : Nat)
    (hk1 : a ≤ k) (hk2 : k < b) : ∃ k', a ≤ k' ∧ k' < b ∧ key q k = key p k' := by
  obtain ⟨k', h1, h2, h3⟩ := h.inside k hk1 hk2
  exact ⟨k', h1, h2, by unfold key; rw [h3]⟩

theorem Within.key_outside {a b : Nat} {p q : List Item} (h : Within a b p q) (k : Nat)
    (hk : k < a ∨ b ≤ k) : key q k = key p k := by
  unfold key; rw [h.outside k hk]

/-- A bound that holds on `[a, b)` before holds on `[a, b)` after. -/
theorem Within.bound {a b : Nat} {p q : List Item} (h : Within a b p q) (Q : Nat → Prop)
    (hQ : ∀ k, a ≤ k → k < b → Q (key p k)) : ∀ k, a ≤ k → k < b → Q (key q k) := by
  intro k hk1 hk2
  obtain ⟨k', h1, h2, h3⟩ := h.key_inside k hk1 hk2
  rw [h3]
  exact hQ k' h1 h2

/-! ## insertionSort -/

theorem sinkDown_spec (a i : Nat) :
    ∀ (j : Nat) (p : List Item), a ≤ j → j ≤ i → i < p.length →
      SortedOn p a j → SortedOn p j (i + 1) →
      (∀ x y, a ≤ x → x < j → j < y → y ≤ i → key p x ≤ key p y) →
      SortedOn (sinkDown a j p) a (i + 1) ∧ Within a (i + 1) p (sinkDown a j p) := by
  intro j
  induction j with
  | zero =>
    intro p ha _ _ _ h2 _
    have : a = 0 := by omega
    subst this
    exact ⟨h2, Within.refl _ _ _⟩
  | succ j ih =>
    intro p ha hji hip h1 h2 h3
    unfold sinkDown
    by_cases hc : j + 1 > a ∧ lessAt p (j + 1) j = true
    · rw [if_pos hc]
      obtain ⟨hja, hless⟩ := hc
      rw [lessAt_eq p (j + 1) j (by omega) (by omega)] at hless
      have hlt : key p (j + 1) < key p j := by simpa using hless
      have hk := key_Swap p (j + 1) j
      have hw : Within a (i + 1) p (Swap p (j + 1) j) :=
        Within.swap a (i + 1) p (j + 1) j (by omega) (by omega) (by omega) (by omega) (by omega)
      have hlen : i < (Swap p (j + 1) j).length := by rw [Swap_length]; exact hip
      obtain ⟨r1, r2⟩ := ih (Swap p (j + 1) j) (by omega) (by omega) hlen
        (by
          intro x y hx hxy hy
          rw [hk x (by omega) (by omega), hk y (by omega) (by omega), if_neg (by omega),
            if_neg (by omega), if_neg (by omega), if_neg (by omega)]
          exact h1 x y hx hxy (by omega))
        (by
          intro x y hx hxy hy
          rw [hk x (by omega) (by omega), hk y (by omega) (by omega)]
          by_cases hxj : x = j
          · rw [if_pos hxj]
            by_cases hyj : y = j
            · rw [if_pos hyj]
            · rw [if_neg hyj]
              by_cases hyj1 : y = j + 1
              · rw [if_pos hyj1]; omega
              · rw [if_neg hyj1]
                exact h2 (j + 1) y (by omega) (by omega) hy
          · rw [if_neg hxj]
            have hyj : ¬ y = j := by omega
            rw [if_neg hyj]
            by_cases hxj1 : x = j + 1
            · rw [if_pos hxj1]
              by_cases hyj1 : y = j + 1
              · rw [if_pos hyj1]
              · rw [if_neg hyj1]
                exact h3 j y (by omega) (by omega) (by omega) (by omega)
            · rw [if_neg hxj1]
              have hyj1 : ¬ y = j + 1 := by omega
              rw [if_neg hyj1]
              exact h2 x y (by omega) hxy hy)
        (by
          intro x y hx hxj hjy hyi
          rw [hk x (by omega) (by omega), hk y (by omega) (by omega), if_neg (by omega),
            if_neg (by omega), if_neg (by omega)]
          by_cases hyj1 : y = j + 1
          · rw [if_pos hyj1]
            exact h1 x j hx (by omega) (by omega)
          · rw [if_neg hyj1]
            exact h3 x y hx (by omega) (by omega) hyi)
      exact ⟨r1, hw.trans r2⟩
    · rw [if_neg hc]
      refine ⟨?_, Within.refl _ _ _⟩
      by_cases hja : j + 1 > a
      · have hless : lessAt p (j + 1) j = false := by
          cases h : lessAt p (j + 1) j
          · rfl
          · exact absurd ⟨hja, h⟩ hc
        rw [lessAt_eq p (j + 1) j (by omega) (by omega)] at hless
        have hge : key p j ≤ key p (j + 1) := by simpa using hless
        intro x y hx hxy hy
        by_cases hyj : y < j + 1
        · exact h1 x y hx hxy hyj
        · by_cases hxj : j + 1 ≤ x
          · exact h2 x y hxj hxy hy
          · have e1 := h1 x j hx (by omega) (by omega)
            have e2 := h2 (j + 1) y (by omega) (by omega) hy
            omega
      · have : a = j + 1 := by omega
        subst this
        exact h2

theorem insertionLoop_spec (a b : Nat) :
    ∀ (fuel i : Nat) (p : List Item), a < i → i ≤ b → b ≤ p.length → b - i ≤ fuel →
      SortedOn p a i →
      SortedOn (insertionLoop a b fuel i p) a b ∧ Within a b p (insertionLoop a b fuel i p) := by
  intro fuel
  induction fuel with
  | zero =>
    intro i p _ hib _ hf hs
    have : i = b := by omega
    subst this
    exact ⟨hs, Within.refl _ _ _⟩
  | succ fuel ih =>
    intro i p hai hib hb hf hs
    unfold insertionLoop
    by_cases hlt : i < b
    · rw [if_pos hlt]
      obtain ⟨s1, w1⟩ := sinkDown_spec a i i p (by omega) (Nat.le_refl _) (by omega) hs
        (by intro x y hx hxy hy; have : x = y := by omega
            subst this; exact Nat.le_refl _)
        (by intro x y _ _ h1 h2; omega)
      have hlen : b ≤ (sinkDown a i p).length := by rw [w1.length]; exact hb
      obtain ⟨s2, w2⟩ := ih (i + 1) (sinkDown a i p) (by omega) (by omega) hlen (by omega) s1
      exact ⟨s2, (w1.mono (Nat.le_refl _) (by omega)).trans w2⟩
    · rw [if_neg hlt]
      have : i = b := by omega
      subst this
      exact ⟨hs, Within.refl _ _ _⟩

theorem insertionSort_spec (p : List Item) (a b : Nat) (hb : b ≤ p.length) :
    SortedOn (insertionSort p a b) a b ∧ Within a b p (insertionSort p a b) := by
  unfold insertionSort
  by_cases hab : a + 1 ≤ b
  · exact insertionLoop_spec a b (b - a) (a + 1) p (by omega) hab hb (by omega)
      (by intro x y hx hxy hy; have : x = y := by omega
          subst this; exact Nat.le_refl _)
  · have hfix : ∀ fuel, insertionLoop a b fuel (a + 1) p = p := by
      intro fuel
      cases fuel with
      | zero => rfl
      | succ f => unfold insertionLoop; rw [if_neg (by omega)]
    rw [hfix]
    exact ⟨by intro x y hx hxy hy; omega, Within.refl _ _ _⟩

theorem shellLoop_spec (a b : Nat) :
    ∀ (fuel i : Nat) (p : List Item), a + 6 ≤ i → b ≤ p.length →
      Within a b p (shellLoop b fuel i p) := by
  intro fuel
  induction fuel with
  | zero => intro i p _ _; exact Within.refl _ _ _
  | succ fuel ih =>
    intro i p hi hb
    unfold shellLoop
    by_cases hlt : i < b
    · rw [if_pos hlt]
      by_cases hl : lessAt p i (i - 6) = true
      · rw [if_pos hl]
        have w1 := Within.swap a b p i (i - 6) (by omega) hlt (by omega) (by omega) hb
        have hlen : b ≤ (Swap p i (i - 6)).length := by rw [Swap_length]; exact hb
        exact w1.trans (ih (i + 1) _ (by omega) hlen)
      · rw [if_neg hl]
        exact ih (i + 1) p (by omega) hb
    · rw [if_neg hlt]
      exact Within.refl _ _ _

/-! ## heapSort -/

theorem siftLoop_spec (hi first lo : Nat) :
    ∀ (fuel root : Nat) (p : List Item), lo ≤ root → hi - root ≤ fuel →
      first + hi ≤ p.length →
      (∀ r, lo ≤ r → r ≠ root → HeapAt p first hi r) →
      (∀ g, lo ≤ g → (root = 2 * g + 1 ∨ root = 2 * g + 2) →
        ∀ c, (c = 2 * root + 1 ∨ c = 2 * root + 2) → c < hi →
          key p (first + c) ≤ key p (first + g)) →
      (∀ r, lo ≤ r → HeapAt (siftLoop hi first fuel root p) first hi r)
        ∧ Within (first + lo) (first + hi) p (siftLoop hi first fuel root p) := by
  intro fuel
  induction fuel with
  | zero =>
    intro root p hlo hf _ hheap _
    refine ⟨?_, Within.refl _ _ _⟩
    intro r hr
    by_cases hrr : r = root
    · subst hrr
      intro c hc hchi
      omega
    · exact hheap r hr hrr
  | succ fuel ih =>
    intro root p hlo hf hlen hheap hgp
    unfold siftLoop
    by_cases hleaf : 2 * root + 1 ≥ hi
    · rw [if_pos hleaf]
      refine ⟨?_, Within.refl _ _ _⟩
      intro r hr
      by_cases hrr : r = root
      · subst hrr
        intro c hc hchi
        omega
      · exact hheap r hr hrr
    · rw [if_neg hleaf]
      -- the larger child
      obtain ⟨child, hchild, hch, hchi, hmax⟩ :
          ∃ child, child = (if 2 * root + 1 + 1 < hi
              ∧ lessAt p (first + (2 * root + 1)) (first + (2 * root + 1) + 1) = true
              then 2 * root + 1 + 1 else 2 * root + 1)
            ∧ (child = 2 * root + 1 ∨ child = 2 * root + 2) ∧ child < hi
            ∧ ∀ c, (c = 2 * root + 1 ∨ c = 2 * root + 2) → c < hi →
                key p (first + c) ≤ key p (first + child) := by
        by_cases hc2 : 2 * root + 1 + 1 < hi
            ∧ lessAt p (first + (2 * root + 1)) (first + (2 * root + 1) + 1) = true
        · refine ⟨2 * root + 1 + 1, by rw [if_pos hc2], Or.inr rfl, hc2.1, ?_⟩
          have hl := hc2.2
          rw [lessAt_eq p _ _ (by omega) (by omega)] at hl
          have hlt : key p (first + (2 * root + 1)) < key p (first + (2 * root + 1) + 1) := by
            simpa using hl
          intro c hc _
          rcases hc with hc | hc
          · subst hc
            have : first + (2 * root + 1 + 1) = first + (2 * root + 1) + 1 := by omega
            rw [this]; omega
          · subst hc
            exact Nat.le_refl _
        · refine ⟨2 * root + 1, by rw [if_neg hc2], Or.inl rfl, by omega, ?_⟩
          intro c hc hchi
          rcases hc with hc | hc
          · subst hc
            exact Nat.le_refl _
          · subst hc
            have hl : lessAt p (first + (2 * root + 1)) (first + (2 * root + 1) + 1) = false := by
              cases h : lessAt p (first + (2 * root + 1)) (first + (2 * root + 1) + 1)
              · rfl
              · exact absurd ⟨by omega, h⟩ hc2
            rw [lessAt_eq p _ _ (by omega) (by omega)] at hl
            have hge : key p (first + (2 * root + 1) + 1) ≤ key p (first + (2 * root + 1)) := by
              simpa using hl
            have : first + (2 * root + 2) = first + (2 * root + 1) + 1 := by omega
            rw [this]; exact hge
      simp only []
      rw [← hchild]
      by_cases hless : lessAt p (first + root) (first + child) = true
      · rw [if_pos hless]
        rw [lessAt_eq p _ _ (by omega) (by omega)] at hless
        have hlt : key p (first + root) < key p (first + child) := by simpa using hless
        have hk : ∀ x, key (Swap p (first + root) (first + child)) (first + x)
            = if x = child then key p (first + root)
              else if x = root then key p (first + child) else key p (first + x) := by
          intro x
          rw [key_Swap p _ _ _ (by omega) (by omega)]
          by_cases h1 : x = child
          · rw [if_pos (by omega), if_pos h1]
          · rw [if_neg (by omega), if_neg h1]
            by_cases h2 : x = root
            · rw [if_pos (by omega), if_pos h2]
            · rw [if_neg (by omega), if_neg h2]
        have hw : Within (first + lo) (first + hi) p (Swap p (first + root) (first + child)) :=
          Within.swap _ _ p _ _ (by omega) (by omega) (by omega) (by omega) hlen
        have hlen' : first + hi ≤ (Swap p (first + root) (first + child)).length := by
          rw [Swap_length]; exact hlen
        obtain ⟨r1, r2⟩ := ih child (Swap p (first + root) (first + child)) (by omega)
          (by omega) hlen'
          (by
            intro r hr hrc c hc hchi'
            rw [hk c, hk r, if_neg hrc]
            by_cases hrr : r = root
            · rw [if_pos hrr]
              by_cases hcc : c = child
              · rw [if_pos hcc]; omega
              · rw [if_neg hcc, if_neg (by omega)]
                exact hmax c (by omega) hchi'
            · rw [if_neg hrr, if_neg (by omega)]
              by_cases hcr : c = root
              · rw [if_pos hcr]
                exact hgp r hr (by omega) child hch hchi
              · rw [if_neg hcr]
                exact hheap r hr hrr c hc hchi')
          (by
            intro g hg hgc c hc hchi'
            have hgr : g = root := by omega
            subst hgr
            rw [hk c, hk g, if_neg (by omega), if_neg (by omega), if_neg (by omega),
              if_pos rfl]
            exact hheap child (by omega) (by omega) c hc hchi')
        exact ⟨r1, hw.trans r2⟩
      · rw [if_neg hless]
        have hl : lessAt p (first + root) (first + child) = false := by
          cases h : lessAt p (first + root) (first + child)
          · rfl
          · exact absurd h hless
        rw [lessAt_eq p _ _ (by omega) (by omega)] at hl
        have hge : key p (first + child) ≤ key p (first + root) := by simpa using hl
        refine ⟨?_, Within.refl _ _ _⟩
        intro r hr
        by_cases hrr : r = root
        · subst hrr
          intro c hc hchi'
          exact Nat.le_trans (hmax c hc hchi') hge
        · exact hheap r hr hrr

theorem siftDown_spec (p : List Item) (lo hi first : Nat) (hlen : first + hi ≤ p.length)
    (hheap : ∀ r, lo < r → HeapAt p first hi r) :
    (∀ r, lo ≤ r → HeapAt (siftDown p lo hi first) first hi r)
      ∧ Within (first + lo) (first + hi) p (siftDown p lo hi first) := by
  unfold siftDown
  apply siftLoop_spec hi first lo hi lo p (Nat.le_refl _) (by omega) hlen
  · intro r hr hne
    exact hheap r (by omega)
  · intro g hg hgc
    omega

theorem heapBuild_spec (hi first : Nat) :
    ∀ (n : Nat) (p : List Item), first + hi ≤ p.length →
      (∀ r, n ≤ r → HeapAt p first hi r) →
      (∀ r, HeapAt (heapBuild hi first n p) first hi r)
        ∧ Within first (first + hi) p (heapBuild hi first n p) := by
  intro n
  induction n with
  | zero =>
    intro p _ h
    exact ⟨fun r => h r (Nat.zero_le _), Within.refl _ _ _⟩
  | succ i ih =>
    intro p hlen h
    unfold heapBuild
    obtain ⟨s1, w1⟩ := siftDown_spec p i hi first hlen (fun r hr => h r (by omega))
    have hlen' : first + hi ≤ (siftDown p i hi first).length := by rw [w1.length]; exact hlen
    obtain ⟨s2, w2⟩ := ih (siftDown p i hi first) hlen' s1
    exact ⟨s2, (w1.mono (by omega) (Nat.le_refl _)).trans w2⟩

/-- In a heap the root is not below any node. -/
theorem heap_max (p : List Item) (first m : Nat) (h : ∀ r, HeapAt p first m r) :
    ∀ x, x < m → key p (first + x) ≤ key p (first + 0) := by
  intro x
  induction x using Nat.strong_induction_on with
  | _ x ih =>
    intro hx
    by_cases h0 : x = 0
    · subst h0; exact Nat.le_refl _
    · have hpar := h ((x - 1) / 2) x (by omega) hx
      have hrec := ih ((x - 1) / 2) (by omega) (by omega)
      omega

theorem heapPop_spec (hi first : Nat) :
    ∀ (m : Nat) (p : List Item), m ≤ hi → first + hi ≤ p.length →
      (∀ r, HeapAt p first m r) →
      SortedOn p (first + m) (first + hi) →
      (∀ x y, x < m → m ≤ y → y < hi → key p (first + x) ≤ key p (first + y)) →
      SortedOn (heapPop first m p) first (first + hi)
        ∧ Within first (first + hi) p (heapPop first m p) := by
  intro m
  induction m with
  | zero =>
    intro p _ _ _ hs _
    exact ⟨by simpa using hs, Within.refl _ _ _⟩
  | succ i ih =>
    intro p hm hlen hheap hs hcross
    unfold heapPop
    have hmax := heap_max p first (i + 1) hheap
    have hk : ∀ x, key (Swap p first (first + i)) (first + x)
        = if x = i then key p (first + 0)
          else if x = 0 then key p (first + i) else key p (first + x) := by
      intro x
      rw [key_Swap p _ _ _ (by omega) (by omega)]
      by_cases h1 : x = i
      · rw [if_pos (by omega), if_pos h1]; rfl
      · rw [if_neg (by omega), if_neg h1]
        by_cases h2 : x = 0
        · rw [if_pos (by omega), if_pos h2]
        · rw [if_neg (by omega), if_neg h2]
    have hw1 : Within first (first + hi) p (Swap p first (first + i)) :=
      Within.swap _ _ p _ _ (Nat.le_refl _) (by omega) (by omega) (by omega) hlen
    have hlen1 : first + hi ≤ (Swap p first (first + i)).length := by
      rw [Swap_length]; exact hlen
    have hheap1 : ∀ r, 0 < r → HeapAt (Swap p first (first + i)) first i r := by
      intro r hr c hc hci
      rw [hk c, hk r, if_neg (by omega), if_neg (by omega), if_neg (by omega),
        if_neg (by omega)]
      exact hheap r c hc (by omega)
    obtain ⟨s2, w2⟩ := siftDown_spec (Swap p first (first + i)) 0 i first (by omega) hheap1
    have w2' : Within first (first + i) (Swap p first (first + i))
        (siftDown (Swap p first (first + i)) 0 i first) := by
      simpa using w2
    have hlen2 : first + hi ≤ (siftDown (Swap p first (first + i)) 0 i first).length := by
      rw [w2.length]; exact hlen1
    -- keys of the swapped slice
    have hsorted1 : SortedOn (Swap p first (first + i)) (first + i) (first + hi) := by
      intro x y hx hxy hy
      obtain ⟨x', rfl⟩ : ∃ x', x = first + x' := ⟨x - first, by omega⟩
      obtain ⟨y', rfl⟩ : ∃ y', y = first + y' := ⟨y - first, by omega⟩
      rw [hk x', hk y']
      by_cases hxi : x' = i
      · rw [if_pos hxi]
        by_cases hyi : y' = i
        · rw [if_pos hyi]
        · rw [if_neg hyi, if_neg (by omega)]
          exact hcross 0 y' (by omega) (by omega) (by omega)
      · rw [if_neg hxi, if_neg (by omega), if_neg (by omega), if_neg (by omega)]
        exact hs _ _ (by omega) hxy hy
    have hcross1 : ∀ x y, x < i → i ≤ y → y < hi →
        key (Swap p first (first + i)) (first + x)
          ≤ key (Swap p first (first + i)) (first + y) := by
      intro x y hx hy hyhi
      rw [hk x, hk y, if_neg (show ¬ x = i by omega)]
      by_cases hyi : y = i
      · rw [if_pos hyi]
        by_cases hx0 : x = 0
        · rw [if_pos hx0]; exact hmax i (by omega)
        · rw [if_neg hx0]; exact hmax x (by omega)
      · rw [if_neg hyi, if_neg (show ¬ y = 0 by omega)]
        by_cases hx0 : x = 0
        · rw [if_pos hx0]; exact hcross i y (by omega) (by omega) hyhi
        · rw [if_neg hx0]; exact hcross x y (by omega) (by omega) hyhi
    obtain ⟨s3, w3⟩ := ih (siftDown (Swap p first (first + i)) 0 i first) (by omega) hlen2
      (fun r => s2 r (Nat.zero_le _))
      (by
        intro x y hx hxy hy
        rw [w2'.key_outside x (by omega), w2'.key_outside y (by omega)]
        exact hsorted1 x y hx hxy hy)
      (by
        intro x y hx hy hyhi
        obtain ⟨x', hx1, hx2, hx3⟩ := w2'.key_inside (first + x) (by omega) (by omega)
        rw [hx3, w2'.key_outside (first + y) (by omega)]
        obtain ⟨x'', rfl⟩ : ∃ x'', x' = first + x'' := ⟨x' - first, by omega⟩
        exact hcross1 x'' y (by omega) hy hyhi)
    exact ⟨s3, hw1.trans ((w2'.mono (Nat.le_refl _) (by omega)).trans w3)⟩

theorem heapSort_spec (p : List Item) (a b : Nat) (hab : a ≤ b) (hb : b ≤ p.length) :
    SortedOn (heapSort p a b) a b ∧ Within a b p (heapSort p a b) := by
  unfold heapSort
  have hlen : a + (b - a) ≤ p.length := by omega
  obtain ⟨s1, w1⟩ := heapBuild_spec (b - a) a ((b - a - 1) / 2 + 1) p hlen
    (by intro r hr c hc hci; omega)
  have hlen1 : a + (b - a) ≤ (heapBuild (b - a) a ((b - a - 1) / 2 + 1) p).length := by
    rw [w1.length]; exact hlen
  obtain ⟨s2, w2⟩ := heapPop_spec (b - a) a (b - a)
    (heapBuild (b - a) a ((b - a - 1) / 2 + 1) p) (Nat.le_refl _) hlen1 s1
    (by intro x y hx hxy hy; omega)
    (by intro x y hx hy hyhi; omega)
  have e : a + (b - a) = b := by omega
  rw [e] at s2 w1 w2
  exact ⟨s2, w1.trans w2⟩

/-! ## doPivot -/

theorem scanUp_spec (cond : Nat → Bool) (limit : Nat) :
    ∀ (fuel i : Nat), limit - i ≤ fuel →
      i ≤ scanUp cond limit fuel i
        ∧ (i ≤ limit → scanUp cond limit fuel i ≤ limit)
        ∧ (∀ k, i ≤ k → k < scanUp cond limit fuel i → cond k = true)
        ∧ (scanUp cond limit fuel i < limit → cond (scanUp cond limit fuel i) = false) := by
  intro fuel
  induction fuel with
  | zero =>
    intro i hf
    refine ⟨Nat.le_refl _, fun h => h, ?_, ?_⟩
    · intro k h1 h2
      simp only [scanUp] at h2
      omega
    · intro h
      simp only [scanUp] at h
      omega
  | succ fuel ih =>
    intro i hf
    unfold scanUp
    by_cases hc : i < limit ∧ cond i = true
    · rw [if_pos hc]
      obtain ⟨h1, h2, h3, h4⟩ := ih (i + 1) (by omega)
      refine ⟨by omega, fun _ => h2 (by omega), ?_, h4⟩
      intro k hk1 hk2
      by_cases hki : k = i
      · rw [hki]; exact hc.2
      · exact h3 k (by omega) hk2
    · rw [if_neg hc]
      refine ⟨Nat.le_refl _, fun h => h, fun k h1 h2 => by omega, ?_⟩
      intro hlt
      cases h : cond i
      · rfl
      · exact absurd ⟨hlt, h⟩ hc

theorem scanDown_spec (cond : Nat → Bool) (limit : Nat) :
    ∀ (i : Nat),
      scanDown cond limit i ≤ i
        ∧ (limit ≤ i → limit ≤ scanDown cond limit i)
        ∧ (∀ k, scanDown cond limit i ≤ k → k < i → cond k = true)
        ∧ (limit < scanDown cond limit i → cond (scanDown cond limit i - 1) = false) := by
  intro i
  induction i with
  | zero =>
    refine ⟨Nat.le_refl _, fun h => h, fun k _ h2 => by omega, ?_⟩
    intro h
    simp only [scanDown] at h
    omega
  | succ i ih =>
    unfold scanDown
    by_cases hc : limit < i + 1 ∧ cond i = true
    · rw [if_pos hc]
      obtain ⟨h1, h2, h3, h4⟩ := ih
      refine ⟨by omega, fun _ => h2 (by omega), ?_, h4⟩
      intro k hk1 hk2
      by_cases hki : k = i
      · rw [hki]; exact hc.2
      · exact h3 k hk1 (by omega)
    · rw [if_neg hc]
      refine ⟨Nat.le_refl _, fun h => h, fun k h1 h2 => by omega, ?_⟩
      intro hlt
      simp only [Nat.add_sub_cancel]
      cases h : cond i
      · rfl
      · exact absurd ⟨hlt, h⟩ hc

theorem lessAt_false_iff (p : List Item) (i j : Nat) (hi : i < p.length) (hj : j < p.length) :
    lessAt p i j = false ↔ key p j ≤ key p i := by
  rw [lessAt_eq p i j hi hj]
  simp

theorem lessAt_true_iff (p : List Item) (i j : Nat) (hi : i < p.length) (hj : j < p.length) :
    lessAt p i j = true ↔ key p i < key p j := by
  rw [lessAt_eq p i j hi hj]
  simp

theorem medianOfThree_within (a b : Nat) (p : List Item) (m1 m0 m2 : Nat)
    (h1 : a ≤ m1 ∧ m1 < b) (h0 : a ≤ m0 ∧ m0 < b) (h2 : a ≤ m2 ∧ m2 < b)
    (hb : b ≤ p.length) : Within a b p (medianOfThree p m1 m0 m2) := by
  have hstep1 : Within a b p (if lessAt p m1 m0 = true then Swap p m1 m0 else p) := by
    split
    · exact Within.swap a b p m1 m0 h1.1 h1.2 h0.1 h0.2 hb
    · exact Within.refl _ _ _
  unfold medianOfThree
  simp only []
  generalize (if lessAt p m1 m0 = true then Swap p m1 m0 else p) = q at hstep1
  have hbq : b ≤ q.length := by rw [hstep1.length]; exact hb
  split
  · have hstep2 : Within a b q (Swap q m2 m1) :=
      Within.swap a b q m2 m1 h2.1 h2.2 h1.1 h1.2 hbq
    have hbq2 : b ≤ (Swap q m2 m1).length := by rw [Swap_length]; exact hbq
    split
    · exact hstep1.trans (hstep2.trans
        (Within.swap a b _ m1 m0 h1.1 h1.2 h0.1 h0.2 hbq2))
    · exact hstep1.trans hstep2
  · exact hstep1

/-- After `medianOfThree(data, m1, m0, m2)` the value at `m1` is not above the one at
`m2`. -/
theorem medianOfThree_order (p : List Item) (m1 m0 m2 : Nat)
    (h1 : m1 < p.length) (h0 : m0 < p.length) (h2 : m2 < p.length)
    (d10 : m1 ≠ m0) (d12 : m1 ≠ m2) (d02 : m0 ≠ m2) :
    key (medianOfThree p m1 m0 m2) m1 ≤ key (medianOfThree p m1 m0 m2) m2 := by
  unfold medianOfThree
  simp only []
  have hq : ∃ q : List Item, q = (if lessAt p m1 m0 = true then Swap p m1 m0 else p)
      ∧ q.length = p.length ∧ key q m0 ≤ key q m1 := by
    refine ⟨_, rfl, ?_, ?_⟩
    · split
      · exact Swap_length _ _ _
      · rfl
    · by_cases hl : lessAt p m1 m0 = true
      · rw [if_pos hl]
        rw [lessAt_true_iff p m1 m0 h1 h0] at hl
        rw [key_Swap p m1 m0 m0 h1 h0, key_Swap p m1 m0 m1 h1 h0, if_pos rfl,
          if_neg d10, if_pos rfl]
        omega
      · rw [if_neg hl]
        have hl' : lessAt p m1 m0 = false := by
          cases h : lessAt p m1 m0
          · rfl
          · exact absurd h hl
        rw [lessAt_false_iff p m1 m0 h1 h0] at hl'
        exact hl'
  obtain ⟨q, hqe, hql, hq01⟩ := hq
  rw [← hqe]
  have q1 : m1 < q.length := by omega
  have q0 : m0 < q.length := by omega
  have q2 : m2 < q.length := by omega
  by_cases hl2 : lessAt q m2 m1 = true
  · rw [if_pos hl2]
    rw [lessAt_true_iff q m2 m1 q2 q1] at hl2
    have s1 : m1 < (Swap q m2 m1).length := by rw [Swap_length]; exact q1
    have s0 : m0 < (Swap q m2 m1).length := by rw [Swap_length]; exact q0
    have k1 : key (Swap q m2 m1) m1 = key q m2 := by
      rw [key_Swap q m2 m1 m1 q2 q1, if_pos rfl]
    have k2 : key (Swap q m2 m1) m2 = key q m1 := by
      rw [key_Swap q m2 m1 m2 q2 q1, if_neg (fun h => d12 h.symm), if_pos rfl]
    have k0 : key (Swap q m2 m1) m0 = key q m0 := by
      rw [key_Swap q m2 m1 m0 q2 q1, if_neg (fun h => d10 h.symm), if_neg d02]
    by_cases hl3 : lessAt (Swap q m2 m1) m1 m0 = true
    · rw [if_pos hl3]
      rw [key_Swap _ m1 m0 m1 s1 s0, key_Swap _ m1 m0 m2 s1 s0, if_neg d10, if_pos rfl,
        if_neg (fun h => d02 h.symm), if_neg (fun h => d12 h.symm), k0, k2]
      exact hq01
    · rw [if_neg hl3, k1, k2]
      omega
  · rw [if_neg hl2]
    have hl' : lessAt q m2 m1 = false := by
      cases h : lessAt q m2 m1
      · rfl
      · exact absurd h hl2
    rw [lessAt_false_iff q m2 m1 q2 q1] at hl'
    exact hl'

theorem scanDown_fix (cond : Nat → Bool) (limit i : Nat) (h : i ≤ limit) :
    scanDown cond limit i = i := by
  cases i with
  | zero => rfl
  | succ n => unfold scanDown; rw [if_neg (by omega)]

theorem scanUp_fix (cond : Nat → Bool) (limit fuel i : Nat) (h : limit ≤ i) :
    scanUp cond limit fuel i = i := by
  cases fuel with
  | zero => rfl
  | succ n => unfold scanUp; rw [if_neg (by omega)]

theorem partitionLoop_spec (lo hi pv : Nat) :
    ∀ (fuel : Nat) (p : List Item) (b c : Nat), lo < b → b ≤ c → c ≤ hi →
      hi ≤ p.length → c - b < fuel → key p lo = pv →
      (∀ k, lo < k → k < b → key p k ≤ pv) →
      (∀ k, c ≤ k → k < hi → pv ≤ key p k) →
      Split (partitionLoop lo fuel p b c).1 lo hi (partitionLoop lo fuel p b c).2.1
          (partitionLoop lo fuel p b c).2.2 pv
        ∧ b ≤ (partitionLoop lo fuel p b c).2.1
        ∧ (partitionLoop lo fuel p b c).2.1 = (partitionLoop lo fuel p b c).2.2
        ∧ Within (lo + 1) hi p (partitionLoop lo fuel p b c).1 := by
  intro fuel
  induction fuel with
  | zero => intro p b c _ _ _ _ hf; omega
  | succ fuel ih =>
    intro p b c hlob hbc hchi hlen hf hpv hle hge
    unfold partitionLoop
    simp only []
    obtain ⟨u1, u2, u3, u4⟩ := scanUp_spec (fun k => !lessAt p lo k) c (c - b) b (by omega)
    generalize scanUp (fun k => !lessAt p lo k) c (c - b) b = b1 at u1 u2 u3 u4 ⊢
    obtain ⟨d1, d2, d3, d4⟩ := scanDown_spec (fun k => lessAt p lo k) b1 c
    generalize scanDown (fun k => lessAt p lo k) b1 c = c1 at d1 d2 d3 d4 ⊢
    have hb1c := u2 hbc
    have hb1c1 := d2 hb1c
    have hle1 : ∀ k, lo < k → k < b1 → key p k ≤ pv := by
      intro k hk1 hk2
      by_cases hkb : k < b
      · exact hle k hk1 hkb
      · have := u3 k (by omega) hk2
        simp only [Bool.not_eq_true'] at this
        rw [lessAt_false_iff p lo k (by omega) (by omega)] at this
        omega
    have hge1 : ∀ k, c1 ≤ k → k < hi → pv ≤ key p k := by
      intro k hk1 hk2
      by_cases hkc : c ≤ k
      · exact hge k hkc hk2
      · have := d3 k hk1 (by omega)
        rw [lessAt_true_iff p lo k (by omega) (by omega)] at this
        omega
    by_cases hdone : b1 ≥ c1
    · rw [if_pos hdone]
      dsimp only
      refine ⟨⟨by omega, hb1c1, by omega, hpv, hle1, ?_, hge1⟩, u1, by omega,
        Within.refl _ _ _⟩
      intro k hk1 hk2
      omega
    · rw [if_neg hdone]
      have hgt : pv < key p b1 := by
        have := u4 (by omega)
        simp only [Bool.not_eq_false'] at this
        rw [lessAt_true_iff p lo b1 (by omega) (by omega)] at this
        omega
      have hlec : key p (c1 - 1) ≤ pv := by
        have := d4 (by omega)
        rw [lessAt_false_iff p lo (c1 - 1) (by omega) (by omega)] at this
        omega
      have hne : b1 ≠ c1 - 1 := by
        intro h
        rw [← h] at hlec
        omega
      have hk := key_Swap p b1 (c1 - 1)
      have hw : Within (lo + 1) hi p (Swap p b1 (c1 - 1)) :=
        Within.swap _ _ p _ _ (by omega) (by omega) (by omega) (by omega) hlen
      have hlen' : hi ≤ (Swap p b1 (c1 - 1)).length := by rw [Swap_length]; exact hlen
      obtain ⟨r1, r2, r4, r3⟩ := ih (Swap p b1 (c1 - 1)) (b1 + 1) (c1 - 1) (by omega) (by omega)
        (by omega) hlen' (by omega)
        (by rw [hk lo (by omega) (by omega), if_neg (by omega), if_neg (by omega)]; exact hpv)
        (by
          intro k hk1 hk2
          rw [hk k (by omega) (by omega), if_neg (by omega)]
          by_cases hkb : k = b1
          · rw [if_pos hkb]; exact hlec
          · rw [if_neg hkb]; exact hle1 k hk1 (by omega))
        (by
          intro k hk1 hk2
          rw [hk k (by omega) (by omega)]
          by_cases hkc : k = c1 - 1
          · rw [if_pos hkc]; omega
          · rw [if_neg hkc, if_neg (by omega)]
            exact hge1 k (by omega) hk2)
      exact ⟨r1, by omega, r4, hw.trans r3⟩

theorem protectLoop_spec (lo hi c pv : Nat) :
    ∀ (fuel : Nat) (p : List Item) (a b : Nat), lo < a → hi ≤ p.length → b - a < fuel →
      Split p lo hi b c pv →
      Split (protectLoop lo fuel p a b).1 lo hi (protectLoop lo fuel p a b).2.2 c pv
        ∧ Within (lo + 1) hi p (protectLoop lo fuel p a b).1 := by
  intro fuel
  induction fuel with
  | zero => intro p a b _ _ hf; omega
  | succ fuel ih =>
    intro p a b hloa hlen hf hsplit
    obtain ⟨s1, s2, s3, s4, s5, s6, s7⟩ := hsplit
    unfold protectLoop
    simp only []
    obtain ⟨d1, d2, d3, d4⟩ := scanDown_spec (fun k => !lessAt p k lo) a b
    have hfix := scanDown_fix (fun k => !lessAt p k lo) a b
    generalize scanDown (fun k => !lessAt p k lo) a b = b1 at d1 d2 d3 d4 hfix ⊢
    obtain ⟨u1, u2, u3, u4⟩ := scanUp_spec (fun k => lessAt p k lo) b1 (b1 - a) a (by omega)
    have hfix2 := scanUp_fix (fun k => lessAt p k lo) b1 (b1 - a) a
    generalize scanUp (fun k => lessAt p k lo) b1 (b1 - a) a = a1 at u1 u2 u3 u4 hfix2 ⊢
    by_cases hab : a ≤ b
    · have hab1 := d2 hab
      have hb1lo : lo < b1 := by omega
      have heq1 : ∀ k, b1 ≤ k → k < c → key p k = pv := by
        intro k hk1 hk2
        by_cases hkb : b ≤ k
        · exact s6 k hkb hk2
        · have := d3 k hk1 (by omega)
          simp only [Bool.not_eq_true'] at this
          rw [lessAt_false_iff p k lo (by omega) (by omega)] at this
          have := s5 k (by omega) (by omega)
          omega
      have hle1 : ∀ k, lo < k → k < b1 → key p k ≤ pv :=
        fun k hk1 hk2 => s5 k hk1 (by omega)
      by_cases hdone : a1 ≥ b1
      · rw [if_pos hdone]
        dsimp only
        exact ⟨⟨hb1lo, by omega, s3, s4, hle1, heq1, s7⟩, Within.refl _ _ _⟩
      · rw [if_neg hdone]
        have ha1 : key p a1 = pv := by
          have := u4 (by omega)
          rw [lessAt_false_iff p a1 lo (by omega) (by omega)] at this
          have := hle1 a1 (by omega) (by omega)
          omega
        have hb1 : key p (b1 - 1) < pv := by
          have := d4 (by omega)
          simp only [Bool.not_eq_false'] at this
          rw [lessAt_true_iff p (b1 - 1) lo (by omega) (by omega)] at this
          omega
        have hne : a1 ≠ b1 - 1 := by
          intro h
          rw [← h] at hb1
          omega
        have hk := key_Swap p a1 (b1 - 1)
        have hw : Within (lo + 1) hi p (Swap p a1 (b1 - 1)) :=
          Within.swap _ _ p _ _ (by omega) (by omega) (by omega) (by omega) hlen
        have hlen' : hi ≤ (Swap p a1 (b1 - 1)).length := by rw [Swap_length]; exact hlen
        obtain ⟨r1, r2⟩ := ih (Swap p a1 (b1 - 1)) (a1 + 1) (b1 - 1) (by omega) hlen'
          (by omega)
          ⟨by omega, by omega, s3,
            by rw [hk lo (by omega) (by omega), if_neg (by omega), if_neg (by omega)]
               exact s4,
            by
              intro k hk1 hk2
              rw [hk k (by omega) (by omega), if_neg (by omega)]
              by_cases hka : k = a1
              · rw [if_pos hka]; omega
              · rw [if_neg hka]; exact hle1 k hk1 (by omega),
            by
              intro k hk1 hk2
              rw [hk k (by omega) (by omega)]
              by_cases hkb : k = b1 - 1
              · rw [if_pos hkb]; exact ha1
              · rw [if_neg hkb, if_neg (by omega)]
                exact heq1 k (by omega) hk2,
            by
              intro k hk1 hk2
              rw [hk k (by omega) (by omega), if_neg (by omega), if_neg (by omega)]
              exact s7 k hk1 hk2⟩
        exact ⟨r1, hw.trans r2⟩
    · -- a > b: both scans stay where they are
      have hb1 : b1 = b := hfix (by omega)
      have ha1 : a1 = a := hfix2 (by omega)
      rw [if_pos (by omega)]
      dsimp only
      rw [hb1]
      exact ⟨⟨s1, s2, s3, s4, s5, s6, s7⟩, Within.refl _ _ _⟩

theorem doPivotMedians_spec (p : List Item) (lo hi : Nat) (hsize : hi - lo > 12)
    (hlen : hi ≤ p.length) :
    Within lo hi p (doPivotMedians p lo hi)
      ∧ key (doPivotMedians p lo hi) lo ≤ key (doPivotMedians p lo hi) (hi - 1) := by
  unfold doPivotMedians
  simp only []
  have hq : ∃ q : List Item, q = (if hi - lo > 40 then
        medianOfThree (medianOfThree (medianOfThree p lo (lo + (hi - lo) / 8)
            (lo + 2 * ((hi - lo) / 8)))
          ((lo + hi) / 2) ((lo + hi) / 2 - (hi - lo) / 8) ((lo + hi) / 2 + (hi - lo) / 8))
          (hi - 1) (hi - 1 - (hi - lo) / 8) (hi - 1 - 2 * ((hi - lo) / 8))
      else p) ∧ Within lo hi p q := by
    refine ⟨_, rfl, ?_⟩
    by_cases h40 : hi - lo > 40
    · rw [if_pos h40]
      have w1 := medianOfThree_within lo hi p lo (lo + (hi - lo) / 8)
        (lo + 2 * ((hi - lo) / 8)) ⟨by omega, by omega⟩ ⟨by omega, by omega⟩
        ⟨by omega, by omega⟩ hlen
      have l1 : hi ≤ (medianOfThree p lo (lo + (hi - lo) / 8)
          (lo + 2 * ((hi - lo) / 8))).length := by rw [w1.length]; exact hlen
      have w2 := medianOfThree_within lo hi _ ((lo + hi) / 2)
        ((lo + hi) / 2 - (hi - lo) / 8) ((lo + hi) / 2 + (hi - lo) / 8)
        ⟨by omega, by omega⟩ ⟨by omega, by omega⟩ ⟨by omega, by omega⟩ l1
      have l2 : hi ≤ (medianOfThree (medianOfThree p lo (lo + (hi - lo) / 8)
          (lo + 2 * ((hi - lo) / 8))) ((lo + hi) / 2) ((lo + hi) / 2 - (hi - lo) / 8)
          ((lo + hi) / 2 + (hi - lo) / 8)).length := by rw [w2.length]; exact l1
      have w3 := medianOfThree_within lo hi _ (hi - 1) (hi - 1 - (hi - lo) / 8)
        (hi - 1 - 2 * ((hi - lo) / 8)) ⟨by omega, by omega⟩ ⟨by omega, by omega⟩
        ⟨by omega, by omega⟩ l2
      exact w1.trans (w2.trans w3)
    · rw [if_neg h40]
      exact Within.refl _ _ _
  obtain ⟨q, hqe, hqw⟩ := hq
  rw [← hqe]
  have hql : hi ≤ q.length := by rw [hqw.length]; exact hlen
  refine ⟨hqw.trans (medianOfThree_within lo hi q lo ((lo + hi) / 2) (hi - 1)
    ⟨by omega, by omega⟩ ⟨by omega, by omega⟩ ⟨by omega, by omega⟩ hql), ?_⟩
  exact medianOfThree_order q lo ((lo + hi) / 2) (hi - 1) (by omega) (by omega) (by omega)
    (by omega) (by omega) (by omega)

theorem dupsHigh_spec (lo hi pv : Nat) (s : Dups) (hlen : hi ≤ s.p.length)
    (hc : s.c + 1 < hi) (h : Split s.p lo hi s.b s.c pv) :
    Split (dupsHigh lo hi s).p lo hi (dupsHigh lo hi s).b (dupsHigh lo hi s).c pv
      ∧ Within (lo + 1) hi s.p (dupsHigh lo hi s).p
      ∧ (dupsHigh lo hi s).b = s.b := by
  obtain ⟨s1, s2, s3, s4, s5, s6, s7⟩ := h
  unfold dupsHigh
  by_cases hl : lessAt s.p lo (hi - 1) = true
  · rw [if_pos hl]
    exact ⟨⟨s1, s2, s3, s4, s5, s6, s7⟩, Within.refl _ _ _, rfl⟩
  · rw [if_neg hl]
    dsimp only
    have hl' : lessAt s.p lo (hi - 1) = false := by
      cases h : lessAt s.p lo (hi - 1)
      · rfl
      · exact absurd h hl
    rw [lessAt_false_iff s.p lo (hi - 1) (by omega) (by omega)] at hl'
    have hlast : key s.p (hi - 1) = pv := by
      have := s7 (hi - 1) (by omega) (by omega)
      omega
    have hk := key_Swap s.p s.c (hi - 1)
    refine ⟨⟨s1, by omega, by omega, ?_, ?_, ?_, ?_⟩,
      Within.swap _ _ s.p _ _ (by omega) (by omega) (by omega) (by omega) hlen, rfl⟩
    · rw [hk lo (by omega) (by omega), if_neg (by omega), if_neg (by omega)]; exact s4
    · intro k hk1 hk2
      rw [hk k (by omega) (by omega), if_neg (by omega), if_neg (by omega)]
      exact s5 k hk1 hk2
    · intro k hk1 hk2
      rw [hk k (by omega) (by omega), if_neg (by omega)]
      by_cases hkc : k = s.c
      · rw [if_pos hkc]; exact hlast
      · rw [if_neg hkc]; exact s6 k hk1 (by omega)
    · intro k hk1 hk2
      rw [hk k (by omega) (by omega)]
      by_cases hkh : k = hi - 1
      · rw [if_pos hkh]; exact s7 s.c (Nat.le_refl _) (by omega)
      · rw [if_neg hkh, if_neg (by omega)]
        exact s7 k (by omega) hk2

theorem dupsLow_spec (lo hi pv : Nat) (s : Dups) (hlen : hi ≤ s.p.length)
    (hb : lo + 1 < s.b) (h : Split s.p lo hi s.b s.c pv) :
    Split (dupsLow lo s).p lo hi (dupsLow lo s).b (dupsLow lo s).c pv
      ∧ (dupsLow lo s).p = s.p
      ∧ s.b - 1 ≤ (dupsLow lo s).b := by
  obtain ⟨s1, s2, s3, s4, s5, s6, s7⟩ := h
  unfold dupsLow
  by_cases hl : lessAt s.p (s.b - 1) lo = true
  · rw [if_pos hl]
    exact ⟨⟨s1, s2, s3, s4, s5, s6, s7⟩, rfl, by omega⟩
  · rw [if_neg hl]
    dsimp only
    have hl' : lessAt s.p (s.b - 1) lo = false := by
      cases h : lessAt s.p (s.b - 1) lo
      · rfl
      · exact absurd h hl
    rw [lessAt_false_iff s.p (s.b - 1) lo (by omega) (by omega)] at hl'
    have heq : key s.p (s.b - 1) = pv := by
      have := s5 (s.b - 1) (by omega) (by omega)
      omega
    refine ⟨⟨by omega, by omega, s3, s4, fun k hk1 hk2 => s5 k hk1 (by omega), ?_, s7⟩,
      rfl, Nat.le_refl _⟩
    intro k hk1 hk2
    by_cases hkb : k = s.b - 1
    · rw [hkb]; exact heq
    · exact s6 k (by omega) hk2

theorem dupsMid_spec (lo hi pv m : Nat) (s : Dups) (hlen : hi ≤ s.p.length)
    (hm1 : lo < m) (hm2 : m < s.b) (h : Split s.p lo hi s.b s.c pv) :
    Split (dupsMid lo m s).p lo hi (dupsMid lo m s).b (dupsMid lo m s).c pv
      ∧ Within (lo + 1) hi s.p (dupsMid lo m s).p := by
  obtain ⟨s1, s2, s3, s4, s5, s6, s7⟩ := h
  unfold dupsMid
  by_cases hl : lessAt s.p m lo = true
  · rw [if_pos hl]
    exact ⟨⟨s1, s2, s3, s4, s5, s6, s7⟩, Within.refl _ _ _⟩
  · rw [if_neg hl]
    dsimp only
    have hl' : lessAt s.p m lo = false := by
      cases h : lessAt s.p m lo
      · rfl
      · exact absurd h hl
    rw [lessAt_false_iff s.p m lo (by omega) (by omega)] at hl'
    have heq : key s.p m = pv := by
      have := s5 m hm1 hm2
      omega
    have hk := key_Swap s.p m (s.b - 1)
    refine ⟨⟨by omega, by omega, s3, ?_, ?_, ?_, ?_⟩,
      Within.swap _ _ s.p _ _ (by omega) (by omega) (by omega) (by omega) hlen⟩
    · rw [hk lo (by omega) (by omega), if_neg (by omega), if_neg (by omega)]; exact s4
    · intro k hk1 hk2
      rw [hk k (by omega) (by omega), if_neg (by omega)]
      by_cases hkm : k = m
      · rw [if_pos hkm]; exact s5 (s.b - 1) (by omega) (by omega)
      · rw [if_neg hkm]; exact s5 k hk1 (by omega)
    · intro k hk1 hk2
      rw [hk k (by omega) (by omega)]
      by_cases hkb : k = s.b - 1
      · rw [if_pos hkb]; exact heq
      · rw [if_neg hkb, if_neg (by omega)]
        exact s6 k (by omega) hk2
    · intro k hk1 hk2
      rw [hk k (by omega) (by omega), if_neg (by omega), if_neg (by omega)]
      exact s7 k hk1 hk2

theorem testDups_spec (p : List Item) (lo hi b pv : Nat) (hsize : hi - lo > 12)
    (hlen : hi ≤ p.length) (h : Split p lo hi b b pv) :
    Split (testDups p lo hi b b).1.p lo hi (testDups p lo hi b b).1.b
        (testDups p lo hi b b).1.c pv
      ∧ Within (lo + 1) hi p (testDups p lo hi b b).1.p := by
  unfold testDups
  by_cases h5 : hi - b < 5
  · rw [if_pos h5]
    exact ⟨h, Within.refl _ _ _⟩
  · rw [if_neg h5]
    by_cases h4 : hi - b < (hi - lo) / 4
    · rw [if_pos h4]
      dsimp only
      obtain ⟨a1, a2, a3⟩ := dupsHigh_spec lo hi pv { p := p, b := b, c := b, dups := 0 }
        hlen (by dsimp only; omega) h
      generalize dupsHigh lo hi { p := p, b := b, c := b, dups := 0 } = t1 at a1 a2 a3
      dsimp only at a2 a3
      have l1 : hi ≤ t1.p.length := by rw [a2.length]; exact hlen
      obtain ⟨b1, b2, b3⟩ := dupsLow_spec lo hi pv t1 l1 (by omega) a1
      generalize dupsLow lo t1 = t2 at b1 b2 b3
      have l2 : hi ≤ t2.p.length := by rw [b2]; exact l1
      obtain ⟨c1, c2⟩ := dupsMid_spec lo hi pv ((lo + hi) / 2) t2 l2 (by omega) (by omega) b1
      refine ⟨c1, a2.trans ?_⟩
      rw [b2] at c2
      exact c2
    · rw [if_neg h4]
      exact ⟨h, Within.refl _ _ _⟩

/-- What `quickSort` needs of `doPivot`: the slice is changed inside `[lo, hi)` only, and
it is split at `midlo < midhi` around one value. -/
theorem doPivot_spec (p : List Item) (lo hi : Nat) (hsize : hi - lo > 12)
    (hlen : hi ≤ p.length) :
    Within lo hi p (doPivot p lo hi).1
      ∧ lo ≤ (doPivot p lo hi).2.1 ∧ (doPivot p lo hi).2.1 < (doPivot p lo hi).2.2
      ∧ (doPivot p lo hi).2.2 ≤ hi
      ∧ ∃ pv, (∀ k, lo ≤ k → k < (doPivot p lo hi).2.1 → key (doPivot p lo hi).1 k ≤ pv)
          ∧ (∀ k, (doPivot p lo hi).2.1 ≤ k → k < (doPivot p lo hi).2.2 →
              key (doPivot p lo hi).1 k = pv)
          ∧ (∀ k, (doPivot p lo hi).2.2 ≤ k → k < hi → pv ≤ key (doPivot p lo hi).1 k) := by
  unfold doPivot
  simp only []
  obtain ⟨w0, hord⟩ := doPivotMedians_spec p lo hi hsize hlen
  generalize doPivotMedians p lo hi = p0 at w0 hord ⊢
  have l0 : hi ≤ p0.length := by rw [w0.length]; exact hlen
  obtain ⟨u1, u2, u3, u4⟩ := scanUp_spec (fun k => lessAt p0 k lo) (hi - 1)
    (hi - 1 - (lo + 1)) (lo + 1) (by omega)
  generalize scanUp (fun k => lessAt p0 k lo) (hi - 1) (hi - 1 - (lo + 1)) (lo + 1) = a
    at u1 u2 u3 u4 ⊢
  have ha := u2 (by omega)
  obtain ⟨r1, r2, r4, r3⟩ := partitionLoop_spec lo hi (key p0 lo) (hi - 1 - a + 1) p0 a (hi - 1)
    (by omega) ha (by omega) l0 (by omega) rfl
    (by
      intro k hk1 hk2
      have := u3 k (by omega) hk2
      rw [lessAt_true_iff p0 k lo (by omega) (by omega)] at this
      omega)
    (by
      intro k hk1 hk2
      have : k = hi - 1 := by omega
      rw [this]; exact hord)
  generalize partitionLoop lo (hi - 1 - a + 1) p0 a (hi - 1) = r at r1 r2 r3 r4 ⊢
  obtain ⟨p1, b1, c1⟩ := r
  dsimp only at r1 r2 r3 r4 ⊢
  subst r4
  have l1 : hi ≤ p1.length := by rw [r3.length]; exact l0
  obtain ⟨t1, t2⟩ := testDups_spec p1 lo hi b1 (key p0 lo) hsize l1 r1
  generalize testDups p1 lo hi b1 b1 = t at t1 t2 ⊢
  have l2 : hi ≤ t.1.p.length := by rw [t2.length]; exact l1
  have hu : ∃ u : List Item × Nat × Nat,
      u = (if t.2 = true then protectLoop lo (t.1.b - a + 1) t.1.p a t.1.b
        else (t.1.p, a, t.1.b))
      ∧ Split u.1 lo hi u.2.2 t.1.c (key p0 lo) ∧ Within (lo + 1) hi t.1.p u.1 := by
    refine ⟨_, rfl, ?_⟩
    by_cases hprot : t.2 = true
    · rw [if_pos hprot]
      exact protectLoop_spec lo hi t.1.c (key p0 lo) (t.1.b - a + 1) t.1.p a t.1.b
        (by omega) l2 (by omega) t1
    · rw [if_neg hprot]
      exact ⟨t1, Within.refl _ _ _⟩
  obtain ⟨u, hue, us, uw⟩ := hu
  rw [← hue]
  obtain ⟨s1, s2, s3, s4, s5, s6, s7⟩ := us
  have l3 : hi ≤ u.1.length := by rw [uw.length]; exact l2
  have hk := key_Swap u.1 lo (u.2.2 - 1)
  have wall : Within lo hi p (Swap u.1 lo (u.2.2 - 1)) :=
    w0.trans (((r3.trans (t2.trans uw)).mono (by omega) (Nat.le_refl _)).trans
      (Within.swap _ _ u.1 _ _ (Nat.le_refl _) (by omega) (by omega) (by omega) l3))
  refine ⟨wall, by omega, by omega, s3, key p0 lo, ?_, ?_, ?_⟩
  · intro k hk1 hk2
    rw [hk k (by omega) (by omega), if_neg (by omega)]
    by_cases hkl : k = lo
    · rw [if_pos hkl]
      by_cases hb : u.2.2 - 1 = lo
      · rw [hb, s4]
      · exact s5 _ (by omega) (by omega)
    · rw [if_neg hkl]
      exact s5 k (by omega) (by omega)
  · intro k hk1 hk2
    rw [hk k (by omega) (by omega)]
    by_cases hkb : k = u.2.2 - 1
    · rw [if_pos hkb]; exact s4
    · rw [if_neg hkb, if_neg (by omega)]
      exact s6 k (by omega) hk2
  · intro k hk1 hk2
    rw [hk k (by omega) (by omega), if_neg (by omega), if_neg (by omega)]
    exact s7 k hk1 hk2

/-! ## quickSort and Sort -/

/-- Two sorted sides around a middle of equal values make a sorted range. -/
theorem SortedOn_glue (r : List Item) (a mlo mhi b pv : Nat)
    (hl : SortedOn r a mlo) (hg : SortedOn r mhi b)
    (bl : ∀ k, a ≤ k → k < mlo → key r k ≤ pv)
    (be : ∀ k, mlo ≤ k → k < mhi → key r k = pv)
    (bg : ∀ k, mhi ≤ k → k < b → pv ≤ key r k) : SortedOn r a b := by
  intro x y hx hxy hy
  by_cases hx1 : x < mlo
  · have h1 := bl x hx hx1
    by_cases hy1 : y < mlo
    · exact hl x y hx hxy hy1
    · by_cases hy2 : y < mhi
      · have := be y (by omega) hy2
        omega
      · have := bg y (by omega) hy
        omega
  · by_cases hx2 : x < mhi
    · have h1 := be x (by omega) hx2
      by_cases hy2 : y < mhi
      · have := be y (by omega) hy2
        omega
      · have := bg y (by omega) hy
        omega
    · exact hg x y (by omega) hxy hy

theorem quickSort_spec :
    ∀ (fuel : Nat) (p : List Item) (a b depth : Nat), a ≤ b → b ≤ p.length → b - a ≤ fuel →
      SortedOn (quickSort fuel p a b depth) a b ∧ Within a b p (quickSort fuel p a b depth) := by
  intro fuel
  induction fuel with
  | zero =>
    intro p a b depth hab hb hf
    unfold quickSort
    refine ⟨?_, Within.refl _ _ _⟩
    intro x y hx hxy hy
    omega
  | succ fuel ih =>
    intro p a b depth hab hb hf
    unfold quickSort
    by_cases hbig : b - a > 12
    · rw [if_pos hbig]
      by_cases hd : depth = 0
      · rw [if_pos hd]
        exact heapSort_spec p a b hab hb
      · rw [if_neg hd]
        simp only []
        obtain ⟨w0, m1, m2, m3, pv, bl, be, bg⟩ := doPivot_spec p a b hbig hb
        generalize doPivot p a b = r at w0 m1 m2 m3 bl be bg ⊢
        obtain ⟨q, mlo, mhi⟩ := r
        dsimp only at w0 m1 m2 m3 bl be bg ⊢
        have lq : b ≤ q.length := by rw [w0.length]; exact hb
        by_cases hside : mlo - a < b - mhi
        · rw [if_pos hside]
          obtain ⟨s1, w1⟩ := ih q a mlo (depth - 1) m1 (by omega) (by omega)
          generalize quickSort fuel q a mlo (depth - 1) = q1 at s1 w1 ⊢
          have lq1 : b ≤ q1.length := by rw [w1.length]; exact lq
          obtain ⟨s2, w2⟩ := ih q1 mhi b (depth - 1) m3 lq1 (by omega)
          generalize quickSort fuel q1 mhi b (depth - 1) = q2 at s2 w2 ⊢
          refine ⟨SortedOn_glue q2 a mlo mhi b pv ?_ s2 ?_ ?_ ?_, ?_⟩
          · intro x y hx hxy hy
            rw [w2.key_outside x (by omega), w2.key_outside y (by omega)]
            exact s1 x y hx hxy hy
          · intro k hk1 hk2
            rw [w2.key_outside k (by omega)]
            exact w1.bound (fun v => v ≤ pv) bl k hk1 hk2
          · intro k hk1 hk2
            rw [w2.key_outside k (by omega), w1.key_outside k (by omega)]
            exact be k hk1 hk2
          · apply w2.bound (fun v => pv ≤ v)
            intro k hk1 hk2
            rw [w1.key_outside k (by omega)]
            exact bg k hk1 hk2
          · exact w0.trans ((w1.mono (Nat.le_refl _) (by omega)).trans
              (w2.mono (by omega) (Nat.le_refl _)))
        · rw [if_neg hside]
          obtain ⟨s1, w1⟩ := ih q mhi b (depth - 1) m3 lq (by omega)
          generalize quickSort fuel q mhi b (depth - 1) = q1 at s1 w1 ⊢
          have lq1 : b ≤ q1.length := by rw [w1.length]; exact lq
          obtain ⟨s2, w2⟩ := ih q1 a mlo (depth - 1) m1 (by omega) (by omega)
          generalize quickSort fuel q1 a mlo (depth - 1) = q2 at s2 w2 ⊢
          refine ⟨SortedOn_glue q2 a mlo mhi b pv s2 ?_ ?_ ?_ ?_, ?_⟩
          · intro x y hx hxy hy
            rw [w2.key_outside x (by omega), w2.key_outside y (by omega)]
            exact s1 x y hx hxy hy
          · apply w2.bound (fun v => v ≤ pv)
            intro k hk1 hk2
            rw [w1.key_outside k (by omega)]
            exact bl k hk1 hk2
          · intro k hk1 hk2
            rw [w2.key_outside k (by omega), w1.key_outside k (by omega)]
            exact be k hk1 hk2
          · intro k hk1 hk2
            rw [w2.key_outside k (by omega)]
            exact w1.bound (fun v => pv ≤ v) bg k hk1 hk2
          · exact w0.trans ((w1.mono (by omega) (Nat.le_refl _)).trans
              (w2.mono (Nat.le_refl _) (by omega)))
    · rw [if_neg hbig]
      by_cases hsmall : b - a > 1
      · rw [if_pos hsmall]
        have w1 := shellLoop_spec a b (b - a) (a + 6) p (Nat.le_refl _) hb
        have l1 : b ≤ (shellLoop b (b - a) (a + 6) p).length := by rw [w1.length]; exact hb
        obtain ⟨s2, w2⟩ := insertionSort_spec (shellLoop b (b - a) (a + 6) p) a b l1
        exact ⟨s2, w1.trans w2⟩
      · rw [if_neg hsmall]
        refine ⟨?_, Within.refl _ _ _⟩
        intro x y hx hxy hy
        have : x = y := by omega
        rw [this]

/-- Go `sort.Sort` of releases 1.7 to 1.18 returns a permutation of its input in which
the hashes do not decrease. -/
theorem SortItems_spec (p : List Item) :
    (SortItems p).Perm p ∧ (SortItems p).Pairwise (fun x y => x.Hash ≤ y.Hash) := by
  obtain ⟨s, w⟩ := quickSort_spec p.length p 0 p.length (maxDepth p.length) (Nat.zero_le _)
    (Nat.le_refl _) (by omega)
  unfold SortItems
  generalize quickSort p.length p 0 p.length (maxDepth p.length) = q at s w
  refine ⟨w.perm, ?_⟩
  rw [List.pairwise_iff_getElem]
  intro i j hi hj hij
  have := s i j (Nat.zero_le _) (by omega) (by rw [← w.length]; exact hj)
  unfold key at this
  rw [List.getElem?_eq_getElem hi, List.getElem?_eq_getElem hj] at this
  exact this

/-- On at most 12 entries `SortItems` is the short-slice sort `sortShortLegacy`. -/
theorem SortItems_short (p : List Item) (h : p.length ≤ 12) : SortItems p = sortShortLegacy p := by
  unfold SortItems sortShortLegacy
  cases hn : p.length with
  | zero => simp [quickSort]
  | succ n =>
    rw [hn] at h
    unfold quickSort
    rw [if_neg (by omega)]
    simp

/-! ## pdqsort: the steps that move elements inside the range -/

theorem depthLoop_pow : ∀ (fuel i : Nat), i ≤ fuel → 0 < i → 2 ^ depthLoop fuel i ≤ 2 * i := by
  intro fuel
  induction fuel with
  | zero => intro i h1 h2; omega
  | succ fuel ih =>
    intro i h1 h2
    unfold depthLoop
    rw [if_pos h2, Nat.pow_succ]
    by_cases h0 : i / 2 = 0
    · rw [h0]
      have : depthLoop fuel 0 = 0 := by
        cases fuel with
        | zero => rfl
        | succ f => unfold depthLoop; rw [if_neg (by omega)]
      rw [this]
      omega
    · have := ih (i / 2) (by omega) (by omega)
      omega

theorem breakOther_lt (length r : Nat) (h : 0 < length) : breakOther length r < length := by
  unfold breakOther
  have h1 : r &&& (nextPowerOfTwo length - 1) ≤ nextPowerOfTwo length - 1 := Nat.and_le_right
  have h2 : nextPowerOfTwo length ≤ 2 * length := depthLoop_pow length length (Nat.le_refl _) h
  have h3 : 0 < nextPowerOfTwo length := Nat.pos_pow_of_pos _ (by omega)
  generalize r &&& (nextPowerOfTwo length - 1) = x at h1
  split <;> omega

theorem breakPatterns_within (next : Nat → Nat) (p : List Item) (a b : Nat)
    (hb : b ≤ p.length) : Within a b p (breakPatterns next p a b) := by
  unfold breakPatterns
  simp only []
  by_cases h8 : b - a ≥ 8
  · rw [if_pos h8]
    have o1 := breakOther_lt (b - a) (next (b - a)) (by omega)
    have o2 := breakOther_lt (b - a) (next (next (b - a))) (by omega)
    have o3 := breakOther_lt (b - a) (next (next (next (b - a)))) (by omega)
    have w1 := Within.swap a b p (a + (b - a) / 4 * 2 - 1 - 1 + 0)
      (a + breakOther (b - a) (next (b - a))) (by omega) (by omega) (by omega) (by omega) hb
    have l1 : b ≤ (Swap p (a + (b - a) / 4 * 2 - 1 - 1 + 0)
        (a + breakOther (b - a) (next (b - a)))).length := by rw [w1.length]; exact hb
    have w2 := Within.swap a b _ (a + (b - a) / 4 * 2 - 1 - 1 + 1)
      (a + breakOther (b - a) (next (next (b - a)))) (by omega) (by omega) (by omega)
      (by omega) l1
    have l2 := l1
    rw [← w2.length] at l2
    have w3 := Within.swap a b _ (a + (b - a) / 4 * 2 - 1 - 1 + 2)
      (a + breakOther (b - a) (next (next (next (b - a))))) (by omega) (by omega) (by omega)
      (by omega) l2
    exact w1.trans (w2.trans w3)
  · rw [if_neg h8]
    exact Within.refl _ _ _

theorem order2_cases (p : List Item) (a b s : Nat) :
    ((order2 p a b s).1 = a ∧ (order2 p a b s).2.1 = b)
      ∨ ((order2 p a b s).1 = b ∧ (order2 p a b s).2.1 = a) := by
  unfold order2
  split
  · exact Or.inr ⟨rfl, rfl⟩
  · exact Or.inl ⟨rfl, rfl⟩

theorem median_cases (p : List Item) (a b c s : Nat) :
    (median p a b c s).1 = a ∨ (median p a b c s).1 = b ∨ (median p a b c s).1 = c := by
  unfold median
  simp only []
  rcases order2_cases p a b s with ⟨h1, h2⟩ | ⟨h1, h2⟩ <;>
    rcases order2_cases p (order2 p a b s).2.1 c (order2 p a b s).2.2 with ⟨h3, h4⟩ | ⟨h3, h4⟩ <;>
    rcases order2_cases p (order2 p a b s).1
      (order2 p (order2 p a b s).2.1 c (order2 p a b s).2.2).1
      (order2 p (order2 p a b s).2.1 c (order2 p a b s).2.2).2.2 with ⟨h5, h6⟩ | ⟨h5, h6⟩ <;>
    rw [h6] <;> first
      | (rw [h3, h2]; simp only [true_or, or_true])
      | (rw [h3]; simp only [true_or, or_true])
      | (rw [h1]; simp only [true_or, or_true])

theorem medianAdjacent_range (p : List Item) (x s lo hi : Nat) (h1 : lo + 1 ≤ x)
    (h2 : x + 1 < hi) :
    lo ≤ (medianAdjacent p x s).1 ∧ (medianAdjacent p x s).1 < hi := by
  unfold medianAdjacent
  rcases median_cases p (x - 1) x (x + 1) s with h | h | h <;> rw [h] <;> omega

/-- The pivot that `choosePivot` names lies in the range. -/
theorem choosePivot_range (p : List Item) (a b : Nat) (h : b - a ≥ 8) :
    a ≤ (choosePivot p a b).1 ∧ (choosePivot p a b).1 < b := by
  unfold choosePivot
  simp only []
  rw [if_pos h]
  by_cases h50 : b - a ≥ 50
  · rw [if_pos h50]
    have r1 := medianAdjacent_range p (a + (b - a) / 4 * 1) 0 a b (by omega) (by omega)
    have r2 := medianAdjacent_range p (a + (b - a) / 4 * 2)
      (medianAdjacent p (a + (b - a) / 4 * 1) 0).2 a b (by omega) (by omega)
    have r3 := medianAdjacent_range p (a + (b - a) / 4 * 3)
      (medianAdjacent p (a + (b - a) / 4 * 2) (medianAdjacent p (a + (b - a) / 4 * 1) 0).2).2
      a b (by omega) (by omega)
    rcases median_cases p (medianAdjacent p (a + (b - a) / 4 * 1) 0).1
      (medianAdjacent p (a + (b - a) / 4 * 2) (medianAdjacent p (a + (b - a) / 4 * 1) 0).2).1
      (medianAdjacent p (a + (b - a) / 4 * 3)
        (medianAdjacent p (a + (b - a) / 4 * 2)
          (medianAdjacent p (a + (b - a) / 4 * 1) 0).2).2).1
      (medianAdjacent p (a + (b - a) / 4 * 3)
        (medianAdjacent p (a + (b - a) / 4 * 2)
          (medianAdjacent p (a + (b - a) / 4 * 1) 0).2).2).2 with h | h | h <;>
      rw [h] <;> omega
  · rw [if_neg h50]
    rcases median_cases p (a + (b - a) / 4 * 1) (a + (b - a) / 4 * 2) (a + (b - a) / 4 * 3) 0
      with h | h | h <;> rw [h] <;> omega

theorem reverseLoop_within (a b : Nat) :
    ∀ (fuel : Nat) (p : List Item) (i j : Nat), a ≤ i → j < b → b ≤ p.length →
      Within a b p (reverseLoop fuel p i j) := by
  intro fuel
  induction fuel with
  | zero => intro p i j _ _ _; exact Within.refl _ _ _
  | succ fuel ih =>
    intro p i j hi hj hb
    unfold reverseLoop
    by_cases hlt : i < j
    · rw [if_pos hlt]
      have w1 := Within.swap a b p i j hi (by omega) (by omega) hj hb
      have l1 : b ≤ (Swap p i j).length := by rw [w1.length]; exact hb
      exact w1.trans (ih (Swap p i j) (i + 1) (j - 1) (by omega) (by omega) l1)
    · rw [if_neg hlt]
      exact Within.refl _ _ _

theorem reverseRange_within (p : List Item) (a b : Nat) (hab : a < b) (hb : b ≤ p.length) :
    Within a b p (reverseRange p a b) :=
  reverseLoop_within a b (b - a) p a (b - 1) (Nat.le_refl _) (by omega) hb

/-! ## pdqsort: partialInsertionSort -/

theorem Within.lower {a b : Nat} {p q : List Item} (h : Within a b p q)
    (hl : LowerBound p a b) : LowerBound q a b := by
  rcases hl with h0 | hl
  · exact Or.inl h0
  · by_cases h0 : a = 0
    · exact Or.inl h0
    · right
      rw [h.key_outside (a - 1) (by omega)]
      exact h.bound (fun v => key p (a - 1) ≤ v) hl

/-- Below a range whose elements are not under the element before it, the loop that
goes down to index 1 stops where the loop that goes down to `a` stops. -/
theorem sinkDown_zero (a : Nat) :
    ∀ (j : Nat) (p : List Item), a ≤ j → j < p.length →
      (a = 0 ∨ ∀ k, a ≤ k → k ≤ j → key p (a - 1) ≤ key p k) →
      sinkDown 0 j p = sinkDown a j p := by
  intro j
  induction j with
  | zero => intro p _ _ _; rfl
  | succ j ih =>
    intro p haj hlen hinv
    by_cases ha : a ≤ j
    · unfold sinkDown
      by_cases hl : lessAt p (j + 1) j = true
      · rw [if_pos ⟨by omega, hl⟩, if_pos ⟨by omega, hl⟩]
        apply ih (Swap p (j + 1) j) ha (by rw [Swap_length]; omega)
        rcases hinv with h0 | hinv
        · exact Or.inl h0
        · by_cases h0 : a = 0
          · exact Or.inl h0
          · right
            intro k hk1 hk2
            rw [key_Swap p (j + 1) j _ hlen (by omega), key_Swap p (j + 1) j _ hlen (by omega),
              if_neg (by omega), if_neg (by omega)]
            by_cases hkj : k = j
            · rw [if_pos hkj]; exact hinv (j + 1) (by omega) (by omega)
            · rw [if_neg hkj, if_neg (by omega)]
              exact hinv k hk1 (by omega)
      · rw [if_neg (fun h => hl h.2), if_neg (fun h => hl h.2)]
    · have haj' : a = j + 1 := by omega
      rcases hinv with h0 | hinv
      · omega
      · have hk := hinv (j + 1) (by omega) (Nat.le_refl _)
        rw [haj'] at hk
        simp only [Nat.add_sub_cancel] at hk
        have hl : lessAt p (j + 1) j = false := by
          rw [lessAt_false_iff p (j + 1) j hlen (by omega)]
          exact hk
        unfold sinkDown
        rw [if_neg (by rw [hl]; simp), if_neg (by omega)]

theorem shiftRight_within (lo b : Nat) :
    ∀ (fuel j : Nat) (p : List Item), lo + 1 ≤ j → b ≤ p.length →
      Within lo b p (shiftRight b fuel j p) := by
  intro fuel
  induction fuel with
  | zero => intro j p _ _; exact Within.refl _ _ _
  | succ fuel ih =>
    intro j p hj hb
    unfold shiftRight
    by_cases hc : j < b ∧ lessAt p j (j - 1) = true
    · rw [if_pos hc]
      have w1 := Within.swap lo b p j (j - 1) (by omega) hc.1 (by omega) (by omega) hb
      have l1 : b ≤ (Swap p j (j - 1)).length := by rw [w1.length]; exact hb
      exact w1.trans (ih (j + 1) _ (by omega) l1)
    · rw [if_neg hc]
      exact Within.refl _ _ _

/-- A sorted range grows over indices whose element is not below the one before. -/
theorem SortedOn_extend (p : List Item) (a i j : Nat) (hs : SortedOn p a i)
    (hadj : ∀ k, i ≤ k → k < j → key p (k - 1) ≤ key p k) : SortedOn p a j := by
  intro x y hx hxy hy
  induction y, hxy using Nat.le_induction with
  | base => exact Nat.le_refl _
  | succ y hxy ih =>
    have h1 := ih (by omega)
    have h2 : key p y ≤ key p (y + 1) := by
      by_cases hlt : y + 1 < i
      · exact hs y (y + 1) (by omega) (by omega) hlt
      · have := hadj (y + 1) (by omega) hy
        simpa using this
    omega

theorem partialInsertionLoop_spec (a b : Nat) :
    ∀ (steps i : Nat) (p : List Item), a < i → i ≤ b → b ≤ p.length →
      LowerBound p a b → SortedOn p a i →
      Within a b p (partialInsertionLoop a b steps i p).1
        ∧ ((partialInsertionLoop a b steps i p).2 = true →
            SortedOn (partialInsertionLoop a b steps i p).1 a b) := by
  intro steps
  induction steps with
  | zero =>
    intro i p _ _ _ _ _
    unfold partialInsertionLoop
    exact ⟨Within.refl _ _ _, fun h => by simp at h⟩
  | succ steps ih =>
    intro i p hai hib hb hlow hs
    unfold partialInsertionLoop
    simp only []
    obtain ⟨u1, u2, u3, u4⟩ := scanUp_spec (fun k => !lessAt p k (k - 1)) b (b - i) i
      (Nat.le_refl _)
    generalize scanUp (fun k => !lessAt p k (k - 1)) b (b - i) i = i1 at u1 u2 u3 u4 ⊢
    have hi1b := u2 hib
    have hs1 : SortedOn p a i1 := by
      apply SortedOn_extend p a i i1 hs
      intro k hk1 hk2
      have := u3 k hk1 hk2
      simp only [Bool.not_eq_true'] at this
      rw [lessAt_false_iff p k (k - 1) (by omega) (by omega)] at this
      exact this
    by_cases hend : i1 = b
    · rw [if_pos hend]
      dsimp only
      refine ⟨Within.refl _ _ _, fun _ => ?_⟩
      rw [← hend]
      exact hs1
    · rw [if_neg hend]
      by_cases hshort : b - a < 50
      · rw [if_pos hshort]
        exact ⟨Within.refl _ _ _, fun h => by simp at h⟩
      · rw [if_neg hshort]
        have hlt : key p i1 < key p (i1 - 1) := by
          have := u4 (by omega)
          simp only [Bool.not_eq_false'] at this
          rw [lessAt_true_iff p i1 (i1 - 1) (by omega) (by omega)] at this
          exact this
        have hk := key_Swap p i1 (i1 - 1)
        have w1 : Within a b p (Swap p i1 (i1 - 1)) :=
          Within.swap a b p i1 (i1 - 1) (by omega) (by omega) (by omega) (by omega) hb
        have l1 : b ≤ (Swap p i1 (i1 - 1)).length := by rw [w1.length]; exact hb
        have low1 := w1.lower hlow
        have hsq1 : SortedOn (Swap p i1 (i1 - 1)) a (i1 - 1) := by
          intro x y hx hxy hy
          rw [hk x (by omega) (by omega), hk y (by omega) (by omega), if_neg (by omega),
            if_neg (by omega), if_neg (by omega), if_neg (by omega)]
          exact hs1 x y hx hxy (by omega)
        generalize Swap p i1 (i1 - 1) = q1 at w1 l1 low1 hsq1 ⊢
        have hq2 : ∃ q2 : List Item,
            q2 = (if i1 - a ≥ 2 then sinkDown 0 (i1 - 1) q1 else q1)
              ∧ Within a b q1 q2 ∧ SortedOn q2 a i1 := by
          refine ⟨_, rfl, ?_⟩
          by_cases h2 : i1 - a ≥ 2
          · rw [if_pos h2]
            rw [sinkDown_zero a (i1 - 1) q1 (by omega) (by omega)
              (by
                rcases low1 with h0 | low1
                · exact Or.inl h0
                · exact Or.inr (fun k hk1 hk2 => low1 k hk1 (by omega)))]
            obtain ⟨s, w⟩ := sinkDown_spec a (i1 - 1) (i1 - 1) q1 (by omega) (Nat.le_refl _)
              (by omega) hsq1
              (by intro x y hx hxy hy; have : x = y := by omega
                  subst this; exact Nat.le_refl _)
              (by intro x y _ _ h1 h2; omega)
            have e : i1 - 1 + 1 = i1 := by omega
            rw [e] at s w
            exact ⟨w.mono (Nat.le_refl _) (by omega), s⟩
          · rw [if_neg h2]
            refine ⟨Within.refl _ _ _, ?_⟩
            intro x y hx hxy hy
            have : x = y := by omega
            rw [this]
        obtain ⟨q2, hq2e, w2, hsq2⟩ := hq2
        rw [← hq2e]
        have l2 : b ≤ q2.length := by rw [w2.length]; exact l1
        have hq3 : ∃ q3 : List Item,
            q3 = (if b - i1 ≥ 2 then shiftRight b (b - i1) (i1 + 1) q2 else q2)
              ∧ Within i1 b q2 q3 := by
          refine ⟨_, rfl, ?_⟩
          by_cases h2 : b - i1 ≥ 2
          · rw [if_pos h2]
            exact shiftRight_within i1 b (b - i1) (i1 + 1) q2 (Nat.le_refl _) l2
          · rw [if_neg h2]
            exact Within.refl _ _ _
        obtain ⟨q3, hq3e, w3⟩ := hq3
        rw [← hq3e]
        have wall : Within a b p q3 := w1.trans (w2.trans (w3.mono (by omega) (Nat.le_refl _)))
        have l3 : b ≤ q3.length := by rw [wall.length]; exact hb
        have hsq3 : SortedOn q3 a i1 := by
          intro x y hx hxy hy
          rw [w3.key_outside x (by omega), w3.key_outside y (by omega)]
          exact hsq2 x y hx hxy hy
        obtain ⟨r1, r2⟩ := ih i1 q3 (by omega) hi1b l3 (wall.lower hlow) hsq3
        exact ⟨wall.trans r1, r2⟩

theorem partialInsertionSort_spec (p : List Item) (a b : Nat) (hab : a < b)
    (hb : b ≤ p.length) (hlow : LowerBound p a b) :
    Within a b p (partialInsertionSort p a b).1
      ∧ ((partialInsertionSort p a b).2 = true → SortedOn (partialInsertionSort p a b).1 a b) := by
  unfold partialInsertionSort
  apply partialInsertionLoop_spec a b 5 (a + 1) p (by omega) (by omega) hb hlow
  intro x y hx hxy hy
  have : x = y := by omega
  rw [this]

/-! ## pdqsort: partition and partitionEqual -/

theorem partitionScan_spec (a b pv : Nat) :
    ∀ (fuel : Nat) (p : List Item) (i c : Nat), a < i → i ≤ c → c ≤ b →
      b ≤ p.length → c - i < fuel → key p a = pv →
      (∀ k, a < k → k < i → key p k < pv) →
      (∀ k, c ≤ k → k < b → pv ≤ key p k) →
      a < (partitionScan a fuel p i c).2 ∧ (partitionScan a fuel p i c).2 ≤ b
        ∧ key (partitionScan a fuel p i c).1 a = pv
        ∧ (∀ k, a < k → k < (partitionScan a fuel p i c).2 →
            key (partitionScan a fuel p i c).1 k < pv)
        ∧ (∀ k, (partitionScan a fuel p i c).2 ≤ k → k < b →
            pv ≤ key (partitionScan a fuel p i c).1 k)
        ∧ Within (a + 1) b p (partitionScan a fuel p i c).1 := by
  intro fuel
  induction fuel with
  | zero => intro p i c _ _ _ _ hf; omega
  | succ fuel ih =>
    intro p i c hai hic hcb hlen hf hpv hlt hge
    unfold partitionScan
    simp only []
    obtain ⟨u1, u2, u3, u4⟩ := scanUp_spec (fun k => lessAt p k a) c (c - i) i (Nat.le_refl _)
    generalize scanUp (fun k => lessAt p k a) c (c - i) i = i1 at u1 u2 u3 u4 ⊢
    obtain ⟨d1, d2, d3, d4⟩ := scanDown_spec (fun k => !lessAt p k a) i1 c
    generalize scanDown (fun k => !lessAt p k a) i1 c = c1 at d1 d2 d3 d4 ⊢
    have hi1c := u2 hic
    have hi1c1 := d2 hi1c
    have hlt1 : ∀ k, a < k → k < i1 → key p k < pv := by
      intro k hk1 hk2
      by_cases hki : k < i
      · exact hlt k hk1 hki
      · have := u3 k (by omega) hk2
        rw [lessAt_true_iff p k a (by omega) (by omega)] at this
        omega
    have hge1 : ∀ k, c1 ≤ k → k < b → pv ≤ key p k := by
      intro k hk1 hk2
      by_cases hkc : c ≤ k
      · exact hge k hkc hk2
      · have := d3 k hk1 (by omega)
        simp only [Bool.not_eq_true'] at this
        rw [lessAt_false_iff p k a (by omega) (by omega)] at this
        omega
    by_cases hdone : i1 ≥ c1
    · rw [if_pos hdone]
      dsimp only
      have : i1 = c1 := by omega
      subst this
      exact ⟨by omega, by omega, hpv, hlt1, hge1, Within.refl _ _ _⟩
    · rw [if_neg hdone]
      have hgei : pv ≤ key p i1 := by
        have := u4 (by omega)
        rw [lessAt_false_iff p i1 a (by omega) (by omega)] at this
        omega
      have hltc : key p (c1 - 1) < pv := by
        have := d4 (by omega)
        simp only [Bool.not_eq_false'] at this
        rw [lessAt_true_iff p (c1 - 1) a (by omega) (by omega)] at this
        omega
      have hne : i1 ≠ c1 - 1 := by
        intro h
        rw [← h] at hltc
        omega
      have hk := key_Swap p i1 (c1 - 1)
      have hw : Within (a + 1) b p (Swap p i1 (c1 - 1)) :=
        Within.swap _ _ p _ _ (by omega) (by omega) (by omega) (by omega) hlen
      have hlen' : b ≤ (Swap p i1 (c1 - 1)).length := by rw [Swap_length]; exact hlen
      obtain ⟨r1, r2, r3, r4, r5, r6⟩ := ih (Swap p i1 (c1 - 1)) (i1 + 1) (c1 - 1) (by omega)
        (by omega) (by omega) hlen' (by omega)
        (by rw [hk a (by omega) (by omega), if_neg (by omega), if_neg (by omega)]; exact hpv)
        (by
          intro k hk1 hk2
          rw [hk k (by omega) (by omega), if_neg (by omega)]
          by_cases hki : k = i1
          · rw [if_pos hki]; exact hltc
          · rw [if_neg hki]; exact hlt1 k hk1 (by omega))
        (by
          intro k hk1 hk2
          rw [hk k (by omega) (by omega)]
          by_cases hkc : k = c1 - 1
          · rw [if_pos hkc]; exact hgei
          · rw [if_neg hkc, if_neg (by omega)]
            exact hge1 k (by omega) hk2)
      exact ⟨r1, r2, r3, r4, r5, hw.trans r6⟩

/-- The slice and the new pivot of `partition` are those of the loop run from the start:
the scans before the loop are its first round. -/
theorem partition_eq (p : List Item) (a b pivot : Nat) :
    (partition p a b pivot).1
        = Swap (partitionScan a (b - a - 1 + 1) (Swap p a pivot) (a + 1) b).1
            ((partitionScan a (b - a - 1 + 1) (Swap p a pivot) (a + 1) b).2 - 1) a
      ∧ (partition p a b pivot).2.1
        = (partitionScan a (b - a - 1 + 1) (Swap p a pivot) (a + 1) b).2 - 1 := by
  have step : ∀ (fuel : Nat) (q : List Item) (i c : Nat),
      partitionScan a (fuel + 1) q i c
        = if scanUp (fun k => lessAt q k a) c (c - i) i
              ≥ scanDown (fun k => !lessAt q k a) (scanUp (fun k => lessAt q k a) c (c - i) i) c
          then (q, scanDown (fun k => !lessAt q k a)
            (scanUp (fun k => lessAt q k a) c (c - i) i) c)
          else partitionScan a fuel
            (Swap q (scanUp (fun k => lessAt q k a) c (c - i) i)
              (scanDown (fun k => !lessAt q k a)
                (scanUp (fun k => lessAt q k a) c (c - i) i) c - 1))
            (scanUp (fun k => lessAt q k a) c (c - i) i + 1)
            (scanDown (fun k => !lessAt q k a)
              (scanUp (fun k => lessAt q k a) c (c - i) i) c - 1) :=
    fun _ _ _ _ => rfl
  rw [step]
  unfold partition
  simp only []
  split <;> exact ⟨rfl, rfl⟩

theorem partition_spec (p : List Item) (a b pivot : Nat) (h1 : a ≤ pivot) (h2 : pivot < b)
    (hb : b ≤ p.length) :
    Within a b p (partition p a b pivot).1
      ∧ a ≤ (partition p a b pivot).2.1 ∧ (partition p a b pivot).2.1 < b
      ∧ ∃ pv, (∀ k, a ≤ k → k < (partition p a b pivot).2.1 →
                key (partition p a b pivot).1 k ≤ pv)
          ∧ key (partition p a b pivot).1 (partition p a b pivot).2.1 = pv
          ∧ (∀ k, (partition p a b pivot).2.1 < k → k < b →
                pv ≤ key (partition p a b pivot).1 k) := by
  obtain ⟨e1, e2⟩ := partition_eq p a b pivot
  rw [e1, e2]
  have w0 : Within a b p (Swap p a pivot) :=
    Within.swap a b p a pivot (Nat.le_refl _) (by omega) h1 h2 hb
  have l0 : b ≤ (Swap p a pivot).length := by rw [w0.length]; exact hb
  obtain ⟨r1, r2, r3, r4, r5, r6⟩ := partitionScan_spec a b (key (Swap p a pivot) a)
    (b - a - 1 + 1) (Swap p a pivot) (a + 1) b (by omega) (by omega) (Nat.le_refl _) l0
    (by omega) rfl (by intro k hk1 hk2; omega) (by intro k hk1 hk2; omega)
  generalize key (Swap p a pivot) a = pv at r3 r4 r5
  generalize partitionScan a (b - a - 1 + 1) (Swap p a pivot) (a + 1) b = r at r1 r2 r3 r4 r5 r6 ⊢
  obtain ⟨q, c⟩ := r
  dsimp only at r1 r2 r3 r4 r5 r6 ⊢
  have lq : b ≤ q.length := by rw [r6.length]; exact l0
  have hk := key_Swap q (c - 1) a
  refine ⟨w0.trans ((r6.mono (by omega) (Nat.le_refl _)).trans
      (Within.swap a b q (c - 1) a (by omega) (by omega) (Nat.le_refl _) (by omega) lq)),
    by omega, by omega, pv, ?_, ?_, ?_⟩
  · intro k hk1 hk2
    rw [hk k (by omega) (by omega)]
    by_cases hka : k = a
    · rw [if_pos hka]
      exact Nat.le_of_lt (r4 (c - 1) (by omega) (by omega))
    · rw [if_neg hka, if_neg (by omega)]
      exact Nat.le_of_lt (r4 k (by omega) (by omega))
  · rw [hk (c - 1) (by omega) (by omega)]
    by_cases hca : c - 1 = a
    · rw [if_pos hca, hca]; exact r3
    · rw [if_neg hca, if_pos rfl]; exact r3
  · intro k hk1 hk2
    rw [hk k (by omega) (by omega), if_neg (by omega), if_neg (by omega)]
    exact r5 k (by omega) hk2

theorem partitionEqual_spec (p : List Item) (a b pivot : Nat) (h1 : a ≤ pivot)
    (h2 : pivot < b) (hb : b ≤ p.length)
    (hmin : ∀ k, a ≤ k → k < b → key p pivot ≤ key p k) :
    Within a b p (partitionEqual p a b pivot).1
      ∧ a < (partitionEqual p a b pivot).2 ∧ (partitionEqual p a b pivot).2 ≤ b
      ∧ (∀ k, a ≤ k → k < (partitionEqual p a b pivot).2 →
            key (partitionEqual p a b pivot).1 k = key p pivot)
      ∧ (∀ k, (partitionEqual p a b pivot).2 ≤ k → k < b →
            key p pivot ≤ key (partitionEqual p a b pivot).1 k) := by
  unfold partitionEqual
  dsimp only
  have w0 : Within a b p (Swap p a pivot) :=
    Within.swap a b p a pivot (Nat.le_refl _) (by omega) h1 h2 hb
  have l0 : b ≤ (Swap p a pivot).length := by rw [w0.length]; exact hb
  have hpv : key (Swap p a pivot) a = key p pivot := by
    rw [key_Swap p a pivot a (by omega) (by omega)]
    by_cases hap : a = pivot
    · rw [if_pos hap, hap]
    · rw [if_neg hap, if_pos rfl]
  obtain ⟨r1, r2, r3, r4⟩ := partitionLoop_spec a b (key p pivot) (b - a) (Swap p a pivot)
    (a + 1) b (by omega) (by omega) (Nat.le_refl _) l0 (by omega) hpv
    (by intro k hk1 hk2; omega) (by intro k hk1 hk2; omega)
  generalize partitionLoop a (b - a) (Swap p a pivot) (a + 1) b = r at r1 r2 r3 r4 ⊢
  obtain ⟨q, i, c⟩ := r
  dsimp only at r1 r2 r3 r4 ⊢
  subst r3
  obtain ⟨s1, s2, s3, s4, s5, s6, s7⟩ := r1
  have wall : Within a b p q := w0.trans (r4.mono (by omega) (Nat.le_refl _))
  have hall := wall.bound (fun v => key p pivot ≤ v) hmin
  refine ⟨wall, by omega, s3, ?_, s7⟩
  intro k hk1 hk2
  by_cases hka : k = a
  · rw [hka]; exact s4
  · have h3 := s5 k (by omega) hk2
    have h4 := hall k hk1 (by omega)
    omega

/-! ## pdqsort and Sort from Go 1.19 on -/

theorem LowerBound_shorter {p : List Item} {a b b' : Nat} (h : LowerBound p a b) (hb : b' ≤ b) :
    LowerBound p a b' := by
  rcases h with h0 | h
  · exact Or.inl h0
  · exact Or.inr (fun k hk1 hk2 => h k hk1 (by omega))

theorem pdqsort_spec (next : Nat → Nat) :
    ∀ (fuel : Nat) (p : List Item) (a b limit : Nat) (wb wp : Bool), a ≤ b → b ≤ p.length →
      b - a ≤ fuel → LowerBound p a b →
      SortedOn (pdqsort next fuel p a b limit wb wp) a b
        ∧ Within a b p (pdqsort next fuel p a b limit wb wp) := by
  intro fuel
  induction fuel with
  | zero =>
    intro p a b limit wb wp hab hb hf _
    unfold pdqsort
    refine ⟨?_, Within.refl _ _ _⟩
    intro x y hx hxy hy
    omega
  | succ fuel ih =>
    intro p a b limit wb wp hab hb hf hlow
    unfold pdqsort
    by_cases hsmall : b - a ≤ 12
    · rw [if_pos hsmall]
      exact insertionSort_spec p a b hb
    · rw [if_neg hsmall]
      by_cases hlim : limit = 0
      · rw [if_pos hlim]
        exact heapSort_spec p a b hab hb
      · rw [if_neg hlim]
        simp only []
        -- breakPatterns
        obtain ⟨p1, hp1, w1⟩ : ∃ p1 : List Item,
            p1 = (if wb = false then breakPatterns next p a b else p) ∧ Within a b p p1 := by
          refine ⟨_, rfl, ?_⟩
          split
          · exact breakPatterns_within next p a b hb
          · exact Within.refl _ _ _
        rw [← hp1]
        generalize (if wb = false then limit - 1 else limit) = limit1
        have l1 : b ≤ p1.length := by rw [w1.length]; exact hb
        -- choosePivot and reverseRange
        have hch := choosePivot_range p1 a b (by omega)
        generalize choosePivot p1 a b = ch at hch ⊢
        obtain ⟨p2, hp2, w2⟩ : ∃ p2 : List Item,
            p2 = (if ch.2 = sortedHint.decreasingHint then reverseRange p1 a b else p1)
              ∧ Within a b p1 p2 := by
          refine ⟨_, rfl, ?_⟩
          split
          · exact reverseRange_within p1 a b (by omega) l1
          · exact Within.refl _ _ _
        rw [← hp2]
        have l2 : b ≤ p2.length := by rw [w2.length]; exact l1
        obtain ⟨pivot, hpivot, hpr1, hpr2⟩ : ∃ pivot : Nat,
            pivot = (if ch.2 = sortedHint.decreasingHint then b - 1 - (ch.1 - a) else ch.1)
              ∧ a ≤ pivot ∧ pivot < b := by
          refine ⟨_, rfl, ?_⟩
          split <;> omega
        rw [← hpivot]
        generalize (if ch.2 = sortedHint.decreasingHint then sortedHint.increasingHint
          else ch.2) = hint
        -- partialInsertionSort
        have low2 : LowerBound p2 a b := w2.lower (w1.lower hlow)
        obtain ⟨s, hs, w3, hsorted⟩ : ∃ s : List Item × Bool,
            s = (if wb = true ∧ wp = true ∧ hint = sortedHint.increasingHint
                then partialInsertionSort p2 a b else (p2, false))
              ∧ Within a b p2 s.1 ∧ (s.2 = true → SortedOn s.1 a b) := by
          refine ⟨_, rfl, ?_⟩
          split
          · exact partialInsertionSort_spec p2 a b (by omega) l2 low2
          · exact ⟨Within.refl _ _ _, fun h => by simp at h⟩
        rw [← hs]
        obtain ⟨q, done⟩ := s
        dsimp only at w3 hsorted ⊢
        have wq : Within a b p q := w1.trans (w2.trans w3)
        have lq : b ≤ q.length := by rw [wq.length]; exact hb
        have lowq : LowerBound q a b := wq.lower hlow
        by_cases hdone : done = true
        · rw [if_pos hdone]
          exact ⟨hsorted hdone, wq⟩
        · rw [if_neg hdone]
          by_cases heq : a > 0 ∧ lessAt q (a - 1) pivot = false
          · rw [if_pos heq]
            have hmin : ∀ k, a ≤ k → k < b → key q pivot ≤ key q k := by
              intro k hk1 hk2
              have h1 := heq.2
              rw [lessAt_false_iff q (a - 1) pivot (by omega) (by omega)] at h1
              rcases lowq with h0 | lowq
              · omega
              · have := lowq k hk1 hk2
                omega
            obtain ⟨e1, e2, e3, e4, e5⟩ := partitionEqual_spec q a b pivot hpr1 hpr2 lq hmin
            generalize partitionEqual q a b pivot = r at e1 e2 e3 e4 e5 ⊢
            obtain ⟨q1, mid⟩ := r
            dsimp only at e1 e2 e3 e4 e5 ⊢
            have lq1 : b ≤ q1.length := by rw [e1.length]; exact lq
            obtain ⟨s2, w4⟩ := ih q1 mid b limit1 wb wp e3 lq1 (by omega)
              (Or.inr (fun k hk1 hk2 => by
                rw [e4 (mid - 1) (by omega) (by omega)]
                exact e5 k hk1 hk2))
            generalize pdqsort next fuel q1 mid b limit1 wb wp = q2 at s2 w4 ⊢
            refine ⟨SortedOn_glue q2 a a mid b (key q pivot) ?_ s2 ?_ ?_ ?_,
              wq.trans (e1.trans (w4.mono (by omega) (Nat.le_refl _)))⟩
            · intro x y hx hxy hy; omega
            · intro k hk1 hk2; omega
            · intro k hk1 hk2
              rw [w4.key_outside k (by omega)]
              exact e4 k hk1 hk2
            · exact w4.bound (fun v => key q pivot ≤ v) e5
          · rw [if_neg heq]
            obtain ⟨wr, m1, m2, pv, bl, be, bg⟩ := partition_spec q a b pivot hpr1 hpr2 lq
            generalize partition q a b pivot = r at wr m1 m2 bl be bg ⊢
            obtain ⟨q1, mid, already⟩ := r
            dsimp only at wr m1 m2 bl be bg ⊢
            have lq1 : b ≤ q1.length := by rw [wr.length]; exact lq
            have lowq1 : LowerBound q1 a b := wr.lower lowq
            by_cases hside : mid - a < b - mid
            · rw [if_pos hside]
              obtain ⟨s2, w4⟩ := ih q1 a mid limit1 true true m1 (by omega) (by omega)
                (LowerBound_shorter lowq1 (by omega))
              generalize pdqsort next fuel q1 a mid limit1 true true = q2 at s2 w4 ⊢
              have lq2 : b ≤ q2.length := by rw [w4.length]; exact lq1
              obtain ⟨s3, w5⟩ := ih q2 (mid + 1) b limit1 (decide (mid - a ≥ (b - a) / 8))
                already (by omega) lq2 (by omega)
                (Or.inr (fun k hk1 hk2 => by
                  simp only [Nat.add_sub_cancel]
                  rw [w4.key_outside mid (by omega), w4.key_outside k (by omega), be]
                  exact bg k (by omega) hk2))
              generalize pdqsort next fuel q2 (mid + 1) b limit1
                (decide (mid - a ≥ (b - a) / 8)) already = q3 at s3 w5 ⊢
              refine ⟨SortedOn_glue q3 a mid (mid + 1) b pv ?_ s3 ?_ ?_ ?_,
                wq.trans (wr.trans ((w4.mono (Nat.le_refl _) (by omega)).trans
                  (w5.mono (by omega) (Nat.le_refl _))))⟩
              · intro x y hx hxy hy
                rw [w5.key_outside x (by omega), w5.key_outside y (by omega)]
                exact s2 x y hx hxy hy
              · intro k hk1 hk2
                rw [w5.key_outside k (by omega)]
                exact w4.bound (fun v => v ≤ pv) bl k hk1 hk2
              · intro k hk1 hk2
                have : k = mid := by omega
                rw [this, w5.key_outside mid (by omega), w4.key_outside mid (by omega)]
                exact be
              · apply w5.bound (fun v => pv ≤ v)
                intro k hk1 hk2
                rw [w4.key_outside k (by omega)]
                exact bg k (by omega) hk2
            · rw [if_neg hside]
              obtain ⟨s2, w4⟩ := ih q1 (mid + 1) b limit1 true true (by omega) lq1 (by omega)
                (Or.inr (fun k hk1 hk2 => by
                  simp only [Nat.add_sub_cancel]
                  rw [be]
                  exact bg k (by omega) hk2))
              generalize pdqsort next fuel q1 (mid + 1) b limit1 true true = q2 at s2 w4 ⊢
              have lq2 : b ≤ q2.length := by rw [w4.length]; exact lq1
              have w4' : Within a b q1 q2 := w4.mono (by omega) (Nat.le_refl _)
              obtain ⟨s3, w5⟩ := ih q2 a mid limit1 (decide (b - mid ≥ (b - a) / 8))
                already m1 (by omega) (by omega) (LowerBound_shorter (w4'.lower lowq1) (by omega))
              generalize pdqsort next fuel q2 a mid limit1
                (decide (b - mid ≥ (b - a) / 8)) already = q3 at s3 w5 ⊢
              refine ⟨SortedOn_glue q3 a mid (mid + 1) b pv s3 ?_ ?_ ?_ ?_,
                wq.trans (wr.trans (w4'.trans (w5.mono (Nat.le_refl _) (by omega))))⟩
              · intro x y hx hxy hy
                rw [w5.key_outside x (by omega), w5.key_outside y (by omega)]
                exact s2 x y hx hxy hy
              · apply w5.bound (fun v => v ≤ pv)
                intro k hk1 hk2
                rw [w4.key_outside k (by omega)]
                exact bl k hk1 hk2
              · intro k hk1 hk2
                have : k = mid := by omega
                rw [this, w5.key_outside mid (by omega), w4.key_outside mid (by omega)]
                exact be
              · intro k hk1 hk2
                rw [w5.key_outside k (by omega)]
                exact w4.bound (fun v => pv ≤ v) (fun k hk1 hk2 => bg k (by omega) hk2) k
                  hk1 hk2

/-- Go `sort.Sort` from release 1.19 on returns a permutation of its input in which the
hashes do not decrease, whatever the generator of `breakPatterns` yields. -/
theorem SortItemsPdq_spec (next : Nat → Nat) (p : List Item) :
    (SortItemsPdq next p).Perm p
      ∧ (SortItemsPdq next p).Pairwise (fun x y => x.Hash ≤ y.Hash) := by
  unfold SortItemsPdq
  by_cases h1 : p.length ≤ 1
  · rw [if_pos h1]
    refine ⟨List.Perm.refl _, ?_⟩
    rw [List.pairwise_iff_getElem]
    intro i j hi hj hij
    omega
  · rw [if_neg h1]
    obtain ⟨s, w⟩ := pdqsort_spec next p.length p 0 p.length (bitsLen p.length) true true
      (Nat.zero_le _) (Nat.le_refl _) (by omega) (Or.inl rfl)
    generalize pdqsort next p.length p 0 p.length (bitsLen p.length) true true = q at s w
    refine ⟨w.perm, ?_⟩
    rw [List.pairwise_iff_getElem]
    intro i j hi hj hij
    have := s i j (Nat.zero_le _) (by omega) (by rw [← w.length]; exact hj)
    unfold key at this
    rw [List.getElem?_eq_getElem hi, List.getElem?_eq_getElem hj] at this
    exact this

/-- On at most 12 entries `SortItemsPdq` is the short-slice sort `sortShortPdq`. -/
theorem SortItemsPdq_short (next : Nat → Nat) (p : List Item) (h : p.length ≤ 12) :
    SortItemsPdq next p = sortShortPdq p := by
  unfold SortItemsPdq sortShortPdq
  by_cases h1 : p.length ≤ 1
  · rw [if_pos h1, if_neg (by omega)]
  · rw [if_neg h1, if_pos (by omega)]
    cases hn : p.length with
    | zero => omega
    | succ n =>
      rw [hn] at h
      unfold pdqsort
      rw [if_pos (by omega)]

/-- A permutation with hashes that do not decrease meets the contract `SortedBy`, and
of two positions in it the earlier one never holds the larger hash. -/
theorem ascending_of_pairwise (items sorted : List Item) (hperm : sorted.Perm items)
    (hs : sorted.Pairwise (fun a b => a.Hash ≤ b.Hash)) :
    sorted.Perm items
      ∧ sorted.Pairwise (fun a b => a.Hash ≤ b.Hash)
      ∧ (∀ (i j : Nat) (a b : Item), i < j → sorted[i]? = some a → sorted[j]? = some b →
            a.Hash ≤ b.Hash ∧ ¬ (b.Hash < a.Hash))
      ∧ SortedBy items sorted := by
  have hs2 : sorted.Pairwise (fun a b => Less b a = false) := by
    refine hs.imp ?_
    intro a b hab
    simp only [Less, decide_eq_false_iff_not, not_lt]
    exact hab
  refine ⟨hperm, hs, ?_, hperm, hs2⟩
  intro i j a b hij ha hb
  have hle := sorted_hash_le sorted hs2 i j (Nat.le_of_lt hij) a b ha hb
  exact ⟨hle, by omega⟩

/-- C17: for every sequence of loaded entries, the sequence that `sort.Sort` with
`Items.Less` leaves for the binary search is a permutation of the loaded entries in which
the hashes do not decrease: of two positions the earlier one never holds the larger
hash. The order is the ascending one, not the descending one that the comment on `Less`
names. This holds of `sort.Sort` as published in Go 1.7 to 1.18 (`SortItems`) and as
published from Go 1.19 on (`SortItemsPdq`, whatever its generator `next` yields), both
embedded in full. -/
theorem SortItems_ascending (next : Nat → Nat) (items : List Item) :
    ((SortItems items).Perm items
        ∧ (SortItems items).Pairwise (fun a b => a.Hash ≤ b.Hash)
        ∧ (∀ (i j : Nat) (a b : Item), i < j → (SortItems items)[i]? = some a →
              (SortItems items)[j]? = some b → a.Hash ≤ b.Hash ∧ ¬ (b.Hash < a.Hash))
        ∧ SortedBy items (SortItems items))
      ∧ ((SortItemsPdq next items).Perm items
        ∧ (SortItemsPdq next items).Pairwise (fun a b => a.Hash ≤ b.Hash)
        ∧ (∀ (i j : Nat) (a b : Item), i < j → (SortItemsPdq next items)[i]? = some a →
              (SortItemsPdq next items)[j]? = some b → a.Hash ≤ b.Hash ∧ ¬ (b.Hash < a.Hash))
        ∧ SortedBy items (SortItemsPdq next items)) :=
  ⟨ascending_of_pairwise items (SortItems items) (SortItems_spec items).1
      (SortItems_spec items).2,
    ascending_of_pairwise items (SortItemsPdq next items) (SortItemsPdq_spec next items).1
      (SortItemsPdq_spec next items).2⟩

/-- Witness of C17 on the fourteen entries of `sampleLong`: `doPivot` splits them at 9,
`choosePivot` names index 3 (key 1), which `partition` moves to index 1, and both sorts leave the keys 0 to 13 in
ascending order. -/
theorem SortItems_ascending_witness :
    (SortItems sampleLong).map (fun e => e.Hash)
        = [0, 1, 2, 3, 4, 5, 6, 7, 8, 9, 10, 11, 12, 13]
      ∧ (SortItemsPdq (fun r => r) sampleLong).map (fun e => e.Hash)
        = [0, 1, 2, 3, 4, 5, 6, 7, 8, 9, 10, 11, 12, 13]
      ∧ (doPivot sampleLong 0 14).2 = (9, 10)
      ∧ (choosePivot sampleLong 0 14).1 = 3
      ∧ (partition sampleLong 0 14 3).2 = (1, false)
      ∧ (((SortItems sampleLong).Perm sampleLong
          ∧ (SortItems sampleLong).Pairwise (fun a b => a.Hash ≤ b.Hash)
          ∧ (∀ (i j : Nat) (a b : Item), i < j → (SortItems sampleLong)[i]? = some a →
                (SortItems sampleLong)[j]? = some b → a.Hash ≤ b.Hash ∧ ¬ (b.Hash < a.Hash))
          ∧ SortedBy sampleLong (SortItems sampleLong))
        ∧ ((SortItemsPdq (fun r => r) sampleLong).Perm sampleLong
          ∧ (SortItemsPdq (fun r => r) sampleLong).Pairwise (fun a b => a.Hash ≤ b.Hash)
          ∧ (∀ (i j : Nat) (a b : Item), i < j →
                (SortItemsPdq (fun r => r) sampleLong)[i]? = some a →
                (SortItemsPdq (fun r => r) sampleLong)[j]? = some b →
                a.Hash ≤ b.Hash ∧ ¬ (b.Hash < a.Hash))
          ∧ SortedBy sampleLong (SortItemsPdq (fun r => r) sampleLong))) :=
  ⟨by decide, by decide, by decide, by decide, by decide,
    SortItems_ascending (fun r => r) sampleLong⟩

end UnpackV3
